import Mathlib

/-! Stiffness assembly and constrained solve of `threed_beam_fea.cpp`.

A shallow embedding of `src/src/threed_beam_fea.cpp`.  The `double` scalars of the source are
read as elements of a linearly ordered field `K` (exact arithmetic); `std::sqrt` is an
explicit argument `sqrt : K → K`.  The 32-bit index arithmetic of the source is kept, with its
reductions modulo `2 ^ 32`.  Calls that the source leaves undefined or that end in an Eigen
assertion (reading a `std::vector` out of range, `insert` at an occupied or out-of-bounds
position, a triplet outside the matrix) are modelled as `none`.
-/

set_option linter.unusedSectionVars false
set_option linter.unusedVariables false

namespace fea

variable {K : Type} [LinearOrderedField K]

/-! ## Containers -/

/-- Modelled from the spec: the enumerator `DOF::NUM_DOFS` of the header, which is not part of
the sources; each node owns exactly 6 generalized displacements. -/
def NUM_DOFS : Nat := 6

/-- The type `Node`, an `Eigen::Vector3d`. -/
abbrev Node (K : Type) := Fin 3 → K

/-- The type `Elem`, the two node indices of an element (`int` values). -/
abbrev Elem := Int × Int

/-- The type `LocalMatrix`, a dense 12 x 12 matrix. -/
abbrev LocalMatrix (K : Type) := Matrix (Fin 12) (Fin 12) K

/-- The type `RotationMatrix`, a dense 3 x 3 matrix. -/
abbrev RotationMatrix (K : Type) := Matrix (Fin 3) (Fin 3) K

/-- The record `Props` with the fields `calcKelem` reads. -/
structure Props (K : Type) where
  EA : K
  EIz : K
  EIy : K
  GJ : K
  normal_vec : Node K

/-- The record `Job` with the fields the solver reads. -/
structure Job (K : Type) where
  nodes : List (Node K)
  elems : List Elem
  props : List (Props K)

/-- The record `BC`: a prescribed displacement `value` at `(node, dof)`. -/
structure BC (K : Type) where
  node : Nat
  dof : Nat
  value : K

/-- The record `Force`: a load `value` at `(node, dof)`. -/
structure Force (K : Type) where
  node : Nat
  dof : Nat
  value : K

/-- The record `Tie`: two node numbers with a linear and a rotational spring constant. -/
structure Tie (K : Type) where
  node_number_1 : Nat
  node_number_2 : Nat
  lmult : K
  rmult : K

/-- The record `Equation::Term`. -/
structure Term (K : Type) where
  node_number : Nat
  dof : Nat
  coefficient : K

/-- The record `Equation`: the list of its terms. -/
structure Equation (K : Type) where
  terms : List (Term K)

/-- An `Eigen::Triplet<double>`: row and column are of the storage index type `int`. -/
structure Triplet (K : Type) where
  row : Int
  col : Int
  value : K

/-! ## Machine integers -/

/-- Reduction of a natural number to `unsigned int`. -/
def u32 (n : Nat) : Nat := n % 2 ^ 32

/-- Conversion of an `int` to `unsigned int`. -/
def toU32 (z : Int) : Nat := (z % 2 ^ 32).toNat

/-- Conversion of an `unsigned int` to `int` (two's complement). -/
def toI32 (u : Nat) : Int := if u < 2 ^ 31 then (u : Int) else (u : Int) - 2 ^ 32

/-! ## Vectors -/

/-- The value of `v.squaredNorm()`. -/
def squaredNorm (v : Node K) : K := v 0 * v 0 + v 1 * v 1 + v 2 * v 2

/-- The function `norm(n1, n2)`: the Euclidean norm of `n2 - n1`. -/
def norm (sqrt : K → K) (n1 n2 : Node K) : K :=
  let dn : Node K := n2 - n1
  sqrt (squaredNorm dn)

/-- The value of `v.normalized()`: `v` divided by its norm, and `v` itself when its squared
norm is not positive. -/
def normalized (sqrt : K → K) (v : Node K) : Node K :=
  let z := squaredNorm v
  if 0 < z then fun i => v i / sqrt z else v

/-- The value of `a.cross(b)`. -/
def cross (a b : Node K) : Node K :=
  ![a 1 * b 2 - a 2 * b 1, a 2 * b 0 - a 0 * b 2, a 0 * b 1 - a 1 * b 0]

/-! ## Dense matrices -/

/-- The assignment `M(i, j) = v`. -/
def setCoeff (M : LocalMatrix K) (i j : Fin 12) (v : K) : LocalMatrix K :=
  fun r c => if r = i ∧ c = j then v else M r c

/-- The assignment `M.block<3, 3>(o, o) = r`. -/
def setBlock (M : LocalMatrix K) (o : Nat) (r : RotationMatrix K) : LocalMatrix K :=
  fun i j =>
    if h : (o ≤ i.val ∧ i.val < o + 3) ∧ (o ≤ j.val ∧ j.val < o + 3) then
      r ⟨i.val - o, by omega⟩ ⟨j.val - o, by omega⟩
    else M i j

/-! ## The assembler -/

/-- The member buffers of `GlobalStiffAssembler`. -/
structure GlobalStiffAssembler (K : Type) where
  Kelem : LocalMatrix K
  Klocal : LocalMatrix K
  Aelem : LocalMatrix K
  AelemT : LocalMatrix K
  perElemKlocalAelem : List (LocalMatrix K)

/-- Modelled from the spec: the constructor of `GlobalStiffAssembler`, declared in the header,
which is not part of the sources.  All unlisted entries of the local stiffness are zero and the
12 x 12 transform is block-diagonal, so the buffers start as zero matrices. -/
def GlobalStiffAssembler.init : GlobalStiffAssembler K :=
  { Kelem := 0, Klocal := 0, Aelem := 0, AelemT := 0, perElemKlocalAelem := [] }

/-- A run of assignments `M(i, j) = v`, executed from the head of the list. -/
def assignAll (M : LocalMatrix K) (l : List (Fin 12 × Fin 12 × K)) : LocalMatrix K :=
  l.foldl (fun A a => setCoeff A a.1 a.2.1 a.2.2) M

/-- The 40 assignments `Klocal(i, j) = ...` of `calcKelem`, in the order of the source, as
triples `(i, j, value)`. -/
def klocalAssignments (tmpEA tmpGJ tmp12z tmp6z tmp1z tmp12y tmp6y tmp1y : K) :
    List (Fin 12 × Fin 12 × K) :=
  [(0, 0, tmpEA), (0, 6, -tmpEA),
   (1, 1, tmp12z), (1, 5, tmp6z), (1, 7, -tmp12z), (1, 11, tmp6z),
   (2, 2, tmp12y), (2, 4, -tmp6y), (2, 8, -tmp12y), (2, 10, -tmp6y),
   (3, 3, tmpGJ), (3, 9, -tmpGJ),
   (4, 2, -tmp6y), (4, 4, 4 * tmp1y), (4, 8, tmp6y), (4, 10, 2 * tmp1y),
   (5, 1, tmp6z), (5, 5, 4 * tmp1z), (5, 7, -tmp6z), (5, 11, 2 * tmp1z),
   (6, 0, -tmpEA), (6, 6, tmpEA),
   (7, 1, -tmp12z), (7, 5, -tmp6z), (7, 7, tmp12z), (7, 11, -tmp6z),
   (8, 2, -tmp12y), (8, 4, tmp6y), (8, 8, tmp12y), (8, 10, tmp6y),
   (9, 3, -tmpGJ), (9, 9, tmpGJ),
   (10, 2, -tmp6y), (10, 4, 2 * tmp1y), (10, 8, tmp6y), (10, 10, 4 * tmp1y),
   (11, 1, tmp6z), (11, 5, 2 * tmp1z), (11, 7, -tmp6z), (11, 11, 4 * tmp1z)]

/-- The update of the buffer `Klocal` by the assignments of `calcKelem`. -/
def writeKlocal (Klocal : LocalMatrix K)
    (tmpEA tmpGJ tmp12z tmp6z tmp1z tmp12y tmp6y tmp1y : K) : LocalMatrix K :=
  assignAll Klocal (klocalAssignments tmpEA tmpGJ tmp12z tmp6z tmp1z tmp12y tmp6y tmp1y)

/-- The method `calcAelem`: the rotation is written into the four diagonal blocks. -/
def calcAelem (Aelem : LocalMatrix K) (r : RotationMatrix K) : LocalMatrix K :=
  let A := setBlock Aelem 0 r
  let A := setBlock A 3 r
  let A := setBlock A 6 r
  setBlock A 9 r

/-- The element `job.nodes[nn]` for an `int` index; `none` outside the vector. -/
def nodeAt (job : Job K) (nn : Int) : Option (Node K) :=
  if 0 ≤ nn then job.nodes[nn.toNat]? else none

/-- The local stiffness that `calcKelem` leaves in `Klocal` for properties `p` and the element
length `length`, starting from the buffer `Klocal`. -/
def klocalOf (Klocal : LocalMatrix K) (p : Props K) (length : K) : LocalMatrix K :=
  let EA := p.EA
  let EIz := p.EIz
  let EIy := p.EIy
  let GJ := p.GJ
  let tmpEA := EA / length
  let tmpGJ := GJ / length
  let tmp12z := 12 * EIz / (length * length * length)
  let tmp6z := 6 * EIz / (length * length)
  let tmp1z := EIz / length
  let tmp12y := 12 * EIy / (length * length * length)
  let tmp6y := 6 * EIy / (length * length)
  let tmp1y := EIy / length
  writeKlocal Klocal tmpEA tmpGJ tmp12z tmp6z tmp1z tmp12y tmp6y tmp1y

/-- The rotation matrix `r` of `calcKelem`: its rows are `nx`, `ny` and `nz`. -/
def rotationOf (sqrt : K → K) (n1 n2 : Node K) (p : Props K) : RotationMatrix K :=
  let nx := normalized sqrt (n2 - n1)
  let ny := normalized sqrt p.normal_vec
  let nz := normalized sqrt (cross nx ny)
  Matrix.of ![nx, ny, nz]

/-- The method `calcKelem(i, job)`: updates `Klocal`, `Aelem`, `AelemT`, `Kelem` and slot `i`
of `perElemKlocalAelem`.  The dump of `Klocal` to a file is left out. -/
def GlobalStiffAssembler.calcKelem (sqrt : K → K) (self : GlobalStiffAssembler K) (i : Nat)
    (job : Job K) : Option (GlobalStiffAssembler K) :=
  match job.props[i]?, job.elems[i]? with
  | some p, some e =>
    let nn1 := e.1
    let nn2 := e.2
    match nodeAt job nn1, nodeAt job nn2 with
    | some n1, some n2 =>
      let length := norm sqrt n1 n2
      let Klocal := klocalOf self.Klocal p length
      let r := rotationOf sqrt n1 n2 p
      let Aelem := calcAelem self.Aelem r
      let AelemT := Aelem.transpose
      let Kelem := AelemT * Klocal * Aelem
      let KlocalAelem := Klocal * Aelem
      if i < self.perElemKlocalAelem.length then
        some { Kelem := Kelem, Klocal := Klocal, Aelem := Aelem, AelemT := AelemT,
               perElemKlocalAelem := self.perElemKlocalAelem.set i KlocalAelem }
      else none
    | _, _ => none
  | _, _ => none

/-! ## Sparse matrices -/

/-- An `Eigen::SparseMatrix<double>`: its dimensions and the coefficients it stores; `none`
marks a position without a stored coefficient. -/
structure SparseMat (K : Type) where
  rows : Nat
  cols : Nat
  stored : Nat → Nat → Option K

/-- The constructor `SparseMat(rows, cols)`: no stored coefficient. -/
def SparseMat.empty (rows cols : Nat) : SparseMat K :=
  { rows := rows, cols := cols, stored := fun _ _ => none }

/-- The value of `m.coeff(r, c)`: the stored coefficient, and zero where none is stored. -/
def SparseMat.coeff (m : SparseMat K) (r c : Nat) : K := (m.stored r c).getD 0

/-- The statement `m.insert(r, c) = v`.  Eigen asserts that the position lies inside the
matrix and holds no coefficient yet. -/
def SparseMat.insert (m : SparseMat K) (r c : Nat) (v : K) : Option (SparseMat K) :=
  if r < m.rows ∧ c < m.cols ∧ (m.stored r c).isNone then
    some { rows := m.rows, cols := m.cols,
           stored := fun i j => if i = r ∧ j = c then some v else m.stored i j }
  else none

/-- The sum of the values of the triplets at position `(r, c)`. -/
def tripletSum (ts : List (Triplet K)) (r c : Nat) : K :=
  ((ts.filter (fun t => t.row = (r : Int) ∧ t.col = (c : Int))).map (fun t => t.value)).sum

/-- The call `m.setFromTriplets(ts.begin(), ts.end())`: the former content is discarded and
the values of triplets at one position are summed.  Eigen asserts that every triplet lies
inside the matrix. -/
def SparseMat.setFromTriplets (m : SparseMat K) (ts : List (Triplet K)) :
    Option (SparseMat K) :=
  if ts.all (fun t => 0 ≤ t.row ∧ t.row < (m.rows : Int) ∧ 0 ≤ t.col ∧ t.col < (m.cols : Int))
  then
    some { rows := m.rows, cols := m.cols, stored := fun r c =>
      if (ts.any fun t => t.row = (r : Int) ∧ t.col = (c : Int)) = true then
        some (tripletSum ts r c)
      else none }
  else none

/-- The call `m.prune(reference)` with the default tolerance `epsilon`: a stored coefficient
`v` is suppressed when it is much smaller than `reference`, that is when
`|v| ≤ |reference| * epsilon`. -/
def SparseMat.prune (m : SparseMat K) (reference epsilon : K) : SparseMat K :=
  { rows := m.rows, cols := m.cols, stored := fun r c =>
      match m.stored r c with
      | some v => if |v| ≤ |reference| * epsilon then none else some v
      | none => none }

/-- The value of `m.topLeftCorner(n, k)`. -/
def SparseMat.topLeftCorner (m : SparseMat K) (n k : Nat) : SparseMat K :=
  { rows := n, cols := k, stored := fun r c => if r < n ∧ c < k then m.stored r c else none }

/-- The value of `Eigen::NumTraits<double>::dummy_precision()`. -/
def dummy_precision : K := 1 / 10 ^ 12

/-- The value of `std::numeric_limits<double>::epsilon()`. -/
def dbl_epsilon : K := 1 / 2 ^ 52

/-- The value of `M.sparseView()`, listed in the order of the iteration of `operator()`
(outer index `j`, then the inner iterator): the entries `(row, col, value)` of `M` that are
not zero. -/
def sparseView (M : LocalMatrix K) : List (Nat × Nat × K) :=
  (List.finRange 12).flatMap fun j =>
    (List.finRange 12).filterMap fun i =>
      if M i j = 0 then none else some (i.val, j.val, M i j)

/-! ## Assembly of the global stiffness -/

/-- The triplet that the loop of `operator()` pushes for the entry `(row, col)` with value `v`
of the element stiffness, for an element with nodes `nn1` and `nn2`. -/
def scatter (nn1 nn2 : Int) (row col : Nat) (v : K) : Triplet K :=
  let dofs_per_elem : Nat := NUM_DOFS
  if row < 6 then
    if col < 6 then
      { row := toI32 (u32 (u32 (dofs_per_elem * toU32 nn1) + row)),
        col := toI32 (u32 (u32 (dofs_per_elem * toU32 nn1) + col)), value := v }
    else
      { row := toI32 (u32 (u32 (dofs_per_elem * toU32 nn1) + row)),
        col := toI32 (u32 (u32 (dofs_per_elem * toU32 (nn2 - 1)) + col)), value := v }
  else
    if col < 6 then
      { row := toI32 (u32 (u32 (dofs_per_elem * toU32 (nn2 - 1)) + row)),
        col := toI32 (u32 (u32 (dofs_per_elem * toU32 nn1) + col)), value := v }
    else
      { row := toI32 (u32 (u32 (dofs_per_elem * toU32 (nn2 - 1)) + row)),
        col := toI32 (u32 (u32 (dofs_per_elem * toU32 (nn2 - 1)) + col)), value := v }

/-- The triplets that one pass of the element loop of `operator()` pushes. -/
def elemTriplets (Kelem : LocalMatrix K) (nn1 nn2 : Int) : List (Triplet K) :=
  (sparseView Kelem).map fun e => scatter nn1 nn2 e.1 e.2.1 e.2.2

/-- The state of the element loop of `operator()` after its first `k` passes, started with
the assembler `self` and the triplets `triplets`. -/
def elemLoop (sqrt : K → K) (job : Job K) (self : GlobalStiffAssembler K)
    (triplets : List (Triplet K)) : Nat → Option (GlobalStiffAssembler K × List (Triplet K))
  | 0 => some (self, triplets)
  | i + 1 =>
    match elemLoop sqrt job self triplets i with
    | none => none
    | some (a, ts) =>
      match a.calcKelem sqrt i job, job.elems[i]? with
      | some a1, some e => some (a1, ts ++ elemTriplets a1.Kelem e.1 e.2)
      | _, _ => none

/-- The four triplets that `loadTies` pushes for one tie and one degree of freedom `j`. -/
def tieTriplets (tie : Tie K) (j : Nat) : List (Triplet K) :=
  let dofs_per_elem : Nat := NUM_DOFS
  let nn1 := tie.node_number_1
  let nn2 := tie.node_number_2
  let lmult := tie.lmult
  let rmult := tie.rmult
  let spring_constant := if j < 3 then lmult else rmult
  [ { row := toI32 (u32 (u32 (dofs_per_elem * nn1) + j)),
      col := toI32 (u32 (u32 (dofs_per_elem * nn1) + j)), value := spring_constant },
    { row := toI32 (u32 (u32 (dofs_per_elem * nn2) + j)),
      col := toI32 (u32 (u32 (dofs_per_elem * nn2) + j)), value := spring_constant },
    { row := toI32 (u32 (u32 (dofs_per_elem * nn1) + j)),
      col := toI32 (u32 (u32 (dofs_per_elem * nn2) + j)), value := -spring_constant },
    { row := toI32 (u32 (u32 (dofs_per_elem * nn2) + j)),
      col := toI32 (u32 (u32 (dofs_per_elem * nn1) + j)), value := -spring_constant } ]

/-- The function `loadTies`: for every tie and every degree of freedom four triplets are
pushed onto `triplets`. -/
def loadTies (triplets : List (Triplet K)) (ties : List (Tie K)) : List (Triplet K) :=
  triplets ++ ties.flatMap fun tie => (List.range NUM_DOFS).flatMap fun j => tieTriplets tie j

/-- The value of `v.resize(n)` for the vector of per-element matrices. -/
def resizeMats (v : List (LocalMatrix K)) (n : Nat) : List (LocalMatrix K) :=
  v.take n ++ List.replicate (n - v.length) 0

/-- The assembler after `perElemKlocalAelem.resize(job.elems.size())`. -/
def GlobalStiffAssembler.resized (self : GlobalStiffAssembler K) (job : Job K) :
    GlobalStiffAssembler K :=
  { self with perElemKlocalAelem := resizeMats self.perElemKlocalAelem job.elems.length }

/-- The method `GlobalStiffAssembler::operator()`: the element loop, `loadTies`, and
`Kg.setFromTriplets`. -/
def GlobalStiffAssembler.assemble (sqrt : K → K) (self : GlobalStiffAssembler K)
    (Kg : SparseMat K) (job : Job K) (ties : List (Tie K)) :
    Option (GlobalStiffAssembler K × SparseMat K) :=
  match elemLoop sqrt job (self.resized job) [] job.elems.length with
  | none => none
  | some (a, triplets) =>
    let triplets := loadTies triplets ties
    match Kg.setFromTriplets triplets with
    | none => none
    | some Kg1 => some (a, Kg1)

/-! ## Constraints and loads -/

/-- The loop of `loadBCs` from pass `i` on; `BCs` holds the conditions still to be loaded. -/
def loadBCsLoop (global_add_idx : Nat) :
    List (BC K) → Nat → SparseMat K → SparseMat K → Option (SparseMat K × SparseMat K)
  | [], _, Kg, force_vec => some (Kg, force_vec)
  | bc :: rest, i, Kg, force_vec =>
    let bc_idx := u32 (u32 (NUM_DOFS * bc.node) + bc.dof)
    match Kg.insert bc_idx (global_add_idx + i) 1 with
    | none => none
    | some Kg1 =>
      match Kg1.insert (global_add_idx + i) bc_idx 1 with
      | none => none
      | some Kg2 =>
        if |bc.value| > dbl_epsilon then
          match force_vec.insert (global_add_idx + i) 0 bc.value with
          | none => none
          | some force_vec1 => loadBCsLoop global_add_idx rest (i + 1) Kg2 force_vec1
        else loadBCsLoop global_add_idx rest (i + 1) Kg2 force_vec

/-- The function `loadBCs(Kg, force_vec, BCs, num_nodes)`. -/
def loadBCs (Kg force_vec : SparseMat K) (BCs : List (BC K)) (num_nodes : Nat) :
    Option (SparseMat K × SparseMat K) :=
  let global_add_idx := u32 (NUM_DOFS * num_nodes)
  loadBCsLoop global_add_idx BCs 0 Kg force_vec

/-- The inner loop of `loadEquations` over the terms of one equation. -/
def loadTermsLoop (row_idx : Nat) : List (Term K) → SparseMat K → Option (SparseMat K)
  | [], Kg => some Kg
  | t :: rest, Kg =>
    let col_idx := u32 (u32 (NUM_DOFS * t.node_number) + t.dof)
    match Kg.insert row_idx col_idx t.coefficient with
    | none => none
    | some Kg1 =>
      match Kg1.insert col_idx row_idx t.coefficient with
      | none => none
      | some Kg2 => loadTermsLoop row_idx rest Kg2

/-- The outer loop of `loadEquations` from pass `i` on. -/
def loadEquationsLoop (global_add_idx : Nat) :
    List (Equation K) → Nat → SparseMat K → Option (SparseMat K)
  | [], _, Kg => some Kg
  | eq :: rest, i, Kg =>
    let row_idx := global_add_idx + i
    match loadTermsLoop row_idx eq.terms Kg with
    | none => none
    | some Kg1 => loadEquationsLoop global_add_idx rest (i + 1) Kg1

/-- The function `loadEquations(Kg, equations, num_nodes, num_bcs)`. -/
def loadEquations (Kg : SparseMat K) (equations : List (Equation K)) (num_nodes num_bcs : Nat) :
    Option (SparseMat K) :=
  let global_add_idx := u32 (u32 (NUM_DOFS * num_nodes) + num_bcs)
  loadEquationsLoop global_add_idx equations 0 Kg

/-- The function `loadForces(force_vec, forces)`. -/
def loadForces : SparseMat K → List (Force K) → Option (SparseMat K)
  | force_vec, [] => some force_vec
  | force_vec, f :: rest =>
    let idx := u32 (u32 (NUM_DOFS * f.node) + f.dof)
    match force_vec.insert idx 0 f.value with
    | none => none
    | some force_vec1 => loadForces force_vec1 rest

/-! ## The augmented system of `solve` -/

/-- The first part of `solve`: the global matrix and the force vector are sized, the
stiffness is assembled, and `loadBCs`, `loadEquations` and `loadForces` are run.  The result is
the assembler, `Kg` and `force_vec` as they stand before `Kg.prune`. -/
def augmentedSystem (sqrt : K → K) (job : Job K) (BCs : List (BC K)) (forces : List (Force K))
    (ties : List (Tie K)) (equations : List (Equation K)) :
    Option (GlobalStiffAssembler K × SparseMat K × SparseMat K) :=
  let dofs_per_elem : Nat := NUM_DOFS
  let size := dofs_per_elem * job.nodes.length + BCs.length + equations.length
  let Kg : SparseMat K := SparseMat.empty size size
  let force_vec : SparseMat K := SparseMat.empty size 1
  match GlobalStiffAssembler.init.assemble sqrt Kg job ties with
  | none => none
  | some (assembleK3D, Kg1) =>
    match loadBCs Kg1 force_vec BCs (u32 job.nodes.length) with
    | none => none
    | some (Kg2, force_vec1) =>
      match (if equations.length > 0 then
          loadEquations Kg2 equations (u32 job.nodes.length) (u32 BCs.length) else some Kg2) with
      | none => none
      | some Kg3 =>
        match (if forces.length > 0 then loadForces force_vec1 forces else some force_vec1) with
        | none => none
        | some force_vec2 => some (assembleK3D, Kg3, force_vec2)

/-- The matrix handed to the solver: `Kg.prune(1.e-14)` applied to the augmented matrix. -/
def prunedKg (Kg : SparseMat K) : SparseMat K := Kg.prune (1 / 10 ^ 14) dummy_precision

/-- A vector `x` solves the square system `Kg * x = force_vec`. -/
def Solves (Kg force_vec : SparseMat K) (x : Nat → K) : Prop :=
  ∀ r, r < Kg.rows → ∑ c in Finset.range Kg.cols, Kg.coeff r c * x c = force_vec.coeff r 0

/-- The product `Kg * dispSparse` of a sparse matrix with the leading `Kg.cols` entries of
`x`, at row `r`. -/
def mulVecAt (Kg : SparseMat K) (x : Nat → K) (r : Nat) : K :=
  if r < Kg.rows then ∑ c in Finset.range Kg.cols, Kg.coeff r c * x c else 0

/-- The matrix that `solve` multiplies with the displacements to obtain the nodal forces:
the top left corner of the pruned `Kg`, of `6 * |nodes|` rows and columns. -/
def nodalForceMatrix (Kg : SparseMat K) (job : Job K) : SparseMat K :=
  let dofs_per_elem : Nat := NUM_DOFS
  (prunedKg Kg).topLeftCorner (dofs_per_elem * job.nodes.length)
    (dofs_per_elem * job.nodes.length)

/-! ## Definitions used to state the properties -/

/-- The positions that `calcKelem` assigns in `Klocal`. -/
def klocalPositions : List (Fin 12 × Fin 12) :=
  (klocalAssignments (0 : ℚ) 0 0 0 0 0 0 0).map (fun a => (a.1, a.2.1))

/-- A buffer `Klocal` that is zero at the positions `calcKelem` does not assign. -/
def KlocalClean (M : LocalMatrix K) : Prop :=
  ∀ r c, (r, c) ∉ klocalPositions → M r c = 0

/-- The 12 x 12 transform of the spec: block-diagonal with `r` repeated four times. -/
def blockDiagonal4 (r : RotationMatrix K) : LocalMatrix K := fun i j =>
  if i.val / 3 = j.val / 3 then
    r ⟨i.val % 3, Nat.mod_lt _ (by decide)⟩ ⟨j.val % 3, Nat.mod_lt _ (by decide)⟩
  else 0

/-- A buffer `Aelem` that is zero outside the four diagonal blocks. -/
def BlockClean (M : LocalMatrix K) : Prop :=
  ∀ i j : Fin 12, i.val / 3 ≠ j.val / 3 → M i j = 0

/-- The element stiffness in the global frame that `calcKelem` computes from clean buffers. -/
def kelemOf (sqrt : K → K) (p : Props K) (n1 n2 : Node K) : LocalMatrix K :=
  let A := calcAelem 0 (rotationOf sqrt n1 n2 p)
  A.transpose * klocalOf 0 p (norm sqrt n1 n2) * A

/-- The global index of the local row or column `i` of an element with nodes `nn1`, `nn2`,
as the loop of `operator()` computes it. -/
def globalIndex (nn1 nn2 : Int) (i : Nat) : Int :=
  if i < 6 then toI32 (u32 (u32 (NUM_DOFS * toU32 nn1) + i))
  else toI32 (u32 (u32 (NUM_DOFS * toU32 (nn2 - 1)) + i))

/-- The global index of the claim: node0's block for a local index below 6, node1's block,
based at `6 * node1`, for the others. -/
def blockIndex (node0 node1 : Int) (i : Nat) : Int :=
  if i < 6 then 6 * node0 + i else 6 * node1 + ((i : Int) - 6)

/-- The stiffness of a bar with the constant `k` between its two ends. -/
def barBlock (k : K) : Matrix (Fin 2) (Fin 2) K := !![k, -k; -k, k]

/-- The bending stiffness of a beam of length `L` in one plane, on the degrees of freedom
(translation, rotation) of the first end and of the second end; `s` is the sign of the
coupling between translation and rotation. -/
def bendingBlock (EI L s : K) : Matrix (Fin 4) (Fin 4) K :=
  !![12 * EI / L ^ 3, s * (6 * EI / L ^ 2), -(12 * EI / L ^ 3), s * (6 * EI / L ^ 2);
     s * (6 * EI / L ^ 2), 4 * EI / L, -(s * (6 * EI / L ^ 2)), 2 * EI / L;
     -(12 * EI / L ^ 3), -(s * (6 * EI / L ^ 2)), 12 * EI / L ^ 3, -(s * (6 * EI / L ^ 2));
     s * (6 * EI / L ^ 2), 2 * EI / L, -(s * (6 * EI / L ^ 2)), 4 * EI / L]

/-- The 12 x 12 matrix that holds the block `B` on the degrees of freedom `dofs` and zero
elsewhere. -/
def place {n : Nat} (dofs : Fin n → Fin 12) (B : Matrix (Fin n) (Fin n) K) : LocalMatrix K :=
  fun r c => ∑ i, ∑ j, if dofs i = r ∧ dofs j = c then B i j else 0

/-- The standard stiffness of a 3D Euler-Bernoulli beam as the spec words it: `EA / L` on the
axial degrees of freedom 0 and 6, `GJ / L` on the torsional ones 3 and 9, the bending terms of
`EIz` on 1, 5, 7, 11 and those of `EIy` on 2, 4, 8, 10 with the opposite sign of the
coupling; every other entry is zero. -/
def stdBeamStiffness (EA EIy EIz GJ L : K) : LocalMatrix K :=
  place ![0, 6] (barBlock (EA / L)) + place ![3, 9] (barBlock (GJ / L))
    + place ![1, 5, 7, 11] (bendingBlock EIz L 1)
    + place ![2, 4, 8, 10] (bendingBlock EIy L (-1))

/-- Every triplet of `ts` lies in the leading `n` rows and columns. -/
def InBlock (n : Nat) (ts : List (Triplet K)) : Prop :=
  ∀ t ∈ ts, 0 ≤ t.row ∧ t.row < (n : Int) ∧ 0 ≤ t.col ∧ t.col < (n : Int)

/-- The elements of the job have properties and reference nodes of the job. -/
def ValidElems (job : Job K) : Prop :=
  job.elems.length ≤ job.props.length ∧
  ∀ e ∈ job.elems, 0 ≤ e.1 ∧ e.1 < (job.nodes.length : Int) ∧
    0 ≤ e.2 ∧ e.2 < (job.nodes.length : Int)

/-- The ties reference nodes below `n`. -/
def ValidTies (n : Nat) (ties : List (Tie K)) : Prop :=
  ∀ tie ∈ ties, tie.node_number_1 < n ∧ tie.node_number_2 < n

/-- A job over the rationals: one element of length 2 along the global x axis, from node 0
to node 1. -/
def exampleJob : Job ℚ :=
  { nodes := [![0, 0, 0], ![2, 0, 0]],
    elems := [(0, 1)],
    props := [{ EA := 3, EIz := 5, EIy := 7, GJ := 11, normal_vec := ![0, 1, 0] }] }

/-- The contribution of a tie at degree of freedom `j` to position `(r, c)`, as the spec words
it: `+k` on the two diagonal positions and `-k` on the two cross positions. -/
def tieContribution (tie : Tie K) (j r c : Nat) : K :=
  let k := if j < 3 then tie.lmult else tie.rmult
  let a := 6 * tie.node_number_1 + j
  let b := 6 * tie.node_number_2 + j
  (if r = a ∧ c = a then k else 0) + (if r = b ∧ c = b then k else 0)
    + (if r = a ∧ c = b then -k else 0) + (if r = b ∧ c = a then -k else 0)

/-- A tie between the two nodes of `exampleJob`. -/
def exampleTies : List (Tie ℚ) :=
  [{ node_number_1 := 0, node_number_2 := 1, lmult := 100, rmult := 1000 }]

/-- A run of statements `m.insert(r, c) = v`, one for each entry `(r, c, v)` of the list. -/
def insertAll : SparseMat K → List (Nat × Nat × K) → Option (SparseMat K)
  | m, [] => some m
  | m, e :: rest =>
    match m.insert e.1 e.2.1 e.2.2 with
    | none => none
    | some m1 => insertAll m1 rest

/-- The sum of the values of the entries at position `(r, c)`. -/
def entrySum (l : List (Nat × Nat × K)) (r c : Nat) : K :=
  (l.map fun e => if e.1 = r ∧ e.2.1 = c then e.2.2 else 0).sum

/-- The product of row `r` of the entries, restricted to the leading `n` columns, with `x`. -/
def rowSum (l : List (Nat × Nat × K)) (r n : Nat) (x : Nat → K) : K :=
  (l.map fun e => if e.1 = r ∧ e.2.1 < n then e.2.2 * x e.2.1 else 0).sum

/-- The entries that `loadBCs` inserts into `Kg` from pass `i` on. -/
def bcEntries (global_add_idx : Nat) : List (BC K) → Nat → List (Nat × Nat × K)
  | [], _ => []
  | bc :: rest, i =>
    (u32 (u32 (NUM_DOFS * bc.node) + bc.dof), global_add_idx + i, 1) ::
      (global_add_idx + i, u32 (u32 (NUM_DOFS * bc.node) + bc.dof), 1) ::
      bcEntries global_add_idx rest (i + 1)

/-- The entries that `loadBCs` inserts into `force_vec` from pass `i` on. -/
def bcRhs (global_add_idx : Nat) : List (BC K) → Nat → List (Nat × Nat × K)
  | [], _ => []
  | bc :: rest, i =>
    if |bc.value| > dbl_epsilon then
      (global_add_idx + i, 0, bc.value) :: bcRhs global_add_idx rest (i + 1)
    else bcRhs global_add_idx rest (i + 1)

/-- The entries that `loadEquations` inserts for the terms of the equation of row `row_idx`. -/
def termEntries (row_idx : Nat) : List (Term K) → List (Nat × Nat × K)
  | [] => []
  | t :: rest =>
    (row_idx, u32 (u32 (NUM_DOFS * t.node_number) + t.dof), t.coefficient) ::
      (u32 (u32 (NUM_DOFS * t.node_number) + t.dof), row_idx, t.coefficient) ::
      termEntries row_idx rest

/-- The entries that `loadEquations` inserts from pass `i` on. -/
def eqEntries (global_add_idx : Nat) : List (Equation K) → Nat → List (Nat × Nat × K)
  | [], _ => []
  | eq :: rest, i =>
    termEntries (global_add_idx + i) eq.terms ++ eqEntries global_add_idx rest (i + 1)

/-- The entries that `loadForces` inserts into `force_vec`. -/
def forceEntries (forces : List (Force K)) : List (Nat × Nat × K) :=
  forces.map fun f => (u32 (u32 (NUM_DOFS * f.node) + f.dof), 0, f.value)

/-- The invariants of the data model for the input of `solve`: the system fits the `int`
index type of the sparse matrix, every element has properties, and every node index and
degree of freedom referenced by an element, tie, boundary condition, force or equation term
is in range. -/
def WellFormed (job : Job K) (BCs : List (BC K)) (forces : List (Force K))
    (ties : List (Tie K)) (equations : List (Equation K)) : Prop :=
  NUM_DOFS * job.nodes.length + BCs.length + equations.length < 2 ^ 31 ∧
  ValidElems job ∧
  ValidTies job.nodes.length ties ∧
  (∀ bc ∈ BCs, bc.node < job.nodes.length ∧ bc.dof < 6) ∧
  (∀ f ∈ forces, f.node < job.nodes.length ∧ f.dof < 6) ∧
  (∀ eq ∈ equations, ∀ t ∈ eq.terms, t.node_number < job.nodes.length ∧ t.dof < 6)

/-- The global degree of freedom of the local degree of freedom `i` of an element with nodes
`nn1` and `nn2`. -/
def gatherIndex (nn1 nn2 : Int) (i : Fin 12) : Nat :=
  if i.val < 6 then 6 * nn1.toNat + i.val else 6 * nn2.toNat + (i.val - 6)

/-- The job of one element from the origin to `(L, 0, 0)` with the orientation vector
`(0, 1, 0)`. -/
def cantileverJob (L EA EIy EIz GJ : K) : Job K :=
  { nodes := [![0, 0, 0], ![L, 0, 0]],
    elems := [(0, 1)],
    props := [{ EA := EA, EIz := EIz, EIy := EIy, GJ := GJ, normal_vec := ![0, 1, 0] }] }

/-- The boundary conditions that fix all six degrees of freedom of node 0 to zero. -/
def fixedEnd : List (BC K) :=
  [{ node := 0, dof := 0, value := 0 }, { node := 0, dof := 1, value := 0 },
   { node := 0, dof := 2, value := 0 }, { node := 0, dof := 3, value := 0 },
   { node := 0, dof := 4, value := 0 }, { node := 0, dof := 5, value := 0 }]

/-- A solution of the system of the cantilever of length 2 with `EA = 3` under the axial
load 9: the axial displacement 6 at node 1 and the multiplier 9 of the axial support. -/
def cantileverSolution : Nat → ℚ :=
  fun i => if i = 6 then 6 else if i = 12 then 9 else 0

/-- The fixed end together with a prescribed axial displacement 6 at node 1. -/
def prescribedBCs : List (BC ℚ) :=
  fixedEnd ++ [{ node := 1, dof := 0, value := 6 }]

/-- One equation that makes the two in-plane translations of node 1 equal. -/
def coupledEquations : List (Equation ℚ) :=
  [{ terms := [{ node_number := 1, dof := 0, coefficient := 1 },
               { node_number := 1, dof := 1, coefficient := -1 }] }]

/-- A solution of the system of `exampleJob` with `prescribedBCs` and `coupledEquations`. -/
def coupledSolution : Nat → ℚ :=
  fun i => if i = 6 then 6 else if i = 7 then 6 else if i = 11 then 9 / 2
    else if i = 12 then 9 else if i = 13 then 45 / 4 else if i = 17 then 45 / 2
    else if i = 18 then -81 / 4 else if i = 19 then 45 / 4 else 0

/-- The fixed end with a prescribed axial displacement of half the machine epsilon. -/
def tinyBCs : List (BC ℚ) :=
  [{ node := 0, dof := 0, value := 1 / 2 ^ 53 }, { node := 0, dof := 1, value := 0 },
   { node := 0, dof := 2, value := 0 }, { node := 0, dof := 3, value := 0 },
   { node := 0, dof := 4, value := 0 }, { node := 0, dof := 5, value := 0 }]

/-- The job `exampleJob` with a third node at the place of node 1. -/
def softTieJob : Job ℚ :=
  { nodes := [![0, 0, 0], ![2, 0, 0], ![2, 0, 0]],
    elems := [(0, 1)],
    props := [{ EA := 3, EIz := 5, EIy := 7, GJ := 11, normal_vec := ![0, 1, 0] }] }

/-- A tie between nodes 1 and 2 with the linear spring constant `1e-27`. -/
def softTies : List (Tie ℚ) :=
  [{ node_number_1 := 1, node_number_2 := 2, lmult := 1 / 10 ^ 27, rmult := 1 }]

/-! ## The function `solve` and its result tables -/

/-- The record `Summary` with the four result tables of `solve`; the counters and timings
are left out. -/
structure Summary (K : Type) where
  nodal_displacements : List (List K)
  nodal_forces : List (List K)
  tie_forces : List (List K)
  element_forces : List (List K)

/-- The results of a list of steps, in order; `none` as soon as one step fails. -/
def allSome {α : Type} : List (Option α) → Option (List α)
  | [] => some []
  | none :: _ => none
  | some a :: rest =>
    match allSome rest with
    | some l => some (a :: l)
    | none => none

/-- The read `table[i][j]` of a `std::vector<std::vector<double>>`; `none` outside it. -/
def tableAt (table : List (List K)) (i j : Nat) : Option K :=
  match table[i]? with
  | some row => row[j]?
  | none => none

/-- The table `disp_vec` of `solve`: one row of `dofs_per_elem` entries per node, entry
`[i][j]` holding `disp(dofs_per_elem * i + j)` rounded to zero below `options.epsilon`. -/
def disp_vec (epsilon : K) (disp : Nat → K) (num_nodes : Nat) : List (List K) :=
  let dofs_per_elem : Nat := NUM_DOFS
  (List.range num_nodes).map fun i =>
    (List.range dofs_per_elem).map fun j =>
      if |disp (dofs_per_elem * i + j)| < epsilon then 0 else disp (dofs_per_elem * i + j)

/-- The table `nodal_forces_vec` of `solve`, filled from `nodal_forces_dense` in the same
way. -/
def nodal_forces_vec (epsilon : K) (nodal_forces_dense : Nat → K) (num_nodes : Nat) :
    List (List K) :=
  let dofs_per_elem : Nat := NUM_DOFS
  (List.range num_nodes).map fun i =>
    (List.range dofs_per_elem).map fun j =>
      if |nodal_forces_dense (dofs_per_elem * i + j)| < epsilon then 0
      else nodal_forces_dense (dofs_per_elem * i + j)

/-- The function `computeTieForces`: for every tie the six values
`spring_constant * (delta2 - delta1)`. -/
def computeTieForces (ties : List (Tie K)) (nodal_displacements : List (List K)) :
    Option (List (List K)) :=
  let dofs_per_elem : Nat := NUM_DOFS
  allSome (ties.map fun tie =>
    let nn1 := tie.node_number_1
    let nn2 := tie.node_number_2
    let lmult := tie.lmult
    let rmult := tie.rmult
    allSome ((List.range dofs_per_elem).map fun j =>
      let spring_constant := if j < 3 then lmult else rmult
      match tableAt nodal_displacements nn1 j, tableAt nodal_displacements nn2 j with
      | some delta1, some delta2 => some (spring_constant * (delta2 - delta1))
      | _, _ => none))

/-- The entry `elemDisps(i)` that `solve` reads for an element with the node indices
`nodeIndex0` and `nodeIndex1`. -/
def elemDispsAt (nodal_displacements : List (List K)) (nodeIndex0 nodeIndex1 : Nat)
    (i : Fin 12) : Option K :=
  if i.val < 6 then tableAt nodal_displacements nodeIndex0 i.val
  else tableAt nodal_displacements nodeIndex1 (i.val - 6)

/-- The vector `elemDisps` of `solve`; `none` when one of its twelve reads is outside the
table. -/
def elemDisps (nodal_displacements : List (List K)) (nodeIndex0 nodeIndex1 : Nat) :
    Option (Fin 12 → K) :=
  if h : ∀ i : Fin 12, (elemDispsAt nodal_displacements nodeIndex0 nodeIndex1 i).isSome then
    some fun i => (elemDispsAt nodal_displacements nodeIndex0 nodeIndex1 i).get (h i)
  else none

/-- The row `summary.element_forces[elemIndex]`: the entries of
`elemForces = perElemKlocalAelem[elemIndex] * elemDisps`, the first six negated. -/
def elementForceRow (KlocalAelem : LocalMatrix K) (elemDisps : Fin 12 → K) : List K :=
  let elemForces := KlocalAelem.mulVec elemDisps
  (List.finRange 12).map fun dofIndex =>
    if dofIndex.val < NUM_DOFS then -elemForces dofIndex else elemForces dofIndex

/-- The conversion of an `int` node index to `size_t`, as an index into a vector: a negative
value is beyond every vector. -/
def sizeIndex (nn : Int) : Option Nat := if 0 ≤ nn then some nn.toNat else none

/-- The loop of `solve` that computes the per element forces. -/
def elementForces (job : Job K) (perElemKlocalAelem : List (LocalMatrix K))
    (nodal_displacements : List (List K)) : Option (List (List K)) :=
  allSome ((List.range job.elems.length).map fun elemIndex =>
    match job.elems[elemIndex]?, perElemKlocalAelem[elemIndex]? with
    | some e, some KlocalAelem =>
      match sizeIndex e.1, sizeIndex e.2 with
      | some nodeIndex0, some nodeIndex1 =>
        match elemDisps nodal_displacements nodeIndex0 nodeIndex1 with
        | some d => some (elementForceRow KlocalAelem d)
        | none => none
      | _, _ => none
    | _, _ => none)

/-- The function `solve`.  The sparse LU solver of Eigen is the argument `solver`: it
receives the pruned matrix and the force vector and returns the solution vector, or `none`
when the factorization does not succeed.  Timing, printing and file output are left out. -/
def solve (sqrt : K → K) (solver : SparseMat K → SparseMat K → Option (Nat → K))
    (job : Job K) (BCs : List (BC K)) (forces : List (Force K)) (ties : List (Tie K))
    (equations : List (Equation K)) (epsilon : K) : Option (Summary K) :=
  let dofs_per_elem : Nat := NUM_DOFS
  match augmentedSystem sqrt job BCs forces ties equations with
  | none => none
  | some (assembleK3D, Kg, force_vec) =>
    let Kg := prunedKg Kg
    match solver Kg force_vec with
    | none => none
    | some disp =>
      let nodal_displacements := disp_vec epsilon disp job.nodes.length
      let Kg := Kg.topLeftCorner (dofs_per_elem * job.nodes.length)
        (dofs_per_elem * job.nodes.length)
      let nodal_forces_dense := mulVecAt Kg disp
      let nodal_forces := nodal_forces_vec epsilon nodal_forces_dense job.nodes.length
      match (if ties.length > 0 then computeTieForces ties nodal_displacements else some []) with
      | none => none
      | some tie_forces =>
        match elementForces job assembleK3D.perElemKlocalAelem nodal_displacements with
        | none => none
        | some element_forces =>
          some { nodal_displacements := nodal_displacements, nodal_forces := nodal_forces,
                 tie_forces := tie_forces, element_forces := element_forces }

/-- The 12-vector formed from the six entries of row `node0` of the table followed by the six
of row `node1`. -/
def elementDisplacements (table : List (List K)) (node0 node1 : Nat) : Fin 12 → K :=
  fun j => if j.val < 6 then (tableAt table node0 j.val).getD 0
    else (tableAt table node1 (j.val - 6)).getD 0

/-- A table of nodal displacements for the two nodes of `exampleJob`. -/
def exampleTable : List (List ℚ) := [[0, 0, 0, 0, 0, 0], [6, 0, 0, 0, 0, 0]]

/-- A solver that returns `cantileverSolution`, the solution of the cantilever system. -/
def cantileverSolver : SparseMat ℚ → SparseMat ℚ → Option (Nat → ℚ) :=
  fun _ _ => some cantileverSolution

/-- The solution of the system of the cantilever of length 2 with `EA = 1` under the axial
load 1: the axial displacement 2 at node 1 and the multiplier 1 of the axial support. -/
def softSolution : Nat → ℚ :=
  fun i => if i = 6 then 2 else if i = 12 then 1 else 0

/-- A solver that returns `softSolution`. -/
def softSolver : SparseMat ℚ → SparseMat ℚ → Option (Nat → ℚ) :=
  fun _ _ => some softSolution

/-- The boundary condition at the node and degree of freedom that own the global index
`6 * node + dof` of `bc`. -/
def aliasBC (bc : BC K) : BC K :=
  { node := (6 * bc.node + bc.dof) / 6, dof := (6 * bc.node + bc.dof) % 6, value := bc.value }

/-- The force at the node and degree of freedom that own the global index of `f`. -/
def aliasForce (f : Force K) : Force K :=
  { node := (6 * f.node + f.dof) / 6, dof := (6 * f.node + f.dof) % 6, value := f.value }

/-- The equation whose terms are moved to the nodes and degrees of freedom that own their
global indices. -/
def aliasEquation (eq : Equation K) : Equation K :=
  { terms := eq.terms.map fun t =>
      { node_number := (6 * t.node_number + t.dof) / 6, dof := (6 * t.node_number + t.dof) % 6,
        coefficient := t.coefficient } }

/-- A boundary condition on `exampleJob` with the degree of freedom 7. -/
def strayBCs : List (BC ℚ) := [{ node := 0, dof := 7, value := 5 }]

/-- Two forces on the axial degree of freedom of node 1. -/
def doubleForces : List (Force ℚ) :=
  [{ node := 1, dof := 0, value := 9 }, { node := 1, dof := 0, value := 1 }]

/-- The entry `table[i][j]`, read as zero outside the table. -/
def tableEntry (table : List (List K)) (i j : Nat) : K := (tableAt table i j).getD 0

/-- The spring constant of a tie at degree of freedom `j`: `lmult` for the translations, `rmult`
for the rotations. -/
def tieConstant (tie : Tie K) (j : Nat) : K := if j < 3 then tie.lmult else tie.rmult

/-- The scalar product of two vectors. -/
def dot (a b : Node K) : K := a 0 * b 0 + a 1 * b 1 + a 2 * b 2

/-- Properties with the orientation vector `(3, 4, 0)`, oblique to the global x axis. -/
def obliqueProps : Props ℚ :=
  { EA := 3, EIz := 5, EIy := 7, GJ := 11, normal_vec := ![3, 4, 0] }

/-- A job whose single element joins two nodes at the same place. -/
def degenerateJob : Job ℚ :=
  { nodes := [![0, 0, 0], ![0, 0, 0]],
    elems := [(0, 1)],
    props := [{ EA := 3, EIz := 5, EIy := 7, GJ := 11, normal_vec := ![0, 1, 0] }] }

/-- A job whose single element has its orientation vector along its axis. -/
def parallelJob : Job ℚ :=
  { nodes := [![0, 0, 0], ![2, 0, 0]],
    elems := [(0, 1)],
    props := [{ EA := 3, EIz := 5, EIy := 7, GJ := 11, normal_vec := ![1, 0, 0] }] }

/-- The unit vector of the local degree of freedom `i` of an element. -/
def unitDof (i : Fin 12) : Fin 12 → K := fun k => if k = i then 1 else 0

/-- The six rigid-body motions of an element of length `L`, in local coordinates: the three
uniform translations, the uniform twist about the axis, the rigid rotation about local z and
the rigid rotation about local y. -/
def rigidMotions (L : K) : List (Fin 12 → K) :=
  [unitDof 0 + unitDof 6, unitDof 1 + unitDof 7, unitDof 2 + unitDof 8,
   unitDof 3 + unitDof 9,
   unitDof 5 + unitDof 11 + L • unitDof 7,
   unitDof 4 + unitDof 10 - L • unitDof 8]

/-- What `Kg.prune(1.e-14)` leaves of a stored coefficient `v`: nothing (zero) when
`|v| ≤ 1e-14 * 1e-12`, and `v` otherwise. -/
def pruneValue (v : K) : K := if |v| ≤ |(1 : K) / 10 ^ 14| * dummy_precision then 0 else v

/-- The entries of a run of insert statements as they stand after `Kg.prune(1.e-14)`. -/
def prunedEntries (l : List (Nat × Nat × K)) : List (Nat × Nat × K) :=
  l.map fun e => (e.1, e.2.1, pruneValue e.2.2)

/-- An equation with every coefficient replaced by what `Kg.prune(1.e-14)` leaves of it. -/
def prunedEquation (eq : Equation K) : Equation K :=
  { terms := eq.terms.map fun t =>
      { node_number := t.node_number, dof := t.dof, coefficient := pruneValue t.coefficient } }

/-- The supports of node 0 of `exampleJob` with the prescribed axial displacement 6. -/
def shiftBCs : List (BC ℚ) :=
  [{ node := 0, dof := 0, value := 6 }, { node := 0, dof := 1, value := 0 },
   { node := 0, dof := 2, value := 0 }, { node := 0, dof := 3, value := 0 },
   { node := 0, dof := 4, value := 0 }, { node := 0, dof := 5, value := 0 }]

/-- One equation that makes the axial displacements of node 0 and node 1 equal. -/
def shiftEquations : List (Equation ℚ) :=
  [{ terms := [{ node_number := 0, dof := 0, coefficient := 1 },
               { node_number := 1, dof := 0, coefficient := -1 }] }]

/-- The solution of the system of `exampleJob` with `shiftBCs` and `shiftEquations`: the
element is moved by 6 along its axis, and every multiplier is zero. -/
def shiftSolution : Nat → ℚ :=
  fun i => if i = 0 then 6 else if i = 6 then 6 else 0

/-- A solver that returns `shiftSolution`. -/
def shiftSolver : SparseMat ℚ → SparseMat ℚ → Option (Nat → ℚ) :=
  fun _ _ => some shiftSolution

/-- One equation between the two in-plane translations of node 1, with the coefficient
`1e-27` on the axial one. -/
def tinyEquations : List (Equation ℚ) :=
  [{ terms := [{ node_number := 1, dof := 0, coefficient := 1 / 10 ^ 27 },
               { node_number := 1, dof := 1, coefficient := 1 }] }]

theorem assignAll_apply (l : List (Fin 12 × Fin 12 × K)) (M : LocalMatrix K) (r c : Fin 12) :
    assignAll M l r c =
      if (r, c) ∈ l.map (fun a => (a.1, a.2.1)) then assignAll 0 l r c else M r c := by
  induction l generalizing M with
  | nil => simp [assignAll]
  | cons a l ih =>
    have h1 : assignAll M (a :: l) = assignAll (setCoeff M a.1 a.2.1 a.2.2) l := rfl
    have h2 : assignAll (0 : LocalMatrix K) (a :: l) = assignAll (setCoeff 0 a.1 a.2.1 a.2.2) l := rfl
    rw [h1, h2, ih (setCoeff M a.1 a.2.1 a.2.2), ih (setCoeff 0 a.1 a.2.1 a.2.2)]
    by_cases hm : (r, c) ∈ l.map (fun a => (a.1, a.2.1))
    · simp [hm]
    · by_cases ha : r = a.1 ∧ c = a.2.1
      · simp [hm, setCoeff, ha]
      · have : ¬ ((r, c) = (a.1, a.2.1)) := by
          intro h; apply ha; simpa using h
        simp [hm, setCoeff, ha, this]

theorem klocalAssignments_positions (a b c d e f g h : K) :
    (klocalAssignments a b c d e f g h).map (fun a => (a.1, a.2.1)) = klocalPositions := by
  rfl

theorem writeKlocal_of_clean (M : LocalMatrix K) (hM : KlocalClean M) (a b c d e f g h : K) :
    writeKlocal M a b c d e f g h = writeKlocal 0 a b c d e f g h := by
  ext r cc
  unfold writeKlocal
  rw [assignAll_apply _ M, assignAll_apply _ 0, klocalAssignments_positions]
  by_cases hm : (r, cc) ∈ klocalPositions
  · simp [hm]
  · simp [hm, hM r cc hm]

theorem writeKlocal_clean (M : LocalMatrix K) (hM : KlocalClean M) (a b c d e f g h : K) :
    KlocalClean (writeKlocal M a b c d e f g h) := by
  intro r cc hm
  unfold writeKlocal
  rw [assignAll_apply, klocalAssignments_positions]
  simp [hm, hM r cc hm]


theorem calcAelem_of_clean (M : LocalMatrix K) (hM : BlockClean M) (r : RotationMatrix K) :
    calcAelem M r = blockDiagonal4 r := by
  ext i j
  have hi := i.isLt
  have hj := j.isLt
  simp only [calcAelem, setBlock, blockDiagonal4]
  split_ifs with h1 h2 h3 h4 h5 h6 h7 h8 h9 <;>
    first
    | (exfalso; omega)
    | (apply hM; omega)
    | (congr 1 <;> (apply Fin.ext; simp only []; omega))

theorem blockDiagonal4_clean (r : RotationMatrix K) : BlockClean (blockDiagonal4 r) := by
  intro i j h
  simp [blockDiagonal4, h]

theorem blockClean_zero : BlockClean (0 : LocalMatrix K) := fun _ _ _ => rfl

theorem klocalClean_zero : KlocalClean (0 : LocalMatrix K) := fun _ _ _ => rfl

theorem calcKelem_eq_some {sqrt : K → K} {self a : GlobalStiffAssembler K} {i : Nat} {job : Job K}
    (h : self.calcKelem sqrt i job = some a) :
    ∃ p e n1 n2, job.props[i]? = some p ∧ job.elems[i]? = some e ∧
      nodeAt job e.1 = some n1 ∧ nodeAt job e.2 = some n2 ∧
      i < self.perElemKlocalAelem.length ∧
      a.Klocal = klocalOf self.Klocal p (norm sqrt n1 n2) ∧
      a.Aelem = calcAelem self.Aelem (rotationOf sqrt n1 n2 p) ∧
      a.AelemT = a.Aelem.transpose ∧
      a.Kelem = a.AelemT * a.Klocal * a.Aelem ∧
      a.perElemKlocalAelem = self.perElemKlocalAelem.set i (a.Klocal * a.Aelem) := by
  unfold GlobalStiffAssembler.calcKelem at h
  cases hp : job.props[i]? with
  | none => simp [hp] at h
  | some p =>
    cases he : job.elems[i]? with
    | none => simp [hp, he] at h
    | some e =>
      cases hn1 : nodeAt job e.1 with
      | none => simp [hp, he, hn1] at h
      | some n1 =>
        cases hn2 : nodeAt job e.2 with
        | none => simp [hp, he, hn1, hn2] at h
        | some n2 =>
          simp only [hp, he, hn1, hn2] at h
          by_cases hlen : i < self.perElemKlocalAelem.length
          · simp only [hlen, if_true, Option.some.injEq] at h
            subst h
            exact ⟨p, e, n1, n2, rfl, rfl, hn1, hn2, hlen, rfl, rfl, rfl, rfl, rfl⟩
          · simp [hlen] at h

theorem klocalOf_of_clean (M : LocalMatrix K) (hM : KlocalClean M) (p : Props K) (L : K) :
    klocalOf M p L = klocalOf 0 p L := by
  unfold klocalOf
  exact writeKlocal_of_clean M hM _ _ _ _ _ _ _ _

theorem klocalOf_clean (M : LocalMatrix K) (hM : KlocalClean M) (p : Props K) (L : K) :
    KlocalClean (klocalOf M p L) := by
  unfold klocalOf
  exact writeKlocal_clean M hM _ _ _ _ _ _ _ _

theorem elemLoop_invariant (sqrt : K → K) (job : Job K) (Q : List (Triplet K) → Prop)
    (self : GlobalStiffAssembler K) (ts0 : List (Triplet K))
    (hK : KlocalClean self.Klocal) (hA : BlockClean self.Aelem) (h0 : Q ts0)
    (hstep : ∀ (i : Nat) (p : Props K) (e : Elem) (n1 n2 : Node K) (ts : List (Triplet K)),
      job.props[i]? = some p → job.elems[i]? = some e →
      nodeAt job e.1 = some n1 → nodeAt job e.2 = some n2 → Q ts →
      Q (ts ++ elemTriplets (kelemOf sqrt p n1 n2) e.1 e.2)) :
    ∀ k a ts, elemLoop sqrt job self ts0 k = some (a, ts) →
      Q ts ∧ KlocalClean a.Klocal ∧ BlockClean a.Aelem := by
  intro k
  induction k with
  | zero =>
    intro a ts h
    simp only [elemLoop, Option.some.injEq, Prod.mk.injEq] at h
    obtain ⟨rfl, rfl⟩ := h
    exact ⟨h0, hK, hA⟩
  | succ k ih =>
    intro a ts h
    simp only [elemLoop] at h
    cases hprev : elemLoop sqrt job self ts0 k with
    | none => simp [hprev] at h
    | some st =>
      obtain ⟨a0, t0⟩ := st
      obtain ⟨hQ, hK0, hA0⟩ := ih a0 t0 hprev
      simp only [hprev] at h
      cases hc : a0.calcKelem sqrt k job with
      | none => simp [hc] at h
      | some a1 =>
        obtain ⟨p, e, n1, n2, hp, he, hn1, hn2, -, hKl, hAe, hAT, hKe, -⟩ := calcKelem_eq_some hc
        simp only [hc, he, Option.some.injEq, Prod.mk.injEq] at h
        obtain ⟨rfl, rfl⟩ := h
        have hKe' : a1.Kelem = kelemOf sqrt p n1 n2 := by
          rw [hKe, hAT, hAe, hKl, klocalOf_of_clean _ hK0, calcAelem_of_clean _ hA0]
          simp only [kelemOf, calcAelem_of_clean _ blockClean_zero]
        refine ⟨?_, ?_, ?_⟩
        · rw [hKe']
          exact hstep k p e n1 n2 t0 hp he hn1 hn2 hQ
        · rw [hKl]; exact klocalOf_clean _ hK0 _ _
        · rw [hAe, calcAelem_of_clean _ hA0]; exact blockDiagonal4_clean _

/-! ## Lemmas on triplets -/

theorem tripletSum_nil (r c : Nat) : tripletSum ([] : List (Triplet K)) r c = 0 := rfl

theorem tripletSum_cons (t : Triplet K) (ts : List (Triplet K)) (r c : Nat) :
    tripletSum (t :: ts) r c =
      (if t.row = (r : Int) ∧ t.col = (c : Int) then t.value else 0) + tripletSum ts r c := by
  unfold tripletSum
  by_cases h : t.row = (r : Int) ∧ t.col = (c : Int)
  · simp [List.filter_cons, h]
  · simp [List.filter_cons, h]

theorem tripletSum_append (l1 l2 : List (Triplet K)) (r c : Nat) :
    tripletSum (l1 ++ l2) r c = tripletSum l1 r c + tripletSum l2 r c := by
  simp [tripletSum]

theorem tripletSum_flatMap {α : Type} (l : List α) (f : α → List (Triplet K)) (r c : Nat) :
    tripletSum (l.flatMap f) r c = (l.map fun a => tripletSum (f a) r c).sum := by
  induction l with
  | nil => simp [tripletSum]
  | cons a l ih => simp [List.flatMap_cons, tripletSum_append, ih]

theorem tripletSum_eq_zero_of_not_any (ts : List (Triplet K)) (r c : Nat)
    (h : (ts.any fun t => t.row = (r : Int) ∧ t.col = (c : Int)) = false) :
    tripletSum ts r c = 0 := by
  induction ts with
  | nil => rfl
  | cons t ts ih =>
    simp only [List.any_cons, Bool.or_eq_false_iff, decide_eq_false_iff_not] at h
    rw [tripletSum_cons, ih h.2, if_neg h.1, add_zero]

theorem setFromTriplets_coeff {m m1 : SparseMat K} {ts : List (Triplet K)}
    (h : m.setFromTriplets ts = some m1) (r c : Nat) :
    m1.coeff r c = tripletSum ts r c ∧ m1.rows = m.rows ∧ m1.cols = m.cols := by
  unfold SparseMat.setFromTriplets at h
  split_ifs at h with hall
  simp only [Option.some.injEq] at h
  subst h
  refine ⟨?_, rfl, rfl⟩
  simp only [SparseMat.coeff]
  by_cases hany : (ts.any fun t => t.row = (r : Int) ∧ t.col = (c : Int)) = true
  · rw [if_pos hany]; rfl
  · rw [if_neg hany]
    simp only [Bool.not_eq_true] at hany
    rw [tripletSum_eq_zero_of_not_any ts r c hany]; rfl

theorem scatter_eq (nn1 nn2 : Int) (row col : Nat) (v : K) :
    scatter nn1 nn2 row col v =
      { row := globalIndex nn1 nn2 row, col := globalIndex nn1 nn2 col, value := v } := by
  unfold scatter globalIndex
  by_cases h1 : row < 6 <;> by_cases h2 : col < 6 <;> simp [h1, h2]

theorem list_sum_finRange {n : Nat} (f : Fin n → K) :
    ((List.finRange n).map f).sum = ∑ i, f i := by
  rw [Fin.sum_univ_def]

theorem tripletSum_elemTriplets (M : LocalMatrix K) (nn1 nn2 : Int) (r c : Nat) :
    tripletSum (elemTriplets M nn1 nn2) r c =
      ∑ j : Fin 12, ∑ i : Fin 12,
        if globalIndex nn1 nn2 i.val = (r : Int) ∧ globalIndex nn1 nn2 j.val = (c : Int)
        then M i j else 0 := by
  unfold elemTriplets sparseView
  simp only [scatter_eq]
  rw [List.map_flatMap, tripletSum_flatMap, list_sum_finRange]
  refine Finset.sum_congr rfl fun j _ => ?_
  rw [← list_sum_finRange]
  generalize List.finRange 12 = l
  induction l with
  | nil => simp [tripletSum]
  | cons i l ih =>
    by_cases hz : M i j = 0
    · simp only [List.filterMap_cons, hz, if_true, List.map_cons, List.sum_cons]
      rw [ih]; simp
    · simp only [List.filterMap_cons, hz, if_false, List.map_cons, List.sum_cons, tripletSum_cons]
      rw [ih]

theorem tripletSum_elemTriplets_symm (M : LocalMatrix K) (hM : M.transpose = M) (nn1 nn2 : Int)
    (r c : Nat) :
    tripletSum (elemTriplets M nn1 nn2) r c = tripletSum (elemTriplets M nn1 nn2) c r := by
  rw [tripletSum_elemTriplets, tripletSum_elemTriplets, Finset.sum_comm]
  refine Finset.sum_congr rfl fun i _ => Finset.sum_congr rfl fun j _ => ?_
  have : M j i = M i j := by
    conv_rhs => rw [← hM]
    rfl
  rw [this]
  simp only [and_comm]

theorem globalIndex_eq (nn1 nn2 : Int) (i : Nat) (hi : i < 12)
    (h1 : 0 ≤ nn1) (h1' : 6 * nn1 + 5 < 2 ^ 31) (h2 : 0 ≤ nn2) (h2' : 6 * nn2 + 5 < 2 ^ 31) :
    globalIndex nn1 nn2 i = blockIndex nn1 nn2 i := by
  unfold globalIndex blockIndex toI32 u32 toU32 NUM_DOFS
  split_ifs <;> omega

theorem tieIndex_eq (n j : Nat) (hj : j < 6) (hn : 6 * n + 5 < 2 ^ 31) :
    toI32 (u32 (u32 (NUM_DOFS * n) + j)) = ((6 * n + j : Nat) : Int) := by
  unfold toI32 u32 NUM_DOFS
  split_ifs <;> omega

/-! ## The local stiffness in closed form -/

theorem place_two (a b : Fin 12) (k : K) (r c : Fin 12) :
    place ![a, b] (barBlock k) r c =
      (if a = r ∧ a = c then k else 0) + (if a = r ∧ b = c then -k else 0)
      + ((if b = r ∧ a = c then -k else 0) + (if b = r ∧ b = c then k else 0)) := by
  simp [place, barBlock, Fin.sum_univ_succ]

theorem place_four (a b d e : Fin 12) (EI L s : K) (r c : Fin 12) :
    place ![a, b, d, e] (bendingBlock EI L s) r c =
      ((if a = r ∧ a = c then 12 * EI / L ^ 3 else 0)
        + (if a = r ∧ b = c then s * (6 * EI / L ^ 2) else 0)
        + (if a = r ∧ d = c then -(12 * EI / L ^ 3) else 0)
        + (if a = r ∧ e = c then s * (6 * EI / L ^ 2) else 0))
      + ((if b = r ∧ a = c then s * (6 * EI / L ^ 2) else 0)
        + (if b = r ∧ b = c then 4 * EI / L else 0)
        + (if b = r ∧ d = c then -(s * (6 * EI / L ^ 2)) else 0)
        + (if b = r ∧ e = c then 2 * EI / L else 0))
      + ((if d = r ∧ a = c then -(12 * EI / L ^ 3) else 0)
        + (if d = r ∧ b = c then -(s * (6 * EI / L ^ 2)) else 0)
        + (if d = r ∧ d = c then 12 * EI / L ^ 3 else 0)
        + (if d = r ∧ e = c then -(s * (6 * EI / L ^ 2)) else 0))
      + ((if e = r ∧ a = c then s * (6 * EI / L ^ 2) else 0)
        + (if e = r ∧ b = c then 2 * EI / L else 0)
        + (if e = r ∧ d = c then -(s * (6 * EI / L ^ 2)) else 0)
        + (if e = r ∧ e = c then 4 * EI / L else 0)) := by
  simp only [place, bendingBlock, Fin.sum_univ_succ, Fin.sum_univ_zero]
  simp
  ring

theorem place_transpose {n : Nat} (dofs : Fin n → Fin 12) (B : Matrix (Fin n) (Fin n) K)
    (hB : B.transpose = B) : (place dofs B).transpose = place dofs B := by
  ext r c
  simp only [Matrix.transpose_apply, place]
  rw [Finset.sum_comm]
  refine Finset.sum_congr rfl fun i _ => Finset.sum_congr rfl fun j _ => ?_
  have : B j i = B i j := by
    conv_rhs => rw [← hB]
    rfl
  rw [this]
  simp only [and_comm]

theorem barBlock_transpose (k : K) : (barBlock k).transpose = barBlock k := by
  ext i j
  fin_cases i <;> fin_cases j <;> simp [barBlock]

theorem bendingBlock_transpose (EI L s : K) :
    (bendingBlock EI L s).transpose = bendingBlock EI L s := by
  ext i j
  fin_cases i <;> fin_cases j <;> simp [bendingBlock]

theorem stdBeamStiffness_transpose (EA EIy EIz GJ L : K) :
    (stdBeamStiffness EA EIy EIz GJ L).transpose = stdBeamStiffness EA EIy EIz GJ L := by
  unfold stdBeamStiffness
  rw [Matrix.transpose_add, Matrix.transpose_add, Matrix.transpose_add,
    place_transpose _ _ (barBlock_transpose _), place_transpose _ _ (barBlock_transpose _),
    place_transpose _ _ (bendingBlock_transpose _ _ _),
    place_transpose _ _ (bendingBlock_transpose _ _ _)]


theorem place_eq_zero {n : Nat} (dofs : Fin n → Fin 12) (B : Matrix (Fin n) (Fin n) K)
    (r c : Fin 12) (h : ∀ i j, ¬(dofs i = r ∧ dofs j = c)) : place dofs B r c = 0 := by
  simp [place, h]

theorem klocalPositions_cover :
    ∀ r c : Fin 12, (r, c) ∉ klocalPositions →
      (∀ i j : Fin 2, ¬((![0, 6] : Fin 2 → Fin 12) i = r ∧ (![0, 6] : Fin 2 → Fin 12) j = c)) ∧
      (∀ i j : Fin 2, ¬((![3, 9] : Fin 2 → Fin 12) i = r ∧ (![3, 9] : Fin 2 → Fin 12) j = c)) ∧
      (∀ i j : Fin 4, ¬((![1, 5, 7, 11] : Fin 4 → Fin 12) i = r ∧
        (![1, 5, 7, 11] : Fin 4 → Fin 12) j = c)) ∧
      (∀ i j : Fin 4, ¬((![2, 4, 8, 10] : Fin 4 → Fin 12) i = r ∧
        (![2, 4, 8, 10] : Fin 4 → Fin 12) j = c)) := by
  decide

theorem stdBeamStiffness_off (EA EIy EIz GJ L : K) (r c : Fin 12)
    (h : (r, c) ∉ klocalPositions) : stdBeamStiffness EA EIy EIz GJ L r c = 0 := by
  obtain ⟨h1, h2, h3, h4⟩ := klocalPositions_cover r c h
  simp only [stdBeamStiffness, Matrix.add_apply, place_eq_zero _ _ r c h1,
    place_eq_zero _ _ r c h2, place_eq_zero _ _ r c h3, place_eq_zero _ _ r c h4, add_zero]

set_option maxHeartbeats 1000000 in
theorem klocalOf_zero_on (p : Props K) (L : K) :
    ∀ q ∈ klocalPositions,
      klocalOf 0 p L q.1 q.2 = stdBeamStiffness p.EA p.EIy p.EIz p.GJ L q.1 q.2 := by
  simp only [klocalPositions, klocalAssignments, List.map, List.forall_mem_cons,
    List.not_mem_nil, false_imp_iff, implies_true, and_true]
  simp only [stdBeamStiffness, Matrix.add_apply, place_two, place_four, klocalOf, writeKlocal,
    klocalAssignments, assignAll, List.foldl, setCoeff]
  simp only [Fin.isValue, Fin.reduceEq, and_self, and_true, and_false, true_and, false_and,
    if_true, if_false, ite_true, ite_false, Prod.mk.injEq, add_zero, zero_add,
    Matrix.zero_apply, Matrix.of_apply]
  repeat' apply And.intro
  all_goals ring

theorem klocalOf_zero_eq (p : Props K) (L : K) :
    klocalOf 0 p L = stdBeamStiffness p.EA p.EIy p.EIz p.GJ L := by
  ext r c
  by_cases h : (r, c) ∈ klocalPositions
  · exact klocalOf_zero_on p L (r, c) h
  · rw [stdBeamStiffness_off _ _ _ _ _ r c h]
    exact klocalOf_clean 0 klocalClean_zero p L r c h

/-! ## Symmetry of the contributions -/

theorem kelemOf_transpose (sqrt : K → K) (p : Props K) (n1 n2 : Node K) :
    (kelemOf sqrt p n1 n2).transpose = kelemOf sqrt p n1 n2 := by
  simp only [kelemOf]
  rw [Matrix.transpose_mul, Matrix.transpose_mul, Matrix.transpose_transpose,
    klocalOf_zero_eq, stdBeamStiffness_transpose, Matrix.mul_assoc]

theorem tripletSum_tieTriplets_symm (tie : Tie K) (j r c : Nat) :
    tripletSum (tieTriplets tie j) r c = tripletSum (tieTriplets tie j) c r := by
  simp only [tieTriplets, tripletSum_cons, tripletSum_nil, add_zero]
  simp only [and_comm]
  ring

theorem resized_clean (job : Job K) :
    KlocalClean ((GlobalStiffAssembler.init : GlobalStiffAssembler K).resized job).Klocal ∧
    BlockClean ((GlobalStiffAssembler.init : GlobalStiffAssembler K).resized job).Aelem :=
  ⟨klocalClean_zero, blockClean_zero⟩

theorem elemLoop_succ_eq {sqrt : K → K} {job : Job K} {self a1 : GlobalStiffAssembler K}
    {ts0 t1 : List (Triplet K)} {i : Nat}
    (h : elemLoop sqrt job self ts0 (i + 1) = some (a1, t1)) :
    ∃ a0 t0 e, elemLoop sqrt job self ts0 i = some (a0, t0) ∧
      a0.calcKelem sqrt i job = some a1 ∧ job.elems[i]? = some e ∧
      t1 = t0 ++ elemTriplets a1.Kelem e.1 e.2 := by
  simp only [elemLoop] at h
  cases hprev : elemLoop sqrt job self ts0 i with
  | none => simp [hprev] at h
  | some st =>
    obtain ⟨a0, t0⟩ := st
    simp only [hprev] at h
    cases hc : a0.calcKelem sqrt i job with
    | none => simp [hc] at h
    | some a =>
      cases he : job.elems[i]? with
      | none => simp [hc, he] at h
      | some e =>
        simp only [hc, he, Option.some.injEq, Prod.mk.injEq] at h
        obtain ⟨rfl, rfl⟩ := h
        exact ⟨a0, t0, e, rfl, hc, rfl, rfl⟩

theorem tripletSum_loadTies_symm (ts : List (Triplet K)) (ties : List (Tie K))
    (h : ∀ r c, tripletSum ts r c = tripletSum ts c r) (r c : Nat) :
    tripletSum (loadTies ts ties) r c = tripletSum (loadTies ts ties) c r := by
  unfold loadTies
  rw [tripletSum_append, tripletSum_append, h r c, tripletSum_flatMap, tripletSum_flatMap]
  congr 1
  refine congrArg List.sum (List.map_congr_left fun tie _ => ?_)
  rw [tripletSum_flatMap, tripletSum_flatMap]
  refine congrArg List.sum (List.map_congr_left fun j _ => ?_)
  exact tripletSum_tieTriplets_symm tie j r c

/-! ## Triplets stay in the stiffness block -/

theorem nodeAt_eq_some {job : Job K} {nn : Int} {n : Node K} (h : nodeAt job nn = some n) :
    0 ≤ nn ∧ nn < (job.nodes.length : Int) := by
  unfold nodeAt at h
  split_ifs at h with h0
  refine ⟨h0, ?_⟩
  have := (List.getElem?_eq_some_iff.mp h).1
  omega

theorem mem_elemTriplets (M : LocalMatrix K) (nn1 nn2 : Int) (t : Triplet K) :
    t ∈ elemTriplets M nn1 nn2 ↔
      ∃ row col : Fin 12, M row col ≠ 0 ∧
        t = { row := globalIndex nn1 nn2 row.val, col := globalIndex nn1 nn2 col.val,
              value := M row col } := by
  unfold elemTriplets sparseView
  simp only [scatter_eq, List.mem_map, List.mem_flatMap, List.mem_filterMap, List.mem_finRange,
    true_and]
  constructor
  · rintro ⟨e, ⟨j, i, hi⟩, rfl⟩
    by_cases hz : M i j = 0
    · simp [hz] at hi
    · simp only [hz, if_false, Option.some.injEq] at hi
      subst hi
      exact ⟨i, j, hz, rfl⟩
  · rintro ⟨i, j, hz, rfl⟩
    exact ⟨(i.val, j.val, M i j), ⟨j, i, by simp [hz]⟩, rfl⟩

theorem blockIndex_bounds (nn1 nn2 : Int) (i n : Nat) (hi : i < 12)
    (h1 : 0 ≤ nn1) (h1' : nn1 < n) (h2 : 0 ≤ nn2) (h2' : nn2 < n) :
    0 ≤ blockIndex nn1 nn2 i ∧ blockIndex nn1 nn2 i < ((NUM_DOFS * n : Nat) : Int) := by
  unfold blockIndex NUM_DOFS
  split_ifs <;> constructor <;> push_cast <;> omega

theorem inBlock_elemTriplets (M : LocalMatrix K) (nn1 nn2 : Int) (n : Nat)
    (hn : NUM_DOFS * n < 2 ^ 31)
    (h1 : 0 ≤ nn1) (h1' : nn1 < n) (h2 : 0 ≤ nn2) (h2' : nn2 < n) :
    InBlock (NUM_DOFS * n) (elemTriplets M nn1 nn2) := by
  intro t ht
  obtain ⟨row, col, -, rfl⟩ := (mem_elemTriplets M nn1 nn2 t).mp ht
  have hb : ∀ nn : Int, 0 ≤ nn → nn < n → 6 * nn + 5 < 2 ^ 31 := by
    intro nn _ _
    unfold NUM_DOFS at hn
    omega
  have hr := globalIndex_eq nn1 nn2 row.val row.isLt h1 (hb nn1 h1 h1') h2 (hb nn2 h2 h2')
  have hc := globalIndex_eq nn1 nn2 col.val col.isLt h1 (hb nn1 h1 h1') h2 (hb nn2 h2 h2')
  have br := blockIndex_bounds nn1 nn2 row.val n row.isLt h1 h1' h2 h2'
  have bc := blockIndex_bounds nn1 nn2 col.val n col.isLt h1 h1' h2 h2'
  simp only [hr, hc]
  exact ⟨br.1, br.2, bc.1, bc.2⟩

theorem inBlock_append {n : Nat} {l1 l2 : List (Triplet K)} (h1 : InBlock n l1)
    (h2 : InBlock n l2) : InBlock n (l1 ++ l2) := by
  intro t ht
  rcases List.mem_append.mp ht with h | h
  · exact h1 t h
  · exact h2 t h

theorem inBlock_tieTriplets (tie : Tie K) (j n : Nat) (hj : j < 6)
    (hn : NUM_DOFS * n < 2 ^ 31) (h1 : tie.node_number_1 < n) (h2 : tie.node_number_2 < n) :
    InBlock (NUM_DOFS * n) (tieTriplets tie j) := by
  have e1 := tieIndex_eq tie.node_number_1 j hj (by unfold NUM_DOFS at hn; omega)
  have e2 := tieIndex_eq tie.node_number_2 j hj (by unfold NUM_DOFS at hn; omega)
  intro t ht
  simp only [tieTriplets, List.mem_cons, List.mem_singleton, List.not_mem_nil, or_false] at ht
  unfold NUM_DOFS at *
  rcases ht with rfl | rfl | rfl | rfl <;> simp only [e1, e2] <;>
    refine ⟨?_, ?_, ?_, ?_⟩ <;> omega

theorem inBlock_loadTies (ts : List (Triplet K)) (ties : List (Tie K)) (n : Nat)
    (hn : NUM_DOFS * n < 2 ^ 31) (hts : InBlock (NUM_DOFS * n) ts) (hv : ValidTies n ties) :
    InBlock (NUM_DOFS * n) (loadTies ts ties) := by
  unfold loadTies
  refine inBlock_append hts ?_
  intro t ht
  simp only [List.mem_flatMap, List.mem_range] at ht
  obtain ⟨tie, htie, j, hj, hmem⟩ := ht
  exact inBlock_tieTriplets tie j n hj hn (hv tie htie).1 (hv tie htie).2 t hmem

theorem elemLoop_inBlock (sqrt : K → K) (job : Job K) (self : GlobalStiffAssembler K)
    (hK : KlocalClean self.Klocal) (hA : BlockClean self.Aelem)
    (hn : NUM_DOFS * job.nodes.length < 2 ^ 31) (k : Nat) (a : GlobalStiffAssembler K)
    (ts : List (Triplet K)) (h : elemLoop sqrt job self [] k = some (a, ts)) :
    InBlock (NUM_DOFS * job.nodes.length) ts := by
  refine (elemLoop_invariant sqrt job (InBlock (NUM_DOFS * job.nodes.length)) self [] hK hA
    (fun t ht => by simp at ht) ?_ k a ts h).1
  intro i p e n1 n2 ts _ _ hn1 hn2 hQ
  have b1 := nodeAt_eq_some hn1
  have b2 := nodeAt_eq_some hn2
  exact inBlock_append hQ (inBlock_elemTriplets _ e.1 e.2 _ hn b1.1 b1.2 b2.1 b2.2)

theorem setFromTriplets_isSome (m : SparseMat K) (ts : List (Triplet K)) (n : Nat)
    (hts : InBlock n ts) (hr : n ≤ m.rows) (hc : n ≤ m.cols) :
    ∃ m1, m.setFromTriplets ts = some m1 := by
  unfold SparseMat.setFromTriplets
  have : (ts.all fun t => 0 ≤ t.row ∧ t.row < (m.rows : Int) ∧ 0 ≤ t.col ∧
      t.col < (m.cols : Int)) = true := by
    rw [List.all_eq_true]
    intro t ht
    obtain ⟨a, b, c, d⟩ := hts t ht
    simp only [decide_eq_true_eq]
    refine ⟨a, ?_, c, ?_⟩ <;> omega
  rw [if_pos this]
  exact ⟨_, rfl⟩

theorem setFromTriplets_stored_none {m m1 : SparseMat K} {ts : List (Triplet K)} {n : Nat}
    (h : m.setFromTriplets ts = some m1) (hts : InBlock n ts) (r c : Nat)
    (hrc : n ≤ r ∨ n ≤ c) : m1.stored r c = none := by
  unfold SparseMat.setFromTriplets at h
  split_ifs at h with hall
  simp only [Option.some.injEq] at h
  subst h
  simp only
  rw [if_neg]
  simp only [List.any_eq_true, decide_eq_true_eq, not_exists, not_and]
  intro t ht h1 h2
  obtain ⟨_, b, _, d⟩ := hts t ht
  omega

theorem nodeAt_isSome (job : Job K) (nn : Int) (h0 : 0 ≤ nn) (h1 : nn < (job.nodes.length : Int)) :
    ∃ n, nodeAt job nn = some n := by
  unfold nodeAt
  rw [if_pos h0]
  have : nn.toNat < job.nodes.length := by omega
  exact ⟨job.nodes[nn.toNat], List.getElem?_eq_getElem this⟩

theorem calcKelem_isSome (sqrt : K → K) (self : GlobalStiffAssembler K) (i : Nat) (job : Job K)
    (hv : ValidElems job) (hi : i < job.elems.length)
    (hs : i < self.perElemKlocalAelem.length) :
    ∃ a, self.calcKelem sqrt i job = some a ∧
      a.perElemKlocalAelem.length = self.perElemKlocalAelem.length := by
  have hp : i < job.props.length := lt_of_lt_of_le hi hv.1
  have hmem : job.elems[i] ∈ job.elems := List.getElem_mem hi
  obtain ⟨b1, b2, b3, b4⟩ := hv.2 _ hmem
  obtain ⟨n1, hn1⟩ := nodeAt_isSome job _ b1 b2
  obtain ⟨n2, hn2⟩ := nodeAt_isSome job _ b3 b4
  unfold GlobalStiffAssembler.calcKelem
  simp only [List.getElem?_eq_getElem hp, List.getElem?_eq_getElem hi, hn1, hn2, hs, if_true]
  exact ⟨_, rfl, by simp⟩

theorem elemLoop_isSome (sqrt : K → K) (job : Job K) (self : GlobalStiffAssembler K)
    (ts0 : List (Triplet K)) (hv : ValidElems job) (k : Nat) (hk : k ≤ job.elems.length)
    (hs : job.elems.length ≤ self.perElemKlocalAelem.length) :
    ∃ a ts, elemLoop sqrt job self ts0 k = some (a, ts) ∧
      a.perElemKlocalAelem.length = self.perElemKlocalAelem.length := by
  induction k with
  | zero => exact ⟨self, ts0, rfl, rfl⟩
  | succ k ih =>
    obtain ⟨a0, t0, h0, hl⟩ := ih (by omega)
    obtain ⟨a1, h1, hl1⟩ := calcKelem_isSome sqrt a0 k job hv (by omega) (by omega)
    have he : job.elems[k]? = some job.elems[k] := List.getElem?_eq_getElem (by omega)
    refine ⟨a1, t0 ++ elemTriplets a1.Kelem (job.elems[k]).1 (job.elems[k]).2, ?_, by omega⟩
    simp only [elemLoop, h0, h1, he]

theorem resizeMats_length (v : List (LocalMatrix K)) (n : Nat) : (resizeMats v n).length = n := by
  unfold resizeMats
  simp only [List.length_append, List.length_take, List.length_replicate]
  omega

theorem assemble_isSome (sqrt : K → K) (self : GlobalStiffAssembler K) (Kg0 : SparseMat K)
    (job : Job K) (ties : List (Tie K))
    (hK : KlocalClean self.Klocal) (hA : BlockClean self.Aelem)
    (hv : ValidElems job) (ht : ValidTies job.nodes.length ties)
    (hn : NUM_DOFS * job.nodes.length < 2 ^ 31)
    (hr : NUM_DOFS * job.nodes.length ≤ Kg0.rows) (hc : NUM_DOFS * job.nodes.length ≤ Kg0.cols) :
    ∃ a Kg, self.assemble sqrt Kg0 job ties = some (a, Kg) := by
  obtain ⟨a, ts, hl, -⟩ := elemLoop_isSome sqrt job (self.resized job) [] hv job.elems.length
    le_rfl (by simp [GlobalStiffAssembler.resized, resizeMats_length])
  have hb := elemLoop_inBlock sqrt job (self.resized job) hK hA hn _ a ts hl
  obtain ⟨Kg, hs⟩ := setFromTriplets_isSome Kg0 (loadTies ts ties) _
    (inBlock_loadTies ts ties _ hn hb ht) hr hc
  refine ⟨a, Kg, ?_⟩
  unfold GlobalStiffAssembler.assemble
  simp only [hl, hs]

theorem assemble_eq_some {sqrt : K → K} {self a : GlobalStiffAssembler K} {Kg0 Kg : SparseMat K}
    {job : Job K} {ties : List (Tie K)} (h : self.assemble sqrt Kg0 job ties = some (a, Kg)) :
    ∃ ts, elemLoop sqrt job (self.resized job) [] job.elems.length = some (a, ts) ∧
      Kg0.setFromTriplets (loadTies ts ties) = some Kg := by
  unfold GlobalStiffAssembler.assemble at h
  cases hl : elemLoop sqrt job (self.resized job) [] job.elems.length with
  | none => simp [hl] at h
  | some st =>
    obtain ⟨a1, ts⟩ := st
    simp only [hl] at h
    cases hs : Kg0.setFromTriplets (loadTies ts ties) with
    | none => simp [hs] at h
    | some Kg1 =>
      simp only [hs, Option.some.injEq, Prod.mk.injEq] at h
      obtain ⟨rfl, rfl⟩ := h
      exact ⟨ts, rfl, hs⟩

/-! ## Ties and example inputs -/

theorem validElems_exampleJob : ValidElems exampleJob := by
  simp [ValidElems, exampleJob]

theorem norm_axis (sqrt : K → K) (hsqrt : ∀ x : K, 0 ≤ x → sqrt (x * x) = x) (L : K)
    (hL : 0 ≤ L) : norm sqrt ![0, 0, 0] ![L, 0, 0] = L := by
  simp [norm, squaredNorm, hsqrt L hL]

theorem rat_sqrt_sq (x : ℚ) (hx : 0 ≤ x) : Rat.sqrt (x * x) = x := by
  rw [Rat.sqrt_eq, abs_of_nonneg hx]

theorem nodeAt_exampleJob_zero : nodeAt exampleJob 0 = some ![0, 0, 0] := by
  simp [nodeAt, exampleJob]

theorem nodeAt_exampleJob_one : nodeAt exampleJob 1 = some ![2, 0, 0] := by
  simp [nodeAt, exampleJob]

theorem norm_exampleJob : norm Rat.sqrt ![0, 0, 0] ![2, 0, 0] = 2 :=
  norm_axis Rat.sqrt rat_sqrt_sq 2 (by norm_num)

theorem exampleJob_lengths (e : Elem) (n1 n2 : Node ℚ) (he : e ∈ exampleJob.elems)
    (h1 : nodeAt exampleJob e.1 = some n1) (h2 : nodeAt exampleJob e.2 = some n2) :
    norm Rat.sqrt n1 n2 ≠ 0 := by
  have : e = (0, 1) := by simpa [exampleJob] using he
  subst this
  rw [nodeAt_exampleJob_zero] at h1
  rw [nodeAt_exampleJob_one] at h2
  simp only [Option.some.injEq] at h1 h2
  subst h1 h2
  rw [norm_exampleJob]
  norm_num

theorem validTies_exampleTies : ValidTies exampleJob.nodes.length exampleTies := by
  simp [ValidTies, exampleTies, exampleJob]

theorem tripletSum_tieTriplets (tie : Tie K) (j r c : Nat) (hj : j < 6)
    (h1 : 6 * tie.node_number_1 + 5 < 2 ^ 31) (h2 : 6 * tie.node_number_2 + 5 < 2 ^ 31) :
    tripletSum (tieTriplets tie j) r c = tieContribution tie j r c := by
  have e1 := tieIndex_eq tie.node_number_1 j hj h1
  have e2 := tieIndex_eq tie.node_number_2 j hj h2
  simp only [tieTriplets, tripletSum_cons, tripletSum_nil, add_zero, e1, e2, tieContribution,
    Nat.cast_inj]
  simp only [eq_comm (a := r), eq_comm (a := c)]
  ring

theorem tripletSum_loadTies (ts : List (Triplet K)) (ties : List (Tie K))
    (hties : ∀ tie ∈ ties, 6 * tie.node_number_1 + 5 < 2 ^ 31 ∧
      6 * tie.node_number_2 + 5 < 2 ^ 31) (r c : Nat) :
    tripletSum (loadTies ts ties) r c =
      tripletSum ts r c +
        (ties.map fun tie => ((List.range 6).map fun j => tieContribution tie j r c).sum).sum := by
  unfold loadTies
  rw [tripletSum_append, tripletSum_flatMap]
  congr 1
  refine congrArg List.sum (List.map_congr_left fun tie htie => ?_)
  rw [tripletSum_flatMap]
  refine congrArg List.sum (List.map_congr_left fun j hj => ?_)
  exact tripletSum_tieTriplets tie j r c (List.mem_range.mp hj) (hties tie htie).1
    (hties tie htie).2

/-! ## Runs of insert statements -/

theorem insert_eq_some {m m1 : SparseMat K} {r c : Nat} {v : K}
    (h : m.insert r c v = some m1) :
    r < m.rows ∧ c < m.cols ∧ m.stored r c = none ∧ m1.rows = m.rows ∧ m1.cols = m.cols ∧
      ∀ i j, m1.stored i j = if i = r ∧ j = c then some v else m.stored i j := by
  unfold SparseMat.insert at h
  split_ifs at h with hc
  simp only [Option.some.injEq] at h
  subst h
  exact ⟨hc.1, hc.2.1, Option.isNone_iff_eq_none.mp hc.2.2, rfl, rfl, fun _ _ => rfl⟩

theorem insert_isSome (m : SparseMat K) (r c : Nat) (v : K) (hr : r < m.rows) (hc : c < m.cols)
    (hs : m.stored r c = none) : ∃ m1, m.insert r c v = some m1 := by
  unfold SparseMat.insert
  rw [if_pos ⟨hr, hc, by simp [hs]⟩]
  exact ⟨_, rfl⟩

theorem insertAll_append (m : SparseMat K) (l1 l2 : List (Nat × Nat × K)) :
    insertAll m (l1 ++ l2) =
      match insertAll m l1 with
      | none => none
      | some m1 => insertAll m1 l2 := by
  induction l1 generalizing m with
  | nil => rfl
  | cons e l1 ih =>
    simp only [List.cons_append, insertAll]
    cases m.insert e.1 e.2.1 e.2.2 with
    | none => rfl
    | some m1 => exact ih m1

theorem insertAll_eq_some {l : List (Nat × Nat × K)} {m m1 : SparseMat K}
    (h : insertAll m l = some m1) :
    m1.rows = m.rows ∧ m1.cols = m.cols ∧
      (∀ r c, m1.coeff r c = m.coeff r c + entrySum l r c) ∧
      (∀ r c, (∀ e ∈ l, ¬(e.1 = r ∧ e.2.1 = c)) → m1.stored r c = m.stored r c) := by
  induction l generalizing m with
  | nil =>
    simp only [insertAll, Option.some.injEq] at h
    subst h
    exact ⟨rfl, rfl, fun r c => by simp [entrySum], fun _ _ _ => rfl⟩
  | cons e l ih =>
    simp only [insertAll] at h
    cases hi : m.insert e.1 e.2.1 e.2.2 with
    | none => simp [hi] at h
    | some m2 =>
      simp only [hi] at h
      obtain ⟨hr, hc, hco, hst⟩ := ih h
      obtain ⟨_, _, hnone, hr2, hc2, hs2⟩ := insert_eq_some hi
      refine ⟨hr.trans hr2, hc.trans hc2, fun r c => ?_, fun r c hne => ?_⟩
      · rw [hco r c]
        simp only [SparseMat.coeff, hs2 r c, entrySum, List.map_cons, List.sum_cons]
        by_cases hrc : r = e.1 ∧ c = e.2.1
        · obtain ⟨rfl, rfl⟩ := hrc
          simp [hnone]
        · have : ¬(e.1 = r ∧ e.2.1 = c) := fun hh => hrc ⟨hh.1.symm, hh.2.symm⟩
          simp [hrc, this]
      · rw [hst r c (fun e' he' => hne e' (List.mem_cons_of_mem _ he')), hs2 r c]
        have : ¬(r = e.1 ∧ c = e.2.1) := fun hh =>
          hne e (List.mem_cons_self _ _) ⟨hh.1.symm, hh.2.symm⟩
        rw [if_neg this]

theorem insertAll_isSome (l : List (Nat × Nat × K)) (m : SparseMat K)
    (hb : ∀ e ∈ l, e.1 < m.rows ∧ e.2.1 < m.cols)
    (hs : ∀ e ∈ l, m.stored e.1 e.2.1 = none)
    (hd : (l.map fun e => (e.1, e.2.1)).Nodup) :
    ∃ m1, insertAll m l = some m1 := by
  induction l generalizing m with
  | nil => exact ⟨m, rfl⟩
  | cons e l ih =>
    obtain ⟨m2, hi⟩ := insert_isSome m e.1 e.2.1 e.2.2 (hb e (List.mem_cons_self _ _)).1
      (hb e (List.mem_cons_self _ _)).2 (hs e (List.mem_cons_self _ _))
    obtain ⟨_, _, _, hr2, hc2, hs2⟩ := insert_eq_some hi
    simp only [List.map_cons, List.nodup_cons, List.mem_map, not_exists, not_and] at hd
    obtain ⟨m1, h1⟩ := ih m2
      (fun e' he' => by
        rw [hr2, hc2]; exact hb e' (List.mem_cons_of_mem _ he'))
      (fun e' he' => by
        rw [hs2]
        have : ¬(e'.1 = e.1 ∧ e'.2.1 = e.2.1) := fun hh =>
          hd.1 e' he' (Prod.ext hh.1 hh.2)
        rw [if_neg this]
        exact hs e' (List.mem_cons_of_mem _ he'))
      hd.2
    exact ⟨m1, by simp only [insertAll, hi, h1]⟩

theorem sum_entrySum_mul (l : List (Nat × Nat × K)) (r n : Nat) (x : Nat → K) :
    ∑ c in Finset.range n, entrySum l r c * x c = rowSum l r n x := by
  induction l with
  | nil => simp [entrySum, rowSum]
  | cons e l ih =>
    simp only [entrySum, rowSum, List.map_cons, List.sum_cons] at ih ⊢
    simp only [add_mul, Finset.sum_add_distrib, ih]
    congr 1
    by_cases hr : e.1 = r
    · simp only [hr, true_and, ite_mul, zero_mul]
      rw [Finset.sum_ite_eq]
      simp only [Finset.mem_range]
    · simp [hr]

theorem rowSum_append (l1 l2 : List (Nat × Nat × K)) (r n : Nat) (x : Nat → K) :
    rowSum (l1 ++ l2) r n x = rowSum l1 r n x + rowSum l2 r n x := by
  simp [rowSum]

theorem entrySum_append (l1 l2 : List (Nat × Nat × K)) (r c : Nat) :
    entrySum (l1 ++ l2) r c = entrySum l1 r c + entrySum l2 r c := by
  simp [entrySum]

theorem rowSum_eq_zero (l : List (Nat × Nat × K)) (r n : Nat) (x : Nat → K)
    (h : ∀ e ∈ l, e.1 ≠ r) : rowSum l r n x = 0 := by
  unfold rowSum
  apply List.sum_eq_zero
  intro y hy
  obtain ⟨e, he, rfl⟩ := List.mem_map.mp hy
  simp [h e he]

theorem entrySum_eq_zero (l : List (Nat × Nat × K)) (r c : Nat)
    (h : ∀ e ∈ l, ¬(e.1 = r ∧ e.2.1 = c)) : entrySum l r c = 0 := by
  unfold entrySum
  apply List.sum_eq_zero
  intro y hy
  obtain ⟨e, he, rfl⟩ := List.mem_map.mp hy
  simp [h e he]

/-! ## The constraint loops as runs of insert statements -/

theorem loadBCsLoop_eq_some_iff (G : Nat) (bcs : List (BC K)) (i : Nat)
    (Kg f Kg1 f1 : SparseMat K) :
    loadBCsLoop G bcs i Kg f = some (Kg1, f1) ↔
      insertAll Kg (bcEntries G bcs i) = some Kg1 ∧ insertAll f (bcRhs G bcs i) = some f1 := by
  induction bcs generalizing i Kg f with
  | nil =>
    simp only [loadBCsLoop, bcEntries, bcRhs, insertAll, Option.some.injEq, Prod.mk.injEq]
  | cons bc rest ih =>
    simp only [loadBCsLoop, bcEntries, bcRhs, insertAll]
    cases h1 : Kg.insert (u32 (u32 (NUM_DOFS * bc.node) + bc.dof)) (G + i) 1 with
    | none => simp
    | some Kg2 =>
      simp only []
      cases h2 : Kg2.insert (G + i) (u32 (u32 (NUM_DOFS * bc.node) + bc.dof)) 1 with
      | none => simp
      | some Kg3 =>
        simp only []
        by_cases hv : |bc.value| > dbl_epsilon
        · simp only [hv, if_true, insertAll]
          cases h3 : f.insert (G + i) 0 bc.value with
          | none => simp
          | some f2 => exact ih (i + 1) Kg3 f2
        · simp only [hv, if_false]
          exact ih (i + 1) Kg3 f

theorem loadTermsLoop_eq (row_idx : Nat) (terms : List (Term K)) (Kg : SparseMat K) :
    loadTermsLoop row_idx terms Kg = insertAll Kg (termEntries row_idx terms) := by
  induction terms generalizing Kg with
  | nil => rfl
  | cons t rest ih =>
    simp only [loadTermsLoop, termEntries, insertAll]
    cases Kg.insert row_idx (u32 (u32 (NUM_DOFS * t.node_number) + t.dof)) t.coefficient with
    | none => rfl
    | some Kg1 =>
      simp only []
      cases Kg1.insert (u32 (u32 (NUM_DOFS * t.node_number) + t.dof)) row_idx t.coefficient with
      | none => rfl
      | some Kg2 => exact ih Kg2

theorem loadEquationsLoop_eq (G : Nat) (eqs : List (Equation K)) (i : Nat) (Kg : SparseMat K) :
    loadEquationsLoop G eqs i Kg = insertAll Kg (eqEntries G eqs i) := by
  induction eqs generalizing i Kg with
  | nil => rfl
  | cons eq rest ih =>
    simp only [loadEquationsLoop, eqEntries, insertAll_append, loadTermsLoop_eq]
    cases insertAll Kg (termEntries (G + i) eq.terms) with
    | none => rfl
    | some Kg1 => exact ih (i + 1) Kg1

theorem loadForces_eq (f : SparseMat K) (forces : List (Force K)) :
    loadForces f forces = insertAll f (forceEntries forces) := by
  induction forces generalizing f with
  | nil => rfl
  | cons fo rest ih =>
    simp only [loadForces, forceEntries, List.map_cons, insertAll]
    cases f.insert (u32 (u32 (NUM_DOFS * fo.node) + fo.dof)) 0 fo.value with
    | none => rfl
    | some f1 => exact ih f1

theorem augmentedSystem_eq_some {sqrt : K → K} {job : Job K} {BCs : List (BC K)}
    {forces : List (Force K)} {ties : List (Tie K)} {equations : List (Equation K)}
    {a : GlobalStiffAssembler K} {Kg f : SparseMat K}
    (h : augmentedSystem sqrt job BCs forces ties equations = some (a, Kg, f)) :
    ∃ Kg1 : SparseMat K,
      GlobalStiffAssembler.init.assemble sqrt
        (SparseMat.empty (NUM_DOFS * job.nodes.length + BCs.length + equations.length)
          (NUM_DOFS * job.nodes.length + BCs.length + equations.length)) job ties
        = some (a, Kg1) ∧
      insertAll Kg1 (bcEntries (u32 (NUM_DOFS * u32 job.nodes.length)) BCs 0 ++
        eqEntries (u32 (u32 (NUM_DOFS * u32 job.nodes.length) + u32 BCs.length)) equations 0)
        = some Kg ∧
      insertAll (SparseMat.empty
          (NUM_DOFS * job.nodes.length + BCs.length + equations.length) 1)
        (bcRhs (u32 (NUM_DOFS * u32 job.nodes.length)) BCs 0 ++ forceEntries forces) = some f := by
  unfold augmentedSystem at h
  simp only [] at h
  cases ha : GlobalStiffAssembler.init.assemble sqrt
      (SparseMat.empty (NUM_DOFS * job.nodes.length + BCs.length + equations.length)
        (NUM_DOFS * job.nodes.length + BCs.length + equations.length)) job ties with
  | none => simp [ha] at h
  | some st =>
    obtain ⟨a1, Kg1⟩ := st
    simp only [ha] at h
    cases hb : loadBCs Kg1 (SparseMat.empty
        (NUM_DOFS * job.nodes.length + BCs.length + equations.length) 1) BCs
        (u32 job.nodes.length) with
    | none => simp [hb] at h
    | some st2 =>
      obtain ⟨Kg2, f1⟩ := st2
      simp only [hb] at h
      obtain ⟨hb1, hb2⟩ := (loadBCsLoop_eq_some_iff _ _ _ _ _ _ _).mp hb
      have he : ∀ Kg3, (if equations.length > 0 then
          loadEquations Kg2 equations (u32 job.nodes.length) (u32 BCs.length) else some Kg2)
            = some Kg3 →
          insertAll Kg2 (eqEntries (u32 (u32 (NUM_DOFS * u32 job.nodes.length) + u32 BCs.length))
            equations 0) = some Kg3 := by
        intro Kg3 h3
        split_ifs at h3 with hpos
        · rw [← h3]; unfold loadEquations; rw [loadEquationsLoop_eq]
        · have : equations = [] := List.length_eq_zero.mp (by omega)
          subst this
          exact h3
      have hf : ∀ f2, (if forces.length > 0 then loadForces f1 forces else some f1) = some f2 →
          insertAll f1 (forceEntries forces) = some f2 := by
        intro f2 h2
        split_ifs at h2 with hpos
        · rw [← h2, loadForces_eq]
        · have : forces = [] := List.length_eq_zero.mp (by omega)
          subst this
          exact h2
      cases h3 : (if equations.length > 0 then
          loadEquations Kg2 equations (u32 job.nodes.length) (u32 BCs.length) else some Kg2) with
      | none => simp [h3] at h
      | some Kg3 =>
        simp only [h3] at h
        cases h4 : (if forces.length > 0 then loadForces f1 forces else some f1) with
        | none => simp [h4] at h
        | some f2 =>
          simp only [h4, Option.some.injEq, Prod.mk.injEq] at h
          obtain ⟨rfl, rfl, rfl⟩ := h
          refine ⟨Kg1, rfl, ?_, ?_⟩
          · rw [insertAll_append, hb1]; exact he _ h3
          · rw [insertAll_append, hb2]; exact hf _ h4

/-! ## Rows of the constraint entries -/

theorem mem_bcEntries {G : Nat} {bcs : List (BC K)} {s : Nat} {e : Nat × Nat × K}
    (h : e ∈ bcEntries G bcs s) :
    ∃ k bc, bcs[k]? = some bc ∧
      (e = (u32 (u32 (NUM_DOFS * bc.node) + bc.dof), G + s + k, 1) ∨
       e = (G + s + k, u32 (u32 (NUM_DOFS * bc.node) + bc.dof), 1)) := by
  induction bcs generalizing s with
  | nil => simp [bcEntries] at h
  | cons bc rest ih =>
    simp only [bcEntries, List.mem_cons] at h
    rcases h with h | h | h
    · exact ⟨0, bc, by simp, Or.inl h⟩
    · exact ⟨0, bc, by simp, Or.inr h⟩
    · obtain ⟨k, bc', hk, he⟩ := ih h
      refine ⟨k + 1, bc', by simpa using hk, ?_⟩
      have : G + (s + 1) + k = G + s + (k + 1) := by omega
      rw [this] at he
      exact he

theorem mem_bcRhs {G : Nat} {bcs : List (BC K)} {s : Nat} {e : Nat × Nat × K}
    (h : e ∈ bcRhs G bcs s) :
    ∃ k bc, bcs[k]? = some bc ∧ e = (G + s + k, 0, bc.value) := by
  induction bcs generalizing s with
  | nil => simp [bcRhs] at h
  | cons bc rest ih =>
    simp only [bcRhs] at h
    have step : e ∈ bcRhs G rest (s + 1) →
        ∃ k bc', (bc :: rest)[k]? = some bc' ∧ e = (G + s + k, 0, bc'.value) := by
      intro h'
      obtain ⟨k, bc', hk, he⟩ := ih h'
      refine ⟨k + 1, bc', by simpa using hk, ?_⟩
      have : G + (s + 1) + k = G + s + (k + 1) := by omega
      rw [this] at he
      exact he
    split_ifs at h with hv
    · rcases List.mem_cons.mp h with h | h
      · exact ⟨0, bc, by simp, h⟩
      · exact step h
    · exact step h

theorem mem_termEntries {row : Nat} {terms : List (Term K)} {e : Nat × Nat × K}
    (h : e ∈ termEntries row terms) :
    ∃ t ∈ terms,
      e = (row, u32 (u32 (NUM_DOFS * t.node_number) + t.dof), t.coefficient) ∨
      e = (u32 (u32 (NUM_DOFS * t.node_number) + t.dof), row, t.coefficient) := by
  induction terms with
  | nil => simp [termEntries] at h
  | cons t rest ih =>
    simp only [termEntries, List.mem_cons] at h
    rcases h with h | h | h
    · exact ⟨t, List.mem_cons_self _ _, Or.inl h⟩
    · exact ⟨t, List.mem_cons_self _ _, Or.inr h⟩
    · obtain ⟨t', ht', he⟩ := ih h
      exact ⟨t', List.mem_cons_of_mem _ ht', he⟩

theorem mem_eqEntries {G : Nat} {eqs : List (Equation K)} {s : Nat} {e : Nat × Nat × K}
    (h : e ∈ eqEntries G eqs s) :
    ∃ k eq, eqs[k]? = some eq ∧ e ∈ termEntries (G + s + k) eq.terms := by
  induction eqs generalizing s with
  | nil => simp [eqEntries] at h
  | cons eq rest ih =>
    simp only [eqEntries, List.mem_append] at h
    rcases h with h | h
    · exact ⟨0, eq, by simp, h⟩
    · obtain ⟨k, eq', hk, he⟩ := ih h
      refine ⟨k + 1, eq', by simpa using hk, ?_⟩
      have : G + (s + 1) + k = G + s + (k + 1) := by omega
      rw [this] at he
      exact he

theorem rowSum_cons (e : Nat × Nat × K) (l : List (Nat × Nat × K)) (r n : Nat) (x : Nat → K) :
    rowSum (e :: l) r n x =
      (if e.1 = r ∧ e.2.1 < n then e.2.2 * x e.2.1 else 0) + rowSum l r n x := by
  simp [rowSum]

theorem entrySum_cons (e : Nat × Nat × K) (l : List (Nat × Nat × K)) (r c : Nat) :
    entrySum (e :: l) r c = (if e.1 = r ∧ e.2.1 = c then e.2.2 else 0) + entrySum l r c := by
  simp [entrySum]

theorem rowSum_bcEntries (G n : Nat) (x : Nat → K) (bcs : List (BC K)) (s i : Nat) (bc : BC K)
    (hb : ∀ b ∈ bcs, u32 (u32 (NUM_DOFS * b.node) + b.dof) < G)
    (hn : G ≤ n) (hi : bcs[i]? = some bc) :
    rowSum (bcEntries G bcs s) (G + s + i) n x = x (u32 (u32 (NUM_DOFS * bc.node) + bc.dof)) := by
  induction bcs generalizing s i with
  | nil => simp at hi
  | cons b rest ih =>
    have hb0 := hb b (List.mem_cons_self _ _)
    simp only [bcEntries, rowSum_cons]
    have h1 : ¬(u32 (u32 (NUM_DOFS * b.node) + b.dof) = G + s + i) := by omega
    rw [if_neg (fun h => h1 h.1)]
    cases i with
    | zero =>
      simp only [List.getElem?_cons_zero, Option.some.injEq] at hi
      subst hi
      have hlt : u32 (u32 (NUM_DOFS * b.node) + b.dof) < n := by omega
      rw [if_pos ⟨by omega, hlt⟩]
      rw [rowSum_eq_zero]
      · simp
      · intro e he
        obtain ⟨k, bc', hk, he'⟩ := mem_bcEntries he
        have := hb bc' (List.mem_cons_of_mem _ (List.mem_iff_getElem?.mpr ⟨k, hk⟩))
        rcases he' with rfl | rfl <;> simp only <;> omega
    | succ j =>
      have h2 : ¬(G + s = G + s + (j + 1)) := by omega
      rw [if_neg (fun h => h2 h.1)]
      simp only [List.getElem?_cons_succ] at hi
      have := ih (s + 1) j (fun b' hb' => hb b' (List.mem_cons_of_mem _ hb')) hi
      have e : G + (s + 1) + j = G + s + (j + 1) := by omega
      rw [e] at this
      rw [this]; simp

theorem entrySum_bcRhs (G : Nat) (bcs : List (BC K)) (s i : Nat) (bc : BC K)
    (hi : bcs[i]? = some bc) :
    entrySum (bcRhs G bcs s) (G + s + i) 0 = if |bc.value| > dbl_epsilon then bc.value else 0 := by
  induction bcs generalizing s i with
  | nil => simp at hi
  | cons b rest ih =>
    have hzero : ∀ j, entrySum (bcRhs G rest (s + 1 + j)) (G + s) 0 = 0 := by
      intro j
      apply entrySum_eq_zero
      intro e he
      obtain ⟨k, bc', -, rfl⟩ := mem_bcRhs he
      simp only; omega
    cases i with
    | zero =>
      simp only [List.getElem?_cons_zero, Option.some.injEq] at hi
      subst hi
      have hz := hzero 0
      simp only [add_zero] at hz ⊢
      simp only [bcRhs]
      by_cases hv : |b.value| > dbl_epsilon
      · rw [if_pos hv, if_pos hv, entrySum_cons, hz]
        simp
      · rw [if_neg hv, if_neg hv]
        exact hz
    | succ j =>
      simp only [List.getElem?_cons_succ] at hi
      have := ih (s + 1) j hi
      have e : G + (s + 1) + j = G + s + (j + 1) := by omega
      rw [e] at this
      have hne : ¬(G + s = G + s + (j + 1)) := by omega
      simp only [bcRhs]
      by_cases hv : |b.value| > dbl_epsilon
      · simp only [hv, if_true, entrySum_cons]
        rw [if_neg (fun h => hne h.1), zero_add]
        simpa [hv] using this
      · simp only [hv, if_false]
        simpa [hv] using this

theorem rowSum_termEntries (row n : Nat) (x : Nat → K) (terms : List (Term K))
    (hb : ∀ t ∈ terms, u32 (u32 (NUM_DOFS * t.node_number) + t.dof) < row)
    (hn : row ≤ n) :
    rowSum (termEntries row terms) row n x =
      (terms.map fun t => t.coefficient * x (u32 (u32 (NUM_DOFS * t.node_number) + t.dof))).sum := by
  induction terms with
  | nil => simp [termEntries, rowSum]
  | cons t rest ih =>
    have h0 := hb t (List.mem_cons_self _ _)
    simp only [termEntries, rowSum_cons, List.map_cons, List.sum_cons]
    rw [ih (fun t' ht' => hb t' (List.mem_cons_of_mem _ ht'))]
    have h1 : u32 (u32 (NUM_DOFS * t.node_number) + t.dof) < n := by omega
    have h2 : ¬(u32 (u32 (NUM_DOFS * t.node_number) + t.dof) = row) := by omega
    rw [if_pos ⟨trivial, h1⟩, if_neg (fun h => h2 h.1)]
    simp

theorem rowSum_eqEntries (G n : Nat) (x : Nat → K) (eqs : List (Equation K)) (s i : Nat)
    (eq : Equation K)
    (hb : ∀ q ∈ eqs, ∀ t ∈ q.terms, u32 (u32 (NUM_DOFS * t.node_number) + t.dof) < G)
    (hn : G + s + i ≤ n) (hi : eqs[i]? = some eq) :
    rowSum (eqEntries G eqs s) (G + s + i) n x =
      (eq.terms.map fun t =>
        t.coefficient * x (u32 (u32 (NUM_DOFS * t.node_number) + t.dof))).sum := by
  induction eqs generalizing s i with
  | nil => simp at hi
  | cons q rest ih =>
    simp only [eqEntries, rowSum_append]
    cases i with
    | zero =>
      simp only [List.getElem?_cons_zero, Option.some.injEq] at hi
      subst hi
      simp only [add_zero] at hn ⊢
      rw [rowSum_termEntries (G + s) n x q.terms
        (fun t ht => by have := hb q (List.mem_cons_self _ _) t ht; omega) (by omega)]
      rw [rowSum_eq_zero]
      · simp
      · intro e he
        obtain ⟨k, q', hk, he'⟩ := mem_eqEntries he
        obtain ⟨t, ht, he''⟩ := mem_termEntries he'
        have := hb q' (List.mem_cons_of_mem _ (List.mem_iff_getElem?.mpr ⟨k, hk⟩)) t ht
        rcases he'' with rfl | rfl <;> simp only <;> omega
    | succ j =>
      simp only [List.getElem?_cons_succ] at hi
      have := ih (s + 1) j (fun q' hq' => hb q' (List.mem_cons_of_mem _ hq')) (by omega) hi
      have e : G + (s + 1) + j = G + s + (j + 1) := by omega
      rw [e] at this
      rw [this, rowSum_eq_zero]
      · simp
      · intro e he
        obtain ⟨t, ht, he''⟩ := mem_termEntries he
        have := hb q (List.mem_cons_self _ _) t ht
        rcases he'' with rfl | rfl <;> simp only <;> omega

/-! ## The augmented system in closed form -/

theorem u32_dof (n node dof : Nat) (hn : NUM_DOFS * n < 2 ^ 31) (h1 : node < n) (h2 : dof < 6) :
    u32 (u32 (NUM_DOFS * node) + dof) = 6 * node + dof ∧ 6 * node + dof < 6 * n := by
  unfold u32 NUM_DOFS at *
  omega

theorem u32_base (n b : Nat) (hn : NUM_DOFS * n + b < 2 ^ 31) :
    u32 (NUM_DOFS * u32 n) = 6 * n ∧ u32 (u32 (NUM_DOFS * u32 n) + u32 b) = 6 * n + b := by
  unfold u32 NUM_DOFS at *
  omega

theorem tripletSum_eq_zero_of_inBlock {n : Nat} {ts : List (Triplet K)} (h : InBlock n ts)
    (r c : Nat) (hrc : n ≤ r ∨ n ≤ c) : tripletSum ts r c = 0 := by
  apply tripletSum_eq_zero_of_not_any
  rw [Bool.eq_false_iff]
  intro hany
  rw [List.any_eq_true] at hany
  obtain ⟨t, ht, hd⟩ := hany
  simp only [decide_eq_true_eq] at hd
  obtain ⟨_, b, _, d⟩ := h t ht
  omega

/-- The facts about the augmented system that the properties below rest on. -/
theorem augmentedSystem_spec {sqrt : K → K} {job : Job K} {BCs : List (BC K)}
    {forces : List (Force K)} {ties : List (Tie K)} {equations : List (Equation K)}
    {a : GlobalStiffAssembler K} {Kg f : SparseMat K}
    (h : augmentedSystem sqrt job BCs forces ties equations = some (a, Kg, f))
    (hsize : NUM_DOFS * job.nodes.length + BCs.length + equations.length < 2 ^ 31)
    (hties : ValidTies job.nodes.length ties) :
    ∃ (Kg1 : SparseMat K) (ts : List (Triplet K)),
      GlobalStiffAssembler.init.assemble sqrt
        (SparseMat.empty (NUM_DOFS * job.nodes.length + BCs.length + equations.length)
          (NUM_DOFS * job.nodes.length + BCs.length + equations.length)) job ties
        = some (a, Kg1) ∧
      elemLoop sqrt job (GlobalStiffAssembler.init.resized job) [] job.elems.length
        = some (a, ts) ∧
      InBlock (NUM_DOFS * job.nodes.length) (loadTies ts ties) ∧
      (∀ r c, Kg1.coeff r c = tripletSum (loadTies ts ties) r c) ∧
      (∀ r c, 6 * job.nodes.length ≤ r ∨ 6 * job.nodes.length ≤ c → Kg1.stored r c = none) ∧
      insertAll Kg1 (bcEntries (6 * job.nodes.length) BCs 0 ++
        eqEntries (6 * job.nodes.length + BCs.length) equations 0) = some Kg ∧
      Kg.rows = 6 * job.nodes.length + BCs.length + equations.length ∧
      Kg.cols = 6 * job.nodes.length + BCs.length + equations.length ∧
      (∀ r c, Kg.coeff r c = tripletSum (loadTies ts ties) r c +
        entrySum (bcEntries (6 * job.nodes.length) BCs 0 ++
          eqEntries (6 * job.nodes.length + BCs.length) equations 0) r c) ∧
      (∀ r, f.coeff r 0 =
        entrySum (bcRhs (6 * job.nodes.length) BCs 0 ++ forceEntries forces) r 0) ∧
      insertAll (SparseMat.empty
          (NUM_DOFS * job.nodes.length + BCs.length + equations.length) 1)
        (bcRhs (6 * job.nodes.length) BCs 0 ++ forceEntries forces) = some f := by
  obtain ⟨Kg1, ha, hk, hf⟩ := augmentedSystem_eq_some h
  obtain ⟨ts, hl, hs⟩ := assemble_eq_some ha
  have hn : NUM_DOFS * job.nodes.length < 2 ^ 31 := by omega
  have hb1 := u32_base job.nodes.length BCs.length (by omega)
  have hb2 : u32 (6 * job.nodes.length + u32 BCs.length) = 6 * job.nodes.length + BCs.length := by
    unfold u32 NUM_DOFS at *
    omega
  rw [hb1.1, hb2] at hk
  rw [hb1.1] at hf
  have hin := inBlock_loadTies ts ties _ hn
    (elemLoop_inBlock sqrt job _ klocalClean_zero blockClean_zero hn _ a ts hl) hties
  obtain ⟨hr, hc, hco, -⟩ := insertAll_eq_some hk
  obtain ⟨-, -, hfco, -⟩ := insertAll_eq_some hf
  have h1 := fun r c => setFromTriplets_coeff hs r c
  refine ⟨Kg1, ts, ha, hl, hin, fun r c => (h1 r c).1, ?_, hk, ?_, ?_, ?_, ?_, hf⟩
  · intro r c hrc
    exact setFromTriplets_stored_none hs hin r c (by unfold NUM_DOFS; omega)
  · rw [hr, (h1 0 0).2.1]; simp [SparseMat.empty, NUM_DOFS]
  · rw [hc, (h1 0 0).2.2]; simp [SparseMat.empty, NUM_DOFS]
  · intro r c
    rw [hco, (h1 r c).1]
  · intro r
    rw [hfco]
    simp [SparseMat.coeff, SparseMat.empty]

/-- The product of row `r` of the augmented matrix with `x`. -/
theorem row_formula {job : Job K} {BCs : List (BC K)} {ties : List (Tie K)}
    {equations : List (Equation K)} {Kg : SparseMat K} {ts : List (Triplet K)} (x : Nat → K)
    (hin : InBlock (NUM_DOFS * job.nodes.length) (loadTies ts ties))
    (hco : ∀ r c, Kg.coeff r c = tripletSum (loadTies ts ties) r c +
        entrySum (bcEntries (6 * job.nodes.length) BCs 0 ++
          eqEntries (6 * job.nodes.length + BCs.length) equations 0) r c)
    (r : Nat) :
    ∑ c in Finset.range (6 * job.nodes.length + BCs.length + equations.length),
        Kg.coeff r c * x c =
    (∑ c in Finset.range (6 * job.nodes.length), tripletSum (loadTies ts ties) r c * x c) +
      rowSum (bcEntries (6 * job.nodes.length) BCs 0) r
        (6 * job.nodes.length + BCs.length + equations.length) x +
      rowSum (eqEntries (6 * job.nodes.length + BCs.length) equations 0) r
        (6 * job.nodes.length + BCs.length + equations.length) x := by
  have hle : 6 * job.nodes.length ≤ 6 * job.nodes.length + BCs.length + equations.length := by
    omega
  have hzero : ∑ c in Finset.Ico (6 * job.nodes.length)
      (6 * job.nodes.length + BCs.length + equations.length),
      tripletSum (loadTies ts ties) r c * x c = 0 := by
    apply Finset.sum_eq_zero
    intro c hc
    rw [Finset.mem_Ico] at hc
    rw [tripletSum_eq_zero_of_inBlock hin r c (Or.inr (by unfold NUM_DOFS; omega)), zero_mul]
  have key : ∑ c in Finset.range (6 * job.nodes.length + BCs.length + equations.length),
      tripletSum (loadTies ts ties) r c * x c =
      ∑ c in Finset.range (6 * job.nodes.length), tripletSum (loadTies ts ties) r c * x c := by
    rw [← Finset.sum_range_add_sum_Ico _ hle, hzero, add_zero]
  simp only [hco, add_mul, Finset.sum_add_distrib, sum_entrySum_mul, rowSum_append, key]
  ring

theorem insertAll_stored_some {l : List (Nat × Nat × K)} {m m1 : SparseMat K}
    (h : insertAll m l = some m1) (r c : Nat) (v : K) (hs : m.stored r c = some v) :
    m1.stored r c = some v := by
  induction l generalizing m with
  | nil =>
    simp only [insertAll, Option.some.injEq] at h
    subst h
    exact hs
  | cons e l ih =>
    simp only [insertAll] at h
    cases hi : m.insert e.1 e.2.1 e.2.2 with
    | none => simp [hi] at h
    | some m2 =>
      simp only [hi] at h
      obtain ⟨_, _, hnone, _, _, hs2⟩ := insert_eq_some hi
      apply ih h
      rw [hs2]
      have : ¬(r = e.1 ∧ c = e.2.1) := by
        rintro ⟨rfl, rfl⟩
        rw [hs] at hnone
        exact Option.noConfusion hnone
      rw [if_neg this]
      exact hs

theorem insertAll_stored_of_mem {l : List (Nat × Nat × K)} {m m1 : SparseMat K}
    (h : insertAll m l = some m1) (e : Nat × Nat × K) (he : e ∈ l) :
    m1.stored e.1 e.2.1 = some e.2.2 := by
  induction l generalizing m with
  | nil => simp at he
  | cons e0 l ih =>
    simp only [insertAll] at h
    cases hi : m.insert e0.1 e0.2.1 e0.2.2 with
    | none => simp [hi] at h
    | some m2 =>
      simp only [hi] at h
      rcases List.mem_cons.mp he with rfl | he'
      · obtain ⟨_, _, _, _, _, hs2⟩ := insert_eq_some hi
        exact insertAll_stored_some h _ _ _ (by rw [hs2]; simp)
      · exact ih h he'

/-! ## Rows of a solved system -/

theorem rowSum_eqEntries_eq_zero (G n r : Nat) (x : Nat → K) (eqs : List (Equation K))
    (hr1 : r < G)
    (hr2 : ∀ q ∈ eqs, ∀ t ∈ q.terms, u32 (u32 (NUM_DOFS * t.node_number) + t.dof) ≠ r) :
    rowSum (eqEntries G eqs 0) r n x = 0 := by
  apply rowSum_eq_zero
  intro e he
  obtain ⟨k, q, hk, he'⟩ := mem_eqEntries he
  obtain ⟨t, ht, he''⟩ := mem_termEntries he'
  have := hr2 q (List.mem_iff_getElem?.mpr ⟨k, hk⟩) t ht
  rcases he'' with rfl | rfl
  · simp only; omega
  · simpa using this

theorem rowSum_bcEntries_eq_zero (G n r : Nat) (x : Nat → K) (bcs : List (BC K))
    (hr1 : r < G ∨ G + bcs.length ≤ r)
    (hr2 : ∀ b ∈ bcs, u32 (u32 (NUM_DOFS * b.node) + b.dof) ≠ r) :
    rowSum (bcEntries G bcs 0) r n x = 0 := by
  apply rowSum_eq_zero
  intro e he
  obtain ⟨k, b, hk, he'⟩ := mem_bcEntries he
  have := hr2 b (List.mem_iff_getElem?.mpr ⟨k, hk⟩)
  have hlt : k < bcs.length := (List.getElem?_eq_some_iff.mp hk).1
  rcases he' with rfl | rfl
  · simpa using this
  · simp only; omega

theorem entrySum_forceEntries_eq_zero (forces : List (Force K)) (r : Nat)
    (h : ∀ fo ∈ forces, u32 (u32 (NUM_DOFS * fo.node) + fo.dof) ≠ r) :
    entrySum (forceEntries forces) r 0 = 0 := by
  apply entrySum_eq_zero
  intro e he
  obtain ⟨fo, hfo, rfl⟩ := List.mem_map.mp he
  intro hh
  exact h fo hfo hh.1

theorem entrySum_bcRhs_eq_zero (G r : Nat) (bcs : List (BC K))
    (hr : r < G ∨ G + bcs.length ≤ r) : entrySum (bcRhs G bcs 0) r 0 = 0 := by
  apply entrySum_eq_zero
  intro e he
  obtain ⟨k, b, hk, rfl⟩ := mem_bcRhs he
  have hlt : k < bcs.length := (List.getElem?_eq_some_iff.mp hk).1
  simp only
  omega

/-- The value a solution takes at the degree of freedom of the `i`-th boundary condition. -/
theorem solves_bc_value {sqrt : K → K} {job : Job K} {BCs : List (BC K)}
    {forces : List (Force K)} {ties : List (Tie K)} {equations : List (Equation K)}
    {a : GlobalStiffAssembler K} {Kg f : SparseMat K} {x : Nat → K}
    (h : augmentedSystem sqrt job BCs forces ties equations = some (a, Kg, f))
    (hw : WellFormed job BCs forces ties equations) (hx : Solves Kg f x)
    (i : Nat) (bc : BC K) (hi : BCs[i]? = some bc) :
    x (6 * bc.node + bc.dof) = if |bc.value| > dbl_epsilon then bc.value else 0 := by
  obtain ⟨hsize, -, hties, hbc, hfo, heq⟩ := hw
  obtain ⟨Kg1, ts, -, -, hin, -, -, -, hrows, hcols, hco, hfco, -⟩ :=
    augmentedSystem_spec h hsize hties
  have hn : NUM_DOFS * job.nodes.length < 2 ^ 31 := by omega
  have hlt : i < BCs.length := (List.getElem?_eq_some_iff.mp hi).1
  have hrow := hx (6 * job.nodes.length + i) (by rw [hrows]; omega)
  rw [hcols, row_formula x hin hco] at hrow
  have hbcidx : ∀ b ∈ BCs, u32 (u32 (NUM_DOFS * b.node) + b.dof) < 6 * job.nodes.length :=
    fun b hb => by
      have := u32_dof _ b.node b.dof hn (hbc b hb).1 (hbc b hb).2
      omega
  have hmem : bc ∈ BCs := List.mem_iff_getElem?.mpr ⟨i, hi⟩
  have hidx := u32_dof _ bc.node bc.dof hn (hbc bc hmem).1 (hbc bc hmem).2
  have h1 : ∑ c in Finset.range (6 * job.nodes.length),
      tripletSum (loadTies ts ties) (6 * job.nodes.length + i) c * x c = 0 := by
    apply Finset.sum_eq_zero
    intro c _
    rw [tripletSum_eq_zero_of_inBlock hin _ c (Or.inl (by unfold NUM_DOFS; omega)), zero_mul]
  have h2 := rowSum_bcEntries (6 * job.nodes.length)
    (6 * job.nodes.length + BCs.length + equations.length) x BCs 0 i bc hbcidx (by omega) hi
  have h3 : rowSum (eqEntries (6 * job.nodes.length + BCs.length) equations 0)
      (6 * job.nodes.length + i) (6 * job.nodes.length + BCs.length + equations.length) x = 0 :=
    rowSum_eqEntries_eq_zero _ _ _ x equations (by omega) (fun q hq t ht => by
      have := u32_dof _ t.node_number t.dof hn (heq q hq t ht).1 (heq q hq t ht).2
      omega)
  have h4 := entrySum_bcRhs (6 * job.nodes.length) BCs 0 i bc hi
  have h5 : entrySum (forceEntries forces) (6 * job.nodes.length + i) 0 = 0 :=
    entrySum_forceEntries_eq_zero forces _ (fun fo hfo' => by
      have := u32_dof _ fo.node fo.dof hn (hfo fo hfo').1 (hfo fo hfo').2
      omega)
  simp only [add_zero] at h2 h4
  rw [h1, h2, h3, hfco, entrySum_append, h4, h5, hidx.1] at hrow
  simpa using hrow

/-- The equation that a solution satisfies for the `i`-th multi-point equation. -/
theorem solves_equation {sqrt : K → K} {job : Job K} {BCs : List (BC K)}
    {forces : List (Force K)} {ties : List (Tie K)} {equations : List (Equation K)}
    {a : GlobalStiffAssembler K} {Kg f : SparseMat K} {x : Nat → K}
    (h : augmentedSystem sqrt job BCs forces ties equations = some (a, Kg, f))
    (hw : WellFormed job BCs forces ties equations) (hx : Solves Kg f x)
    (i : Nat) (eq : Equation K) (hi : equations[i]? = some eq) :
    (eq.terms.map fun t => t.coefficient * x (6 * t.node_number + t.dof)).sum = 0 := by
  obtain ⟨hsize, -, hties, hbc, hfo, heq⟩ := hw
  obtain ⟨Kg1, ts, -, -, hin, -, -, -, hrows, hcols, hco, hfco, -⟩ :=
    augmentedSystem_spec h hsize hties
  have hn : NUM_DOFS * job.nodes.length < 2 ^ 31 := by omega
  have hlt : i < equations.length := (List.getElem?_eq_some_iff.mp hi).1
  have hrow := hx (6 * job.nodes.length + BCs.length + i) (by rw [hrows]; omega)
  rw [hcols, row_formula x hin hco] at hrow
  have h1 : ∑ c in Finset.range (6 * job.nodes.length),
      tripletSum (loadTies ts ties) (6 * job.nodes.length + BCs.length + i) c * x c = 0 := by
    apply Finset.sum_eq_zero
    intro c _
    rw [tripletSum_eq_zero_of_inBlock hin _ c (Or.inl (by unfold NUM_DOFS; omega)), zero_mul]
  have h2 : rowSum (bcEntries (6 * job.nodes.length) BCs 0)
      (6 * job.nodes.length + BCs.length + i)
      (6 * job.nodes.length + BCs.length + equations.length) x = 0 :=
    rowSum_bcEntries_eq_zero _ _ _ x BCs (Or.inr (by omega)) (fun b hb => by
      have := u32_dof _ b.node b.dof hn (hbc b hb).1 (hbc b hb).2
      omega)
  have h3 := rowSum_eqEntries (6 * job.nodes.length + BCs.length)
    (6 * job.nodes.length + BCs.length + equations.length) x equations 0 i eq
    (fun q hq t ht => by
      have := u32_dof _ t.node_number t.dof hn (heq q hq t ht).1 (heq q hq t ht).2
      omega) (by omega) hi
  have h4 : entrySum (bcRhs (6 * job.nodes.length) BCs 0)
      (6 * job.nodes.length + BCs.length + i) 0 = 0 :=
    entrySum_bcRhs_eq_zero _ _ BCs (Or.inr (by omega))
  have h5 : entrySum (forceEntries forces) (6 * job.nodes.length + BCs.length + i) 0 = 0 :=
    entrySum_forceEntries_eq_zero forces _ (fun fo hfo' => by
      have := u32_dof _ fo.node fo.dof hn (hfo fo hfo').1 (hfo fo hfo').2
      omega)
  simp only [add_zero] at h3
  rw [h1, h2, h3, hfco, entrySum_append, h4, h5] at hrow
  simp only [zero_add, add_zero] at hrow
  rw [← hrow]
  refine congrArg List.sum (List.map_congr_left fun t ht => ?_)
  have hmem : eq ∈ equations := List.mem_iff_getElem?.mpr ⟨i, hi⟩
  rw [(u32_dof _ t.node_number t.dof hn (heq eq hmem t ht).1 (heq eq hmem t ht).2).1]

theorem entrySum_block_eq_zero (G G' r c : Nat) (bcs : List (BC K)) (eqs : List (Equation K))
    (hG : G ≤ G') (hr : r < G) (hc : c < G) :
    ∀ e ∈ bcEntries G bcs 0 ++ eqEntries G' eqs 0, ¬(e.1 = r ∧ e.2.1 = c) := by
  intro e he
  rcases List.mem_append.mp he with he | he
  · obtain ⟨k, b, -, he'⟩ := mem_bcEntries he
    rcases he' with rfl | rfl <;> simp only <;> omega
  · obtain ⟨k, q, -, he'⟩ := mem_eqEntries he
    obtain ⟨t, -, he''⟩ := mem_termEntries he'
    rcases he'' with rfl | rfl <;> simp only <;> omega

theorem augmentedSystem_block {sqrt : K → K} {job : Job K} {BCs : List (BC K)}
    {forces : List (Force K)} {ties : List (Tie K)} {equations : List (Equation K)}
    {a : GlobalStiffAssembler K} {Kg f : SparseMat K}
    (h : augmentedSystem sqrt job BCs forces ties equations = some (a, Kg, f))
    (hsize : NUM_DOFS * job.nodes.length + BCs.length + equations.length < 2 ^ 31) :
    ∃ Kg1 : SparseMat K,
      GlobalStiffAssembler.init.assemble sqrt
        (SparseMat.empty (NUM_DOFS * job.nodes.length + BCs.length + equations.length)
          (NUM_DOFS * job.nodes.length + BCs.length + equations.length)) job ties
        = some (a, Kg1) ∧
      ∀ r c, r < 6 * job.nodes.length → c < 6 * job.nodes.length →
        Kg.stored r c = Kg1.stored r c := by
  obtain ⟨Kg1, ha, hk, -⟩ := augmentedSystem_eq_some h
  have hb1 := u32_base job.nodes.length BCs.length (by omega)
  have hb2 : u32 (6 * job.nodes.length + u32 BCs.length) = 6 * job.nodes.length + BCs.length := by
    unfold u32 NUM_DOFS at *
    omega
  rw [hb1.1, hb2] at hk
  refine ⟨Kg1, ha, fun r c hr hc => ?_⟩
  exact (insertAll_eq_some hk).2.2.2 r c
    (entrySum_block_eq_zero _ _ r c BCs equations (by omega) hr hc)

theorem coeff_prune (m : SparseMat K) (reference epsilon : K) (r c : Nat) :
    (m.prune reference epsilon).coeff r c =
      if |m.coeff r c| ≤ |reference| * epsilon then 0 else m.coeff r c := by
  unfold SparseMat.prune SparseMat.coeff
  simp only
  cases hs : m.stored r c with
  | none =>
    simp only [Option.getD_none, abs_zero]
    split_ifs <;> rfl
  | some v =>
    simp only [Option.getD_some]
    split_ifs <;> rfl

theorem coeff_topLeftCorner (m : SparseMat K) (n k r c : Nat) (hr : r < n) (hc : c < k) :
    (m.topLeftCorner n k).coeff r c = m.coeff r c := by
  simp [SparseMat.topLeftCorner, SparseMat.coeff, hr, hc]

/-- Under the hypotheses below row `r` of the augmented matrix holds stiffness coefficients
only: nothing is stored beyond the stiffness block, and the coefficients inside it are those of
the assembled stiffness. -/
theorem free_row_stored {sqrt : K → K} {job : Job K} {BCs : List (BC K)}
    {forces : List (Force K)} {ties : List (Tie K)} {equations : List (Equation K)}
    {a : GlobalStiffAssembler K} {Kg f : SparseMat K}
    (h : augmentedSystem sqrt job BCs forces ties equations = some (a, Kg, f))
    (hw : WellFormed job BCs forces ties equations) (r : Nat)
    (hr : r < 6 * job.nodes.length)
    (hbc : ∀ bc ∈ BCs, 6 * bc.node + bc.dof ≠ r)
    (heq : ∀ eq ∈ equations, ∀ t ∈ eq.terms, 6 * t.node_number + t.dof ≠ r) :
    (∀ c, 6 * job.nodes.length ≤ c → Kg.stored r c = none) ∧
    Kg.rows = 6 * job.nodes.length + BCs.length + equations.length ∧
    Kg.cols = 6 * job.nodes.length + BCs.length + equations.length := by
  obtain ⟨hsize, -, hties, hbcr, hfo, heqr⟩ := hw
  obtain ⟨Kg1, ts, -, -, hin, -, hnone, hk, hrows, hcols, hco, hfco, -⟩ :=
    augmentedSystem_spec h hsize hties
  have hn : NUM_DOFS * job.nodes.length < 2 ^ 31 := by omega
  refine ⟨fun c hc => ?_, hrows, hcols⟩
  rw [(insertAll_eq_some hk).2.2.2 r c ?_]
  · exact hnone r c (Or.inr hc)
  · intro e he
    rcases List.mem_append.mp he with he | he
    · obtain ⟨k, b, hk', he'⟩ := mem_bcEntries he
      have hb := List.mem_iff_getElem?.mpr ⟨k, hk'⟩
      have := u32_dof _ b.node b.dof hn (hbcr b hb).1 (hbcr b hb).2
      have := hbc b hb
      rcases he' with rfl | rfl <;> simp only <;> omega
    · obtain ⟨k, q, hk', he'⟩ := mem_eqEntries he
      obtain ⟨t, ht, he''⟩ := mem_termEntries he'
      have hq := List.mem_iff_getElem?.mpr ⟨k, hk'⟩
      have := u32_dof _ t.node_number t.dof hn (heqr q hq t ht).1 (heqr q hq t ht).2
      have := heq q hq t ht
      rcases he'' with rfl | rfl <;> simp only <;> omega

theorem sum_range_of_stored_none (m : SparseMat K) (x : Nat → K) (r n k : Nat) (hnk : n ≤ k)
    (h : ∀ c, n ≤ c → m.stored r c = none) :
    ∑ c in Finset.range k, m.coeff r c * x c = ∑ c in Finset.range n, m.coeff r c * x c := by
  rw [← Finset.sum_range_add_sum_Ico _ hnk]
  have : ∑ c in Finset.Ico n k, m.coeff r c * x c = 0 := by
    apply Finset.sum_eq_zero
    intro c hc
    rw [Finset.mem_Ico] at hc
    simp [SparseMat.coeff, h c hc.1]
  rw [this, add_zero]

theorem mulVecAt_topLeftCorner (m : SparseMat K) (x : Nat → K) (n r : Nat) (hr : r < n) :
    mulVecAt (m.topLeftCorner n n) x r = ∑ c in Finset.range n, m.coeff r c * x c := by
  unfold mulVecAt
  have h1 : (m.topLeftCorner n n).rows = n := rfl
  have h2 : (m.topLeftCorner n n).cols = n := rfl
  rw [h1, h2, if_pos hr]
  refine Finset.sum_congr rfl fun c hc => ?_
  rw [coeff_topLeftCorner _ _ _ _ _ hr (Finset.mem_range.mp hc)]

theorem prune_stored_none (m : SparseMat K) (reference epsilon : K) (r c : Nat)
    (h : m.stored r c = none) : (m.prune reference epsilon).stored r c = none := by
  simp [SparseMat.prune, h]

/-- The load at a row that carries a force. -/
theorem force_vec_coeff {sqrt : K → K} {job : Job K} {BCs : List (BC K)}
    {forces : List (Force K)} {ties : List (Tie K)} {equations : List (Equation K)}
    {a : GlobalStiffAssembler K} {Kg f : SparseMat K}
    (h : augmentedSystem sqrt job BCs forces ties equations = some (a, Kg, f))
    (hw : WellFormed job BCs forces ties equations) (r : Nat) (hr : r < 6 * job.nodes.length) :
    ((∀ fo ∈ forces, 6 * fo.node + fo.dof ≠ r) → f.coeff r 0 = 0) ∧
    (∀ fo ∈ forces, 6 * fo.node + fo.dof = r → f.coeff r 0 = fo.value) := by
  obtain ⟨hsize, -, hties, hbcr, hfo, heqr⟩ := hw
  obtain ⟨Kg1, ts, -, -, hin, -, hnone, hk, hrows, hcols, hco, hfco, hfk⟩ :=
    augmentedSystem_spec h hsize hties
  have hn : NUM_DOFS * job.nodes.length < 2 ^ 31 := by omega
  constructor
  · intro hno
    rw [hfco, entrySum_append, entrySum_bcRhs_eq_zero _ _ BCs (Or.inl hr),
      entrySum_forceEntries_eq_zero forces r (fun fo hfo' => by
        have := u32_dof _ fo.node fo.dof hn (hfo fo hfo').1 (hfo fo hfo').2
        have := hno fo hfo'
        omega)]
    simp
  · intro fo hfo' hidx
    have hmem : (u32 (u32 (NUM_DOFS * fo.node) + fo.dof), 0, fo.value) ∈
        bcRhs (6 * job.nodes.length) BCs 0 ++ forceEntries forces :=
      List.mem_append_right _ (List.mem_map.mpr ⟨fo, hfo', rfl⟩)
    have := insertAll_stored_of_mem hfk _ hmem
    simp only at this
    rw [(u32_dof _ fo.node fo.dof hn (hfo fo hfo').1 (hfo fo hfo').2).1, hidx] at this
    simp [SparseMat.coeff, this]

theorem loadBCs_block {BCs : List (BC K)} {Kg0 fv Kg2 f2 : SparseMat K} {n : Nat}
    (hn : NUM_DOFS * n < 2 ^ 32) (h : loadBCs Kg0 fv BCs (u32 n) = some (Kg2, f2))
    (r c : Nat) (hr : r < 6 * n) (hc : c < 6 * n) : Kg2.stored r c = Kg0.stored r c := by
  unfold loadBCs at h
  obtain ⟨hk, -⟩ := (loadBCsLoop_eq_some_iff _ _ _ _ _ _ _).mp h
  have hG : u32 (NUM_DOFS * u32 n) = 6 * n := by
    unfold u32 NUM_DOFS at *
    omega
  rw [hG] at hk
  apply (insertAll_eq_some hk).2.2.2 r c
  intro e he
  obtain ⟨k, b, -, he'⟩ := mem_bcEntries he
  rcases he' with rfl | rfl <;> simp only <;> omega

/-! ## Products with the standard stiffness -/

theorem place_mulVec {n : Nat} (dofs : Fin n → Fin 12) (B : Matrix (Fin n) (Fin n) K)
    (v : Fin 12 → K) (r : Fin 12) :
    (place dofs B).mulVec v r = ∑ i, if dofs i = r then ∑ j, B i j * v (dofs j) else 0 := by
  simp only [Matrix.mulVec, Matrix.dotProduct, place, Finset.sum_mul]
  rw [Finset.sum_comm]
  refine Finset.sum_congr rfl fun i _ => ?_
  rw [Finset.sum_comm]
  by_cases hi : dofs i = r
  · simp only [hi, true_and, if_true, ite_mul, zero_mul]
    refine Finset.sum_congr rfl fun j _ => ?_
    rw [Finset.sum_ite_eq]
    simp
  · simp [hi]

theorem place_mulVec_two (a b : Fin 12) (k : K) (v : Fin 12 → K) (r : Fin 12) :
    (place ![a, b] (barBlock k)).mulVec v r =
      (if a = r then k * (v a - v b) else 0) + (if b = r then -(k * (v a - v b)) else 0) := by
  rw [place_mulVec, Fin.sum_univ_two]
  simp only [Fin.sum_univ_two, barBlock, Matrix.cons_val_zero, Matrix.cons_val_one,
    Matrix.head_cons, Matrix.of_apply]
  congr 1 <;> split_ifs <;> ring

theorem place_mulVec_four (a b d e : Fin 12) (EI L s : K) (v : Fin 12 → K) (r : Fin 12) :
    (place ![a, b, d, e] (bendingBlock EI L s)).mulVec v r =
      (if a = r then 12 * EI / L ^ 3 * (v a - v d) + s * (6 * EI / L ^ 2) * (v b + v e) else 0)
      + (if b = r then s * (6 * EI / L ^ 2) * (v a - v d) + EI / L * (4 * v b + 2 * v e) else 0)
      + (if d = r then -(12 * EI / L ^ 3 * (v a - v d) + s * (6 * EI / L ^ 2) * (v b + v e))
          else 0)
      + (if e = r then s * (6 * EI / L ^ 2) * (v a - v d) + EI / L * (2 * v b + 4 * v e)
          else 0) := by
  rw [place_mulVec, Fin.sum_univ_four]
  have e0 : (![a, b, d, e] : Fin 4 → Fin 12) 0 = a := rfl
  have e1 : (![a, b, d, e] : Fin 4 → Fin 12) 1 = b := rfl
  have e2 : (![a, b, d, e] : Fin 4 → Fin 12) 2 = d := rfl
  have e3 : (![a, b, d, e] : Fin 4 → Fin 12) 3 = e := rfl
  simp only [Fin.sum_univ_four, e0, e1, e2, e3]
  congr 1
  · congr 1
    · congr 1
      · split_ifs
        · simp [bendingBlock]; ring
        · rfl
      · split_ifs
        · simp [bendingBlock]; ring
        · rfl
    · split_ifs
      · simp [bendingBlock]; ring
      · rfl
  · split_ifs
    · simp [bendingBlock]; ring
    · rfl

set_option maxHeartbeats 1000000 in
/-- The product of the standard beam stiffness with a vector, row by row. -/
theorem stdBeamStiffness_mulVec (EA EIy EIz GJ L : K) (v : Fin 12 → K) :
    (stdBeamStiffness EA EIy EIz GJ L).mulVec v 0 = EA / L * (v 0 - v 6) ∧
    (stdBeamStiffness EA EIy EIz GJ L).mulVec v 1 =
      12 * EIz / L ^ 3 * (v 1 - v 7) + 6 * EIz / L ^ 2 * (v 5 + v 11) ∧
    (stdBeamStiffness EA EIy EIz GJ L).mulVec v 2 =
      12 * EIy / L ^ 3 * (v 2 - v 8) - 6 * EIy / L ^ 2 * (v 4 + v 10) ∧
    (stdBeamStiffness EA EIy EIz GJ L).mulVec v 3 = GJ / L * (v 3 - v 9) ∧
    (stdBeamStiffness EA EIy EIz GJ L).mulVec v 4 =
      -(6 * EIy / L ^ 2) * (v 2 - v 8) + EIy / L * (4 * v 4 + 2 * v 10) ∧
    (stdBeamStiffness EA EIy EIz GJ L).mulVec v 5 =
      6 * EIz / L ^ 2 * (v 1 - v 7) + EIz / L * (4 * v 5 + 2 * v 11) ∧
    (stdBeamStiffness EA EIy EIz GJ L).mulVec v 6 = -(EA / L * (v 0 - v 6)) ∧
    (stdBeamStiffness EA EIy EIz GJ L).mulVec v 7 =
      -(12 * EIz / L ^ 3 * (v 1 - v 7) + 6 * EIz / L ^ 2 * (v 5 + v 11)) ∧
    (stdBeamStiffness EA EIy EIz GJ L).mulVec v 8 =
      -(12 * EIy / L ^ 3 * (v 2 - v 8) - 6 * EIy / L ^ 2 * (v 4 + v 10)) ∧
    (stdBeamStiffness EA EIy EIz GJ L).mulVec v 9 = -(GJ / L * (v 3 - v 9)) ∧
    (stdBeamStiffness EA EIy EIz GJ L).mulVec v 10 =
      -(6 * EIy / L ^ 2) * (v 2 - v 8) + EIy / L * (2 * v 4 + 4 * v 10) ∧
    (stdBeamStiffness EA EIy EIz GJ L).mulVec v 11 =
      6 * EIz / L ^ 2 * (v 1 - v 7) + EIz / L * (2 * v 5 + 4 * v 11) := by
  simp only [stdBeamStiffness, Matrix.add_mulVec, Pi.add_apply, place_mulVec_two,
    place_mulVec_four]
  refine ⟨?_, ?_, ?_, ?_, ?_, ?_, ?_, ?_, ?_, ?_, ?_, ?_⟩ <;>
    simp <;> ring

/-! ## Equilibrium of the element contributions -/

theorem globalIndex_eq_gatherIndex (nn1 nn2 : Int) (i : Fin 12)
    (h1 : 0 ≤ nn1) (h1' : 6 * nn1 + 5 < 2 ^ 31) (h2 : 0 ≤ nn2) (h2' : 6 * nn2 + 5 < 2 ^ 31) :
    globalIndex nn1 nn2 i.val = (gatherIndex nn1 nn2 i : Int) := by
  rw [globalIndex_eq nn1 nn2 i.val i.isLt h1 h1' h2 h2']
  unfold blockIndex gatherIndex
  have := i.isLt
  split_ifs <;> push_cast <;> omega

theorem gatherIndex_lt (nn1 nn2 : Int) (i : Fin 12) (n : Nat)
    (h1 : 0 ≤ nn1) (h1' : nn1 < n) (h2 : 0 ≤ nn2) (h2' : nn2 < n) :
    gatherIndex nn1 nn2 i < 6 * n := by
  unfold gatherIndex
  have := i.isLt
  split_ifs <;> omega

/-- The product of a row of the contribution of one element with `x`. -/
theorem elemTriplets_row (M : LocalMatrix K) (nn1 nn2 : Int) (n : Nat) (x : Nat → K) (r : Nat)
    (hn : NUM_DOFS * n < 2 ^ 31)
    (h1 : 0 ≤ nn1) (h1' : nn1 < n) (h2 : 0 ≤ nn2) (h2' : nn2 < n) :
    ∑ c in Finset.range (6 * n), tripletSum (elemTriplets M nn1 nn2) r c * x c =
      ∑ i : Fin 12, if gatherIndex nn1 nn2 i = r then
        M.mulVec (fun j => x (gatherIndex nn1 nn2 j)) i else 0 := by
  have hb : ∀ nn : Int, 0 ≤ nn → nn < n → 6 * nn + 5 < 2 ^ 31 := by
    intro nn _ _
    unfold NUM_DOFS at hn
    omega
  have hg := fun i => globalIndex_eq_gatherIndex nn1 nn2 i h1 (hb _ h1 h1') h2 (hb _ h2 h2')
  simp only [tripletSum_elemTriplets, hg, Nat.cast_inj, Finset.sum_mul]
  rw [Finset.sum_comm]
  conv_lhs =>
    arg 2
    ext j
    rw [Finset.sum_comm]
  rw [Finset.sum_comm]
  refine Finset.sum_congr rfl fun i _ => ?_
  by_cases hi : gatherIndex nn1 nn2 i = r
  · simp only [hi, true_and, if_true, Matrix.mulVec, Matrix.dotProduct, ite_mul, zero_mul]
    refine Finset.sum_congr rfl fun j _ => ?_
    rw [Finset.sum_ite_eq]
    simp [gatherIndex_lt nn1 nn2 j n h1 h1' h2 h2']
  · simp [hi]

theorem kelemOf_eq (sqrt : K → K) (p : Props K) (n1 n2 : Node K) :
    kelemOf sqrt p n1 n2 =
      (blockDiagonal4 (rotationOf sqrt n1 n2 p)).transpose *
        stdBeamStiffness p.EA p.EIy p.EIz p.GJ (norm sqrt n1 n2) *
        blockDiagonal4 (rotationOf sqrt n1 n2 p) := by
  simp only [kelemOf, calcAelem_of_clean _ blockClean_zero, klocalOf_zero_eq]

theorem sum_univ_twelve (g : Fin 12 → K) :
    ∑ i, g i = g 0 + g 1 + g 2 + g 3 + g 4 + g 5 + g 6 + g 7 + g 8 + g 9 + g 10 + g 11 := by
  rw [Fin.sum_univ_castSucc, Fin.sum_univ_castSucc, Fin.sum_univ_castSucc,
    Fin.sum_univ_castSucc, Fin.sum_univ_eight]
  rfl

theorem normalized_axis (sqrt : K → K) (hsqrt : ∀ x : K, 0 ≤ x → sqrt (x * x) = x) (L : K)
    (hL : 0 < L) : normalized sqrt (![L, 0, 0] - ![0, 0, 0]) = ![1, 0, 0] := by
  have hz : squaredNorm ((![L, 0, 0] : Node K) - ![0, 0, 0]) = L * L := by
    simp [squaredNorm]
  unfold normalized
  simp only [hz, mul_pos hL hL, if_true, hsqrt L hL.le]
  funext i
  fin_cases i <;> simp [hL.ne']

theorem normalized_unit_y (sqrt : K → K) (hsqrt : ∀ x : K, 0 ≤ x → sqrt (x * x) = x) :
    normalized sqrt (![0, 1, 0] : Node K) = ![0, 1, 0] := by
  have hz : squaredNorm (![0, 1, 0] : Node K) = 1 * 1 := by
    simp [squaredNorm]
  unfold normalized
  have h1 : sqrt (1 * 1) = (1 : K) := hsqrt 1 zero_le_one
  simp only [hz, h1]
  funext i
  fin_cases i <;> simp

theorem normalized_unit_z (sqrt : K → K) (hsqrt : ∀ x : K, 0 ≤ x → sqrt (x * x) = x) :
    normalized sqrt (cross (![1, 0, 0] : Node K) ![0, 1, 0]) = ![0, 0, 1] := by
  have hc : cross (![1, 0, 0] : Node K) ![0, 1, 0] = ![0, 0, 1] := by
    funext i
    fin_cases i <;> simp [cross]
  have hz : squaredNorm (![0, 0, 1] : Node K) = 1 * 1 := by
    simp [squaredNorm]
  rw [hc]
  unfold normalized
  have h1 : sqrt (1 * 1) = (1 : K) := hsqrt 1 zero_le_one
  simp only [hz, h1]
  funext i
  fin_cases i <;> simp

theorem rotationOf_axis (sqrt : K → K) (hsqrt : ∀ x : K, 0 ≤ x → sqrt (x * x) = x) (L : K)
    (hL : 0 < L) (p : Props K) (hp : p.normal_vec = ![0, 1, 0]) :
    rotationOf sqrt ![0, 0, 0] ![L, 0, 0] p = 1 := by
  unfold rotationOf
  simp only [hp, normalized_axis sqrt hsqrt L hL, normalized_unit_y sqrt hsqrt,
    normalized_unit_z sqrt hsqrt]
  ext i j
  fin_cases i <;> fin_cases j <;> simp [Matrix.one_apply, Matrix.vecHead, Matrix.vecTail]

theorem blockDiagonal4_one : blockDiagonal4 (1 : RotationMatrix K) = 1 := by
  ext i j
  have hi := i.isLt
  have hj := j.isLt
  simp only [blockDiagonal4, Matrix.one_apply]
  by_cases hij : i = j
  · subst hij
    simp
  · have hne : i.val ≠ j.val := fun h => hij (Fin.ext h)
    rw [if_neg hij]
    by_cases h3 : i.val / 3 = j.val / 3
    · rw [if_pos h3, if_neg]
      intro h
      have := congrArg Fin.val h
      simp only at this
      omega
    · rw [if_neg h3]

theorem kelemOf_axis (sqrt : K → K) (hsqrt : ∀ x : K, 0 ≤ x → sqrt (x * x) = x) (L : K)
    (hL : 0 < L) (p : Props K) (hp : p.normal_vec = ![0, 1, 0]) :
    kelemOf sqrt p ![0, 0, 0] ![L, 0, 0] = stdBeamStiffness p.EA p.EIy p.EIz p.GJ L := by
  rw [kelemOf_eq, rotationOf_axis sqrt hsqrt L hL p hp, blockDiagonal4_one,
    norm_axis sqrt hsqrt L hL.le]
  simp

theorem calcKelem_Kelem {sqrt : K → K} {self a : GlobalStiffAssembler K} {i : Nat} {job : Job K}
    (hK : KlocalClean self.Klocal) (hA : BlockClean self.Aelem)
    (h : self.calcKelem sqrt i job = some a) :
    ∃ p e n1 n2, job.props[i]? = some p ∧ job.elems[i]? = some e ∧
      nodeAt job e.1 = some n1 ∧ nodeAt job e.2 = some n2 ∧
      a.Kelem = kelemOf sqrt p n1 n2 := by
  obtain ⟨p, e, n1, n2, hp, he, hn1, hn2, -, hKl, hAe, hAT, hKe, -⟩ := calcKelem_eq_some h
  refine ⟨p, e, n1, n2, hp, he, hn1, hn2, ?_⟩
  rw [hKe, hAT, hAe, hKl, klocalOf_of_clean _ hK, calcAelem_of_clean _ hA]
  simp only [kelemOf, calcAelem_of_clean _ blockClean_zero]

theorem gatherIndex_zero_one (i : Fin 12) : gatherIndex 0 1 i = i.val := by
  unfold gatherIndex
  have := i.isLt
  split_ifs <;> simp <;> omega

theorem sum_ite_val_eq (g : Fin 12 → K) (r : Fin 12) :
    (∑ i : Fin 12, if i.val = r.val then g i else 0) = g r := by
  rw [Finset.sum_eq_single r]
  · simp
  · intro b _ hb
    rw [if_neg]
    exact fun h => hb (Fin.ext h)
  · intro h
    exact absurd (Finset.mem_univ r) h

/-! ## The cantilever under an axial load -/

theorem cantilever_wellFormed (L EA EIy EIz GJ F : K) (BCs : List (BC K))
    (hfix : ∀ bc ∈ BCs, bc.node = 0 ∧ bc.dof < 6 ∧ bc.value = 0)
    (hcount : BCs.length < 2 ^ 30) :
    WellFormed (cantileverJob L EA EIy EIz GJ) BCs [{ node := 1, dof := 0, value := F }] [] [] := by
  refine ⟨?_, ⟨?_, ?_⟩, ?_, ?_, ?_, ?_⟩
  · simp only [cantileverJob, NUM_DOFS, List.length_cons, List.length_nil]; omega
  · simp [cantileverJob]
  · simp [cantileverJob]
  · intro t ht; simp at ht
  · intro bc hbc
    obtain ⟨h1, h2, -⟩ := hfix bc hbc
    simp [cantileverJob, h1, h2]
  · intro fo hfo
    simp only [List.mem_singleton] at hfo
    subst hfo
    simp [cantileverJob]
  · intro q hq; simp at hq

theorem augmentedSystem_of_parts {sqrt : K → K} {job : Job K} {BCs : List (BC K)}
    {forces : List (Force K)} {ties : List (Tie K)} {equations : List (Equation K)}
    {a : GlobalStiffAssembler K} {Kg1 Kg f : SparseMat K}
    (ha : GlobalStiffAssembler.init.assemble sqrt
        (SparseMat.empty (NUM_DOFS * job.nodes.length + BCs.length + equations.length)
          (NUM_DOFS * job.nodes.length + BCs.length + equations.length)) job ties
        = some (a, Kg1))
    (hk : insertAll Kg1 (bcEntries (u32 (NUM_DOFS * u32 job.nodes.length)) BCs 0 ++
        eqEntries (u32 (u32 (NUM_DOFS * u32 job.nodes.length) + u32 BCs.length)) equations 0)
        = some Kg)
    (hf : insertAll (SparseMat.empty
          (NUM_DOFS * job.nodes.length + BCs.length + equations.length) 1)
        (bcRhs (u32 (NUM_DOFS * u32 job.nodes.length)) BCs 0 ++ forceEntries forces) = some f) :
    augmentedSystem sqrt job BCs forces ties equations = some (a, Kg, f) := by
  rw [insertAll_append] at hk hf
  cases hk1 : insertAll Kg1 (bcEntries (u32 (NUM_DOFS * u32 job.nodes.length)) BCs 0) with
  | none => simp [hk1] at hk
  | some Kg2 =>
    cases hf1 : insertAll (SparseMat.empty
        (NUM_DOFS * job.nodes.length + BCs.length + equations.length) 1)
        (bcRhs (u32 (NUM_DOFS * u32 job.nodes.length)) BCs 0) with
    | none => simp [hf1] at hf
    | some f1 =>
      simp only [hk1] at hk
      simp only [hf1] at hf
      have hb : loadBCs Kg1 (SparseMat.empty
          (NUM_DOFS * job.nodes.length + BCs.length + equations.length) 1) BCs
          (u32 job.nodes.length) = some (Kg2, f1) :=
        (loadBCsLoop_eq_some_iff _ _ _ _ _ _ _).mpr ⟨hk1, hf1⟩
      have he : (if equations.length > 0 then
          loadEquations Kg2 equations (u32 job.nodes.length) (u32 BCs.length) else some Kg2)
            = some Kg := by
        split_ifs with hpos
        · unfold loadEquations; rw [loadEquationsLoop_eq]; exact hk
        · have : equations = [] := List.length_eq_zero.mp (by omega)
          subst this
          exact hk
      have hfo : (if forces.length > 0 then loadForces f1 forces else some f1) = some f := by
        split_ifs with hpos
        · rw [loadForces_eq]; exact hf
        · have : forces = [] := List.length_eq_zero.mp (by omega)
          subst this
          exact hf
      unfold augmentedSystem
      simp only [ha, hb, he, hfo]

theorem nodup_bcEntries (G : Nat) (bcs : List (BC K)) (s : Nat)
    (hb : ∀ b ∈ bcs, u32 (u32 (NUM_DOFS * b.node) + b.dof) < G) :
    ((bcEntries G bcs s).map fun e => (e.1, e.2.1)).Nodup := by
  induction bcs generalizing s with
  | nil => simp [bcEntries]
  | cons b rest ih =>
    have hb0 := hb b (List.mem_cons_self _ _)
    have hrest := fun b' hb' => hb b' (List.mem_cons_of_mem _ hb')
    simp only [bcEntries, List.map_cons, List.nodup_cons, List.mem_cons, List.mem_map,
      Prod.mk.injEq, not_or, not_exists, not_and]
    refine ⟨⟨fun h => by omega, ?_⟩, ?_, ih (s + 1) hrest⟩
    · intro e he
      obtain ⟨k, b', hk, he'⟩ := mem_bcEntries he
      have := hrest b' (List.mem_iff_getElem?.mpr ⟨k, hk⟩)
      rcases he' with rfl | rfl <;> simp only <;> omega
    · intro e he
      obtain ⟨k, b', hk, he'⟩ := mem_bcEntries he
      have := hrest b' (List.mem_iff_getElem?.mpr ⟨k, hk⟩)
      rcases he' with rfl | rfl <;> simp only <;> omega

theorem nodup_termEntries (row : Nat) (terms : List (Term K))
    (hb : ∀ t ∈ terms, u32 (u32 (NUM_DOFS * t.node_number) + t.dof) < row)
    (hd : (terms.map fun t => u32 (u32 (NUM_DOFS * t.node_number) + t.dof)).Nodup) :
    ((termEntries row terms).map fun e => (e.1, e.2.1)).Nodup := by
  induction terms with
  | nil => simp [termEntries]
  | cons t rest ih =>
    have hb0 := hb t (List.mem_cons_self _ _)
    have hrest := fun t' ht' => hb t' (List.mem_cons_of_mem _ ht')
    simp only [List.map_cons, List.nodup_cons, List.mem_map, not_exists, not_and] at hd
    simp only [termEntries, List.map_cons, List.nodup_cons, List.mem_cons, List.mem_map,
      Prod.mk.injEq, not_or, not_exists, not_and]
    refine ⟨⟨fun h => by omega, ?_⟩, ?_, ih hrest hd.2⟩
    · intro e he
      obtain ⟨t', ht', he'⟩ := mem_termEntries he
      have h1 := hrest t' ht'
      have h2 := hd.1 t' ht'
      rcases he' with rfl | rfl <;> simp only <;> omega
    · intro e he
      obtain ⟨t', ht', he'⟩ := mem_termEntries he
      have h1 := hrest t' ht'
      have h2 := hd.1 t' ht'
      rcases he' with rfl | rfl <;> simp only <;> omega

theorem nodup_eqEntries (G : Nat) (eqs : List (Equation K)) (s : Nat)
    (hb : ∀ q ∈ eqs, ∀ t ∈ q.terms, u32 (u32 (NUM_DOFS * t.node_number) + t.dof) < G)
    (hd : ∀ q ∈ eqs,
      (q.terms.map fun t => u32 (u32 (NUM_DOFS * t.node_number) + t.dof)).Nodup) :
    ((eqEntries G eqs s).map fun e => (e.1, e.2.1)).Nodup := by
  induction eqs generalizing s with
  | nil => simp [eqEntries]
  | cons q rest ih =>
    have hb0 := hb q (List.mem_cons_self _ _)
    have hrest := fun q' hq' => hb q' (List.mem_cons_of_mem _ hq')
    simp only [eqEntries, List.map_append]
    rw [List.nodup_append]
    refine ⟨nodup_termEntries _ _ (fun t ht => by have := hb0 t ht; omega)
      (hd q (List.mem_cons_self _ _)),
      ih (s + 1) hrest (fun q' hq' => hd q' (List.mem_cons_of_mem _ hq')), ?_⟩
    intro pq h1 h2
    obtain ⟨e1, he1, rfl⟩ := List.mem_map.mp h1
    obtain ⟨e2, he2, heq⟩ := List.mem_map.mp h2
    obtain ⟨t1, ht1, he1'⟩ := mem_termEntries he1
    obtain ⟨k, q', hk, he2'⟩ := mem_eqEntries he2
    obtain ⟨t2, ht2, he2''⟩ := mem_termEntries he2'
    have b1 := hb0 t1 ht1
    have b2 := hrest q' (List.mem_iff_getElem?.mpr ⟨k, hk⟩) t2 ht2
    simp only [Prod.mk.injEq] at heq
    rcases he1' with rfl | rfl <;> rcases he2'' with rfl | rfl <;> simp only at heq <;> omega

theorem nodup_bcRhs (G : Nat) (bcs : List (BC K)) (s : Nat) :
    ((bcRhs G bcs s).map fun e => (e.1, e.2.1)).Nodup := by
  induction bcs generalizing s with
  | nil => simp [bcRhs]
  | cons b rest ih =>
    simp only [bcRhs]
    split_ifs with hv
    · simp only [List.map_cons, List.nodup_cons, List.mem_map, not_exists, not_and]
      refine ⟨?_, ih (s + 1)⟩
      intro e he
      obtain ⟨k, b', -, rfl⟩ := mem_bcRhs he
      simp only [Prod.mk.injEq, not_and]
      omega
    · exact ih (s + 1)

/-- The build of the augmented system returns a system for every well-formed input in which
no degree of freedom is loaded by two forces and no equation names a degree of freedom
twice. -/
theorem augmentedSystem_isSome (sqrt : K → K) (job : Job K) (BCs : List (BC K))
    (forces : List (Force K)) (ties : List (Tie K)) (equations : List (Equation K))
    (hw : WellFormed job BCs forces ties equations)
    (hforces : (forces.map fun f => 6 * f.node + f.dof).Nodup)
    (hterms : ∀ eq ∈ equations, (eq.terms.map fun t => 6 * t.node_number + t.dof).Nodup) :
    ∃ a Kg f, augmentedSystem sqrt job BCs forces ties equations = some (a, Kg, f) := by
  obtain ⟨hsize, hv, ht, hbc, hfo, heq⟩ := hw
  have hn : NUM_DOFS * job.nodes.length < 2 ^ 31 := by omega
  have hN : NUM_DOFS * job.nodes.length = 6 * job.nodes.length := rfl
  obtain ⟨a, Kg1, ha⟩ := assemble_isSome sqrt GlobalStiffAssembler.init
    (SparseMat.empty (NUM_DOFS * job.nodes.length + BCs.length + equations.length)
      (NUM_DOFS * job.nodes.length + BCs.length + equations.length)) job ties
    klocalClean_zero blockClean_zero hv ht hn
    (by simp only [SparseMat.empty]; omega) (by simp only [SparseMat.empty]; omega)
  obtain ⟨ts, hl, hs⟩ := assemble_eq_some ha
  have hin := inBlock_loadTies ts ties _ hn
    (elemLoop_inBlock sqrt job _ klocalClean_zero blockClean_zero hn _ a ts hl) ht
  have h1 := setFromTriplets_coeff hs 0 0
  have hrows : Kg1.rows = 6 * job.nodes.length + BCs.length + equations.length := by
    rw [h1.2.1]; simp [SparseMat.empty, NUM_DOFS]
  have hcols : Kg1.cols = 6 * job.nodes.length + BCs.length + equations.length := by
    rw [h1.2.2]; simp [SparseMat.empty, NUM_DOFS]
  have hb1 := u32_base job.nodes.length BCs.length (by omega)
  have hb2 : u32 (6 * job.nodes.length + u32 BCs.length) = 6 * job.nodes.length + BCs.length := by
    unfold u32 NUM_DOFS at *
    omega
  have hbcI : ∀ b ∈ BCs, u32 (u32 (NUM_DOFS * b.node) + b.dof) < 6 * job.nodes.length :=
    fun b hb => by
      have := u32_dof job.nodes.length b.node b.dof hn (hbc b hb).1 (hbc b hb).2
      omega
  have hfoI : ∀ f ∈ forces, u32 (u32 (NUM_DOFS * f.node) + f.dof) = 6 * f.node + f.dof ∧
      6 * f.node + f.dof < 6 * job.nodes.length :=
    fun f hf => u32_dof job.nodes.length f.node f.dof hn (hfo f hf).1 (hfo f hf).2
  have htI : ∀ q ∈ equations, ∀ t ∈ q.terms,
      u32 (u32 (NUM_DOFS * t.node_number) + t.dof) = 6 * t.node_number + t.dof ∧
      6 * t.node_number + t.dof < 6 * job.nodes.length :=
    fun q hq t ht => u32_dof job.nodes.length t.node_number t.dof hn (heq q hq t ht).1
      (heq q hq t ht).2
  have klen : ∀ {α : Type} (l : List α) (k : Nat) (x : α), l[k]? = some x → k < l.length :=
    fun l k x h => (List.getElem?_eq_some_iff.mp h).1
  -- the matrix
  obtain ⟨Kg, hk⟩ := insertAll_isSome
    (bcEntries (6 * job.nodes.length) BCs 0 ++
      eqEntries (6 * job.nodes.length + BCs.length) equations 0) Kg1
    (by
      intro e he
      rw [hrows, hcols]
      rcases List.mem_append.mp he with he | he
      · obtain ⟨k, b, hk, he⟩ := mem_bcEntries he
        have := hbcI b (List.mem_iff_getElem?.mpr ⟨k, hk⟩)
        have := klen _ _ _ hk
        rcases he with rfl | rfl <;> simp only <;> omega
      · obtain ⟨k, q, hk, he⟩ := mem_eqEntries he
        obtain ⟨t, ht, he⟩ := mem_termEntries he
        have := (htI q (List.mem_iff_getElem?.mpr ⟨k, hk⟩) t ht).2
        have := (htI q (List.mem_iff_getElem?.mpr ⟨k, hk⟩) t ht).1
        have := klen _ _ _ hk
        rcases he with rfl | rfl <;> simp only <;> omega)
    (by
      intro e he
      refine setFromTriplets_stored_none hs hin _ _ ?_
      rw [hN]
      rcases List.mem_append.mp he with he | he
      · obtain ⟨k, b, hk, he⟩ := mem_bcEntries he
        rcases he with rfl | rfl <;> simp only <;> omega
      · obtain ⟨k, q, hk, he⟩ := mem_eqEntries he
        obtain ⟨t, ht, he⟩ := mem_termEntries he
        rcases he with rfl | rfl <;> simp only <;> omega)
    (by
      rw [List.map_append, List.nodup_append]
      refine ⟨nodup_bcEntries _ _ _ hbcI,
        nodup_eqEntries _ _ _ (fun q hq t ht => by have := (htI q hq t ht); omega) ?_, ?_⟩
      · intro q hq
        have : (q.terms.map fun t => u32 (u32 (NUM_DOFS * t.node_number) + t.dof)) =
            q.terms.map fun t => 6 * t.node_number + t.dof :=
          List.map_congr_left fun t ht => (htI q hq t ht).1
        rw [this]
        exact hterms q hq
      · intro pq h1 h2
        obtain ⟨e1, he1, rfl⟩ := List.mem_map.mp h1
        obtain ⟨e2, he2, heq2⟩ := List.mem_map.mp h2
        obtain ⟨k, b, hk, he1⟩ := mem_bcEntries he1
        obtain ⟨k2, q, hk2, he2⟩ := mem_eqEntries he2
        obtain ⟨t, ht, he2⟩ := mem_termEntries he2
        have := hbcI b (List.mem_iff_getElem?.mpr ⟨k, hk⟩)
        have := (htI q (List.mem_iff_getElem?.mpr ⟨k2, hk2⟩) t ht).2
        have := (htI q (List.mem_iff_getElem?.mpr ⟨k2, hk2⟩) t ht).1
        have := klen _ _ _ hk
        simp only [Prod.mk.injEq] at heq2
        rcases he1 with rfl | rfl <;> rcases he2 with rfl | rfl <;> simp only at heq2 <;> omega)
  -- the right-hand side
  obtain ⟨f, hf⟩ := insertAll_isSome
    (bcRhs (6 * job.nodes.length) BCs 0 ++ forceEntries forces)
    (SparseMat.empty (NUM_DOFS * job.nodes.length + BCs.length + equations.length) 1)
    (by
      intro e he
      simp only [SparseMat.empty]
      rcases List.mem_append.mp he with he | he
      · obtain ⟨k, b, hk, rfl⟩ := mem_bcRhs he
        have := klen _ _ _ hk
        simp only
        omega
      · unfold forceEntries at he
        obtain ⟨fo, hfo', rfl⟩ := List.mem_map.mp he
        have := hfoI fo hfo'
        simp only
        omega)
    (fun e _ => rfl)
    (by
      rw [List.map_append, List.nodup_append]
      refine ⟨nodup_bcRhs _ _ _, ?_, ?_⟩
      · unfold forceEntries
        rw [List.map_map]
        have : forces.map ((fun e : Nat × Nat × K => (e.1, e.2.1)) ∘
            fun f => (u32 (u32 (NUM_DOFS * f.node) + f.dof), 0, f.value)) =
            (forces.map fun f => 6 * f.node + f.dof).map fun i => (i, 0) := by
          rw [List.map_map]
          refine List.map_congr_left fun fo hfo' => ?_
          simp only [Function.comp, (hfoI fo hfo').1]
        rw [this]
        exact hforces.map (fun i j hij => by simpa using hij)
      · intro pq h1 h2
        obtain ⟨e1, he1, rfl⟩ := List.mem_map.mp h1
        obtain ⟨e2, he2, heq2⟩ := List.mem_map.mp h2
        obtain ⟨k, b, hk, rfl⟩ := mem_bcRhs he1
        unfold forceEntries at he2
        obtain ⟨fo, hfo', rfl⟩ := List.mem_map.mp he2
        have := hfoI fo hfo'
        simp only [Prod.mk.injEq] at heq2
        omega)
  refine ⟨a, Kg, f, augmentedSystem_of_parts ha ?_ ?_⟩
  · rw [hb1.1, hb2]; exact hk
  · rw [hb1.1]; exact hf

/-! ## A solved cantilever -/

theorem cantilever_block_row (sqrt : K → K) (hsqrt : ∀ x : K, 0 ≤ x → sqrt (x * x) = x)
    (L EA EIy EIz GJ : K) (hL : 0 < L) (a : GlobalStiffAssembler K) (ts : List (Triplet K))
    (hl : elemLoop sqrt (cantileverJob L EA EIy EIz GJ)
      (GlobalStiffAssembler.init.resized (cantileverJob L EA EIy EIz GJ)) [] 1 = some (a, ts))
    (x : Nat → K) (r : Nat) :
    ∑ c in Finset.range 12, tripletSum (loadTies ts []) r c * x c =
      ∑ i : Fin 12, if i.val = r then
        (stdBeamStiffness EA EIy EIz GJ L).mulVec (fun j => x j.val) i else 0 := by
  obtain ⟨a0, t0, e, hprev, hc, he, ht1⟩ := elemLoop_succ_eq hl
  simp only [elemLoop, Option.some.injEq, Prod.mk.injEq] at hprev
  obtain ⟨rfl, rfl⟩ := hprev
  obtain ⟨p, e', n1, n2, hp, he', hn1, hn2, hKe⟩ :=
    calcKelem_Kelem klocalClean_zero blockClean_zero hc
  have hp' : p = { EA := EA, EIz := EIz, EIy := EIy, GJ := GJ, normal_vec := ![0, 1, 0] } := by
    simpa [cantileverJob] using hp.symm
  have he2 : e = (0, 1) := by simpa [cantileverJob] using he.symm
  have he3 : e' = (0, 1) := by simpa [cantileverJob] using he'.symm
  subst hp' he2 he3
  have hn1' : n1 = ![0, 0, 0] := by simpa [cantileverJob, nodeAt] using hn1.symm
  have hn2' : n2 = ![L, 0, 0] := by simpa [cantileverJob, nodeAt] using hn2.symm
  subst hn1' hn2'
  rw [hKe, kelemOf_axis sqrt hsqrt L hL _ rfl] at ht1
  subst ht1
  simp only [loadTies, List.flatMap_nil, List.append_nil, List.nil_append]
  rw [elemTriplets_row _ 0 1 2 x r (by decide) (by decide) (by decide) (by decide)
    (by decide)]
  simp only [gatherIndex_zero_one]

/-- A vector that satisfies every row of the augmented system solves it. -/
theorem solves_of_rows {sqrt : K → K} {job : Job K} {BCs : List (BC K)}
    {forces : List (Force K)} {ties : List (Tie K)} {equations : List (Equation K)}
    {a : GlobalStiffAssembler K} {Kg f : SparseMat K}
    (h : augmentedSystem sqrt job BCs forces ties equations = some (a, Kg, f))
    (hsize : NUM_DOFS * job.nodes.length + BCs.length + equations.length < 2 ^ 31)
    (hties : ValidTies job.nodes.length ties) (x : Nat → K)
    (hrows : ∀ ts, elemLoop sqrt job (GlobalStiffAssembler.init.resized job) []
        job.elems.length = some (a, ts) →
      ∀ r, r < 6 * job.nodes.length + BCs.length + equations.length →
        (∑ c in Finset.range (6 * job.nodes.length),
            tripletSum (loadTies ts ties) r c * x c) +
          rowSum (bcEntries (6 * job.nodes.length) BCs 0) r
            (6 * job.nodes.length + BCs.length + equations.length) x +
          rowSum (eqEntries (6 * job.nodes.length + BCs.length) equations 0) r
            (6 * job.nodes.length + BCs.length + equations.length) x =
        entrySum (bcRhs (6 * job.nodes.length) BCs 0 ++ forceEntries forces) r 0) :
    Solves Kg f x := by
  obtain ⟨Kg1, ts, -, hl, hin, -, -, -, hr, hc, hco, hfco, -⟩ :=
    augmentedSystem_spec h hsize hties
  intro r hlt
  rw [hr] at hlt
  rw [hc, row_formula x hin hco, hfco]
  exact hrows ts hl r hlt

theorem fixedEnd_fixed : ∀ bc ∈ (fixedEnd : List (BC K)),
    bc.node = 0 ∧ bc.dof < 6 ∧ bc.value = 0 := by
  intro bc hbc
  simp only [fixedEnd, List.mem_cons, List.mem_singleton, List.not_mem_nil, or_false] at hbc
  rcases hbc with rfl | rfl | rfl | rfl | rfl | rfl <;> simp

/-- The cantilever of length 2 with `EA = 3`, fixed at node 0 and loaded with the axial
force 9 at node 1: the build returns a system, and `cantileverSolution` solves it. -/
theorem cantilever_solved :
    ∃ (a : GlobalStiffAssembler ℚ) (Kg f : SparseMat ℚ),
      augmentedSystem Rat.sqrt (cantileverJob 2 3 7 5 11) fixedEnd
        [{ node := 1, dof := 0, value := 9 }] [] [] = some (a, Kg, f) ∧
      Solves Kg f cantileverSolution := by
  have hw := cantilever_wellFormed (2 : ℚ) 3 7 5 11 9 fixedEnd fixedEnd_fixed (by decide)
  obtain ⟨a, Kg, f, h⟩ := augmentedSystem_isSome Rat.sqrt (cantileverJob 2 3 7 5 11) fixedEnd
    [{ node := 1, dof := 0, value := 9 }] [] [] hw (by simp) (by simp)
  refine ⟨a, Kg, f, h, solves_of_rows h hw.1 hw.2.2.1 _ ?_⟩
  intro ts hl r hr
  have hnodes : (cantileverJob (2 : ℚ) 3 7 5 11).nodes.length = 2 := rfl
  have hlen : (cantileverJob (2 : ℚ) 3 7 5 11).elems.length = 1 := rfl
  rw [hlen] at hl
  rw [hnodes] at hr ⊢
  rw [cantilever_block_row Rat.sqrt rat_sqrt_sq 2 3 7 5 11 (by norm_num) a ts hl]
  have v0 : ((0 : Fin 12) : ℕ) = 0 := rfl
  have v1 : ((1 : Fin 12) : ℕ) = 1 := rfl
  have v2 : ((2 : Fin 12) : ℕ) = 2 := rfl
  have v3 : ((3 : Fin 12) : ℕ) = 3 := rfl
  have v4 : ((4 : Fin 12) : ℕ) = 4 := rfl
  have v5 : ((5 : Fin 12) : ℕ) = 5 := rfl
  have v6 : ((6 : Fin 12) : ℕ) = 6 := rfl
  have v7 : ((7 : Fin 12) : ℕ) = 7 := rfl
  have v8 : ((8 : Fin 12) : ℕ) = 8 := rfl
  have v9 : ((9 : Fin 12) : ℕ) = 9 := rfl
  have v10 : ((10 : Fin 12) : ℕ) = 10 := rfl
  have v11 : ((11 : Fin 12) : ℕ) = 11 := rfl
  obtain ⟨m0, m1, m2, m3, m4, m5, m6, m7, m8, m9, m10, m11⟩ :=
    stdBeamStiffness_mulVec (3 : ℚ) 7 5 11 2 fun j => cantileverSolution j.val
  generalize (stdBeamStiffness (3 : ℚ) 7 5 11 2).mulVec (fun j => cantileverSolution j.val)
    = M at m0 m1 m2 m3 m4 m5 m6 m7 m8 m9 m10 m11 ⊢
  simp only [v0, v1, v2, v3, v4, v5, v6, v7, v8, v9, v10, v11, cantileverSolution]
    at m0 m1 m2 m3 m4 m5 m6 m7 m8 m9 m10 m11
  norm_num at m0 m1 m2 m3 m4 m5 m6 m7 m8 m9 m10 m11
  simp only [sum_univ_twelve, m0, m1, m2, m3, m4, m5, m6, m7, m8, m9, m10, m11, v0, v1, v2, v3,
    v4, v5, v6, v7, v8, v9, v10, v11, fixedEnd, bcEntries, bcRhs, eqEntries, forceEntries,
    rowSum_cons, entrySum_cons, List.map_cons, List.map_nil, List.length_cons, List.length_nil,
    List.nil_append, List.append_nil, u32, NUM_DOFS, dbl_epsilon, abs_zero]
  simp only [rowSum, entrySum, List.map_nil, List.sum_nil, cantileverSolution]
  replace hr : r < 18 := hr
  interval_cases r <;> norm_num

/-! ## Example systems -/

theorem exampleJob_eq : exampleJob = cantileverJob 2 3 7 5 11 := rfl

theorem dbl_epsilon_pos : 0 < (dbl_epsilon : K) := by
  unfold dbl_epsilon
  positivity

theorem bcRhs_cons_zero (G : Nat) (bc : BC K) (rest : List (BC K)) (s : Nat)
    (h : bc.value = 0) : bcRhs G (bc :: rest) s = bcRhs G rest (s + 1) := by
  simp only [bcRhs, h, abs_zero]
  rw [if_neg (not_lt.mpr dbl_epsilon_pos.le)]

theorem bcRhs_cons_of_gt (G : Nat) (bc : BC K) (rest : List (BC K)) (s : Nat)
    (h : |bc.value| > dbl_epsilon) :
    bcRhs G (bc :: rest) s = (G + s, 0, bc.value) :: bcRhs G rest (s + 1) := by
  simp only [bcRhs]
  rw [if_pos h]

theorem bcRhs_cons_of_le (G : Nat) (bc : BC K) (rest : List (BC K)) (s : Nat)
    (h : |bc.value| ≤ dbl_epsilon) : bcRhs G (bc :: rest) s = bcRhs G rest (s + 1) := by
  simp only [bcRhs]
  rw [if_neg (not_lt.mpr h)]

theorem bcRhs_prescribedBCs : bcRhs 12 prescribedBCs 0 = [(18, 0, 6)] := by
  simp only [prescribedBCs, fixedEnd, List.cons_append, List.nil_append]
  rw [bcRhs_cons_zero _ _ _ _ rfl, bcRhs_cons_zero _ _ _ _ rfl, bcRhs_cons_zero _ _ _ _ rfl,
    bcRhs_cons_zero _ _ _ _ rfl, bcRhs_cons_zero _ _ _ _ rfl, bcRhs_cons_zero _ _ _ _ rfl,
    bcRhs_cons_of_gt _ _ _ _ (by norm_num [dbl_epsilon, abs_of_pos])]
  rfl

theorem bcRhs_tinyBCs : bcRhs 12 tinyBCs 0 = [] := by
  simp only [tinyBCs]
  rw [bcRhs_cons_of_le _ _ _ _ (by norm_num [dbl_epsilon, abs_of_pos]),
    bcRhs_cons_zero _ _ _ _ rfl, bcRhs_cons_zero _ _ _ _ rfl,
    bcRhs_cons_zero _ _ _ _ rfl, bcRhs_cons_zero _ _ _ _ rfl, bcRhs_cons_zero _ _ _ _ rfl]
  rfl

theorem coupled_wellFormed : WellFormed exampleJob prescribedBCs [] [] coupledEquations := by
  refine ⟨by decide, validElems_exampleJob, fun t ht => by simp at ht, ?_,
    fun t ht => by simp at ht, ?_⟩
  · intro bc hbc
    simp only [prescribedBCs, fixedEnd, List.cons_append, List.nil_append, List.mem_cons,
      List.mem_singleton, List.not_mem_nil, or_false] at hbc
    rcases hbc with rfl | rfl | rfl | rfl | rfl | rfl | rfl <;> simp [exampleJob]
  · intro q hq t ht
    simp only [coupledEquations, List.mem_singleton] at hq
    subst hq
    simp only [List.mem_cons, List.mem_singleton, List.not_mem_nil, or_false] at ht
    rcases ht with rfl | rfl <;> simp [exampleJob]

/-- The system of `exampleJob` with a prescribed displacement and an equation: the build
returns a system, and `coupledSolution` solves it. -/
theorem coupled_solved :
    ∃ (a : GlobalStiffAssembler ℚ) (Kg f : SparseMat ℚ),
      augmentedSystem Rat.sqrt exampleJob prescribedBCs [] [] coupledEquations
        = some (a, Kg, f) ∧
      Solves Kg f coupledSolution := by
  have hw := coupled_wellFormed
  obtain ⟨a, Kg, f, h⟩ := augmentedSystem_isSome Rat.sqrt exampleJob prescribedBCs
    [] [] coupledEquations hw (by simp) (by simp [coupledEquations])
  refine ⟨a, Kg, f, h, solves_of_rows h hw.1 hw.2.2.1 _ ?_⟩
  intro ts hl r hr
  have hnodes : exampleJob.nodes.length = 2 := rfl
  have hlen : exampleJob.elems.length = 1 := rfl
  rw [hlen] at hl
  rw [hnodes] at hr ⊢
  rw [cantilever_block_row Rat.sqrt rat_sqrt_sq 2 3 7 5 11 (by norm_num) a ts hl]
  have v0 : ((0 : Fin 12) : ℕ) = 0 := rfl
  have v1 : ((1 : Fin 12) : ℕ) = 1 := rfl
  have v2 : ((2 : Fin 12) : ℕ) = 2 := rfl
  have v3 : ((3 : Fin 12) : ℕ) = 3 := rfl
  have v4 : ((4 : Fin 12) : ℕ) = 4 := rfl
  have v5 : ((5 : Fin 12) : ℕ) = 5 := rfl
  have v6 : ((6 : Fin 12) : ℕ) = 6 := rfl
  have v7 : ((7 : Fin 12) : ℕ) = 7 := rfl
  have v8 : ((8 : Fin 12) : ℕ) = 8 := rfl
  have v9 : ((9 : Fin 12) : ℕ) = 9 := rfl
  have v10 : ((10 : Fin 12) : ℕ) = 10 := rfl
  have v11 : ((11 : Fin 12) : ℕ) = 11 := rfl
  obtain ⟨m0, m1, m2, m3, m4, m5, m6, m7, m8, m9, m10, m11⟩ :=
    stdBeamStiffness_mulVec (3 : ℚ) 7 5 11 2 fun j => coupledSolution j.val
  generalize (stdBeamStiffness (3 : ℚ) 7 5 11 2).mulVec (fun j => coupledSolution j.val)
    = M at m0 m1 m2 m3 m4 m5 m6 m7 m8 m9 m10 m11 ⊢
  simp only [v0, v1, v2, v3, v4, v5, v6, v7, v8, v9, v10, v11, coupledSolution]
    at m0 m1 m2 m3 m4 m5 m6 m7 m8 m9 m10 m11
  norm_num at m0 m1 m2 m3 m4 m5 m6 m7 m8 m9 m10 m11
  have h12 : 6 * 2 = 12 := rfl
  rw [h12, bcRhs_prescribedBCs]
  simp only [sum_univ_twelve, m0, m1, m2, m3, m4, m5, m6, m7, m8, m9, m10, m11, v0, v1, v2, v3,
    v4, v5, v6, v7, v8, v9, v10, v11, prescribedBCs, coupledEquations, fixedEnd,
    List.cons_append, List.nil_append, bcEntries, eqEntries, termEntries, forceEntries,
    rowSum_cons, entrySum_cons, List.map_cons, List.map_nil, List.length_cons, List.length_nil,
    List.append_nil, u32, NUM_DOFS, dbl_epsilon, abs_zero]
  simp only [rowSum, entrySum, List.map_nil, List.sum_nil, coupledSolution]
  replace hr : r < 20 := hr
  interval_cases r <;> norm_num

theorem tiny_wellFormed : WellFormed exampleJob tinyBCs [] [] [] := by
  refine ⟨by decide, validElems_exampleJob, fun t ht => by simp at ht, ?_,
    fun t ht => by simp at ht, fun q hq => by simp at hq⟩
  intro bc hbc
  simp only [tinyBCs, List.mem_cons, List.mem_singleton, List.not_mem_nil, or_false] at hbc
  rcases hbc with rfl | rfl | rfl | rfl | rfl | rfl <;> simp [exampleJob]

/-- The system of `exampleJob` with `tinyBCs`: the build returns a system, and the zero vector
solves it. -/
theorem tiny_solved :
    ∃ (a : GlobalStiffAssembler ℚ) (Kg f : SparseMat ℚ),
      augmentedSystem Rat.sqrt exampleJob tinyBCs [] [] [] = some (a, Kg, f) ∧
      Solves Kg f fun _ => 0 := by
  have hw := tiny_wellFormed
  obtain ⟨a, Kg, f, h⟩ := augmentedSystem_isSome Rat.sqrt exampleJob tinyBCs
    [] [] [] hw (by simp) (by simp)
  refine ⟨a, Kg, f, h, solves_of_rows h hw.1 hw.2.2.1 _ ?_⟩
  intro ts hl r hr
  have hrhs : bcRhs (6 * exampleJob.nodes.length) tinyBCs 0 = [] := bcRhs_tinyBCs
  rw [hrhs]
  simp [rowSum, entrySum, forceEntries]

theorem softTie_wellFormed : WellFormed softTieJob [] [] softTies [] := by
  refine ⟨by decide, ⟨by decide, ?_⟩, ?_, fun t ht => by simp at ht,
    fun t ht => by simp at ht, fun q hq => by simp at hq⟩
  · intro e he
    simp only [softTieJob, List.mem_singleton] at he
    subst he
    simp [softTieJob]
  · intro t ht
    simp only [softTies, List.mem_singleton] at ht
    subst ht
    simp [softTieJob]

/-- The system of `softTieJob` with `softTies`: the build returns a system, the assembled
stiffness holds the spring constant `1e-27` at position `(12, 12)`, and the matrix of the
nodal forces holds nothing there. -/
theorem softTie_system :
    ∃ (a : GlobalStiffAssembler ℚ) (Kg f Kg1 : SparseMat ℚ),
      augmentedSystem Rat.sqrt softTieJob [] [] softTies [] = some (a, Kg, f) ∧
      GlobalStiffAssembler.init.assemble Rat.sqrt (SparseMat.empty 18 18) softTieJob softTies
        = some (a, Kg1) ∧
      Kg1.coeff 12 12 = 1 / 10 ^ 27 ∧
      (nodalForceMatrix Kg softTieJob).coeff 12 12 = 0 := by
  have hw := softTie_wellFormed
  obtain ⟨a, Kg, f, h⟩ := augmentedSystem_isSome Rat.sqrt softTieJob [] [] softTies [] hw
    (by simp) (by simp)
  obtain ⟨Kg1, ts, ha, hl, hin, hco1, -, -, -, -, hco, -, -⟩ :=
    augmentedSystem_spec h hw.1 hw.2.2.1
  have hlen : softTieJob.elems.length = 1 := rfl
  rw [hlen] at hl
  obtain ⟨a0, t0, e, hprev, hc, he, ht1⟩ := elemLoop_succ_eq hl
  simp only [elemLoop, Option.some.injEq, Prod.mk.injEq] at hprev
  obtain ⟨rfl, rfl⟩ := hprev
  have he2 : e = (0, 1) := by simpa [softTieJob] using he.symm
  subst he2
  have hts : tripletSum ts 12 12 = 0 := by
    rw [ht1]
    exact tripletSum_eq_zero_of_inBlock
      (inBlock_append (fun t ht => by simp at ht)
        (inBlock_elemTriplets a.Kelem 0 1 2 (by decide) (by decide) (by decide) (by decide)
          (by decide))) 12 12 (Or.inl (by decide))
  have hk : Kg1.coeff 12 12 = 1 / 10 ^ 27 := by
    rw [hco1, tripletSum_loadTies ts softTies (by simp [softTies]), hts]
    simp [softTies, tieContribution, List.range_succ]
  have hkg : Kg.coeff 12 12 = 1 / 10 ^ 27 := by
    rw [hco, ← hco1, hk]
    simp [bcEntries, eqEntries, entrySum]
  refine ⟨a, Kg, f, Kg1, h, ha, hk, ?_⟩
  unfold nodalForceMatrix prunedKg
  rw [coeff_topLeftCorner _ _ _ _ _ (by decide) (by decide), coeff_prune, hkg]
  norm_num [dummy_precision, abs_of_pos]

/-- The call `Kg.prune(1.e-14)` changes nothing when every stored coefficient exceeds
`1e-14 * 1e-12` in magnitude. -/
theorem prunedKg_eq_self (Kg : SparseMat K)
    (h : ∀ r c v, Kg.stored r c = some v → |(1 : K) / 10 ^ 14| * dummy_precision < |v|) :
    prunedKg Kg = Kg := by
  unfold prunedKg SparseMat.prune
  cases Kg with
  | mk rows cols stored =>
    simp only [SparseMat.mk.injEq, true_and]
    funext r c
    cases hs : stored r c with
    | none => rfl
    | some v =>
      have := h r c v hs
      simp only
      rw [if_neg (not_le.mpr this)]

/-! ## The properties of the specification -/

/-- Claim C1: in the pass of `operator()` for element `i` with the nodes `(node0, node1) = e`,
the triplets pushed are exactly those of the nonzero entries `(row, col)` of the 12 x 12
global-frame stiffness `Kelem`, placed at global row `6 * node0 + row` when `row < 6` and at
`6 * node1 + (row - 6)` when `row >= 6`, and likewise for `col`: the block of the second node
is based at `6 * node1`. -/
theorem scatter_to_node_blocks (sqrt : K → K) (job : Job K) (self a0 a1 : GlobalStiffAssembler K)
    (ts0 t0 t1 : List (Triplet K)) (i : Nat) (e : Elem)
    (hsize : NUM_DOFS * job.nodes.length < 2 ^ 31)
    (hprev : elemLoop sqrt job self ts0 i = some (a0, t0))
    (hnext : elemLoop sqrt job self ts0 (i + 1) = some (a1, t1))
    (he : job.elems[i]? = some e) :
    ∃ pushed : List (Triplet K), t1 = t0 ++ pushed ∧
      ∀ t : Triplet K, t ∈ pushed ↔
        ∃ row col : Fin 12, a1.Kelem row col ≠ 0 ∧
          t = { row := if row.val < 6 then 6 * e.1 + row.val else 6 * e.2 + (row.val - 6),
                col := if col.val < 6 then 6 * e.1 + col.val else 6 * e.2 + (col.val - 6),
                value := a1.Kelem row col } := by
  obtain ⟨a0', t0', e', hprev', hc, he', ht1⟩ := elemLoop_succ_eq hnext
  rw [hprev] at hprev'
  simp only [Option.some.injEq, Prod.mk.injEq] at hprev'
  obtain ⟨rfl, rfl⟩ := hprev'
  rw [he] at he'
  simp only [Option.some.injEq] at he'
  subst he'
  obtain ⟨p, e2, n1, n2, -, he2, hn1, hn2, -⟩ := calcKelem_eq_some hc
  rw [he] at he2
  simp only [Option.some.injEq] at he2
  subst he2
  have b1 := nodeAt_eq_some hn1
  have b2 := nodeAt_eq_some hn2
  have hb : ∀ nn : Int, 0 ≤ nn → nn < job.nodes.length → 6 * nn + 5 < 2 ^ 31 := by
    intro nn _ _
    unfold NUM_DOFS at hsize
    omega
  refine ⟨elemTriplets a1.Kelem e.1 e.2, ht1, fun t => ?_⟩
  rw [mem_elemTriplets]
  constructor
  · rintro ⟨row, col, hz, rfl⟩
    refine ⟨row, col, hz, ?_⟩
    rw [globalIndex_eq e.1 e.2 row.val row.isLt b1.1 (hb _ b1.1 b1.2) b2.1 (hb _ b2.1 b2.2),
      globalIndex_eq e.1 e.2 col.val col.isLt b1.1 (hb _ b1.1 b1.2) b2.1 (hb _ b2.1 b2.2)]
    rfl
  · rintro ⟨row, col, hz, rfl⟩
    refine ⟨row, col, hz, ?_⟩
    rw [globalIndex_eq e.1 e.2 row.val row.isLt b1.1 (hb _ b1.1 b1.2) b2.1 (hb _ b2.1 b2.2),
      globalIndex_eq e.1 e.2 col.val col.isLt b1.1 (hb _ b1.1 b1.2) b2.1 (hb _ b2.1 b2.2)]
    rfl

theorem scatter_to_node_blocks_witness :
    ∃ (a1 : GlobalStiffAssembler ℚ) (t1 pushed : List (Triplet ℚ)),
      elemLoop Rat.sqrt exampleJob (GlobalStiffAssembler.init.resized exampleJob) [] 1
        = some (a1, t1) ∧
      t1 = [] ++ pushed ∧
      ∀ t : Triplet ℚ, t ∈ pushed ↔
        ∃ row col : Fin 12, a1.Kelem row col ≠ 0 ∧
          t = { row := if row.val < 6 then 6 * 0 + row.val else 6 * 1 + (row.val - 6),
                col := if col.val < 6 then 6 * 0 + col.val else 6 * 1 + (col.val - 6),
                value := a1.Kelem row col } := by
  obtain ⟨a1, t1, h1, -⟩ := elemLoop_isSome Rat.sqrt exampleJob
    (GlobalStiffAssembler.init.resized exampleJob) [] validElems_exampleJob 1 (by decide)
    (by simp [GlobalStiffAssembler.resized, resizeMats_length])
  obtain ⟨pushed, hp, hm⟩ := scatter_to_node_blocks Rat.sqrt exampleJob
    (GlobalStiffAssembler.init.resized exampleJob) _ a1 [] [] t1 0 (0, 1) (by decide) rfl h1 rfl
  exact ⟨a1, t1, pushed, h1, hp, hm⟩

/-- Claim C2: for every job whose elements all have nonzero length and every list of ties, the
matrix that `operator()` produces (element contributions `AelemT * Klocal * Aelem` plus tie
springs, before `loadBCs` and `loadEquations`) is symmetric: `Kg(r, c) = Kg(c, r)` for all
`r` and `c`. -/
theorem assemble_symmetric (sqrt : K → K) (job : Job K) (ties : List (Tie K))
    (Kg0 Kg : SparseMat K) (a : GlobalStiffAssembler K)
    (hlen : ∀ (e : Elem) (n1 n2 : Node K), e ∈ job.elems → nodeAt job e.1 = some n1 →
      nodeAt job e.2 = some n2 → norm sqrt n1 n2 ≠ 0)
    (h : GlobalStiffAssembler.init.assemble sqrt Kg0 job ties = some (a, Kg)) (r c : Nat) :
    Kg.coeff r c = Kg.coeff c r := by
  obtain ⟨ts, hl, hs⟩ := assemble_eq_some h
  have hsym := (elemLoop_invariant sqrt job
    (fun ts => ∀ r c, tripletSum ts r c = tripletSum ts c r)
    (GlobalStiffAssembler.init.resized job) [] klocalClean_zero blockClean_zero
    (fun _ _ => rfl)
    (fun i p e n1 n2 ts _ _ _ _ hQ r c => by
      rw [tripletSum_append, tripletSum_append, hQ r c,
        tripletSum_elemTriplets_symm _ (kelemOf_transpose sqrt p n1 n2)])
    job.elems.length a ts hl).1
  rw [(setFromTriplets_coeff hs r c).1, (setFromTriplets_coeff hs c r).1]
  exact tripletSum_loadTies_symm ts ties hsym r c

theorem assemble_symmetric_witness :
    ∃ (a : GlobalStiffAssembler ℚ) (Kg : SparseMat ℚ),
      GlobalStiffAssembler.init.assemble Rat.sqrt (SparseMat.empty 12 12) exampleJob exampleTies
        = some (a, Kg) ∧
      Kg.coeff 0 6 = Kg.coeff 6 0 := by
  obtain ⟨a, Kg, h⟩ := assemble_isSome Rat.sqrt GlobalStiffAssembler.init (SparseMat.empty 12 12)
    exampleJob exampleTies klocalClean_zero blockClean_zero validElems_exampleJob
    validTies_exampleTies (by decide) (by decide) (by decide)
  exact ⟨a, Kg, h, assemble_symmetric Rat.sqrt exampleJob exampleTies _ Kg a
    exampleJob_lengths h 0 6⟩

/-- Claim C3: for an element of length `L != 0` with the properties `EA`, `EIy`, `EIz`, `GJ`,
the matrix `Klocal` written by `calcKelem` is the standard 3D Euler-Bernoulli beam stiffness
`stdBeamStiffness`: `EA / L` on the axial pair `{0, 6}`, `GJ / L` on the torsional pair
`{3, 9}`, the terms `12 EIz / L^3`, `6 EIz / L^2`, `4 EIz / L`, `2 EIz / L` on `{1, 5, 7, 11}`,
those of `EIy` on `{2, 4, 8, 10}` with the opposite sign of the translation-rotation
coupling, and zero at every other entry. -/
theorem klocal_is_standard (sqrt : K → K) (job : Job K) (i : Nat) (a : GlobalStiffAssembler K)
    (ts : List (Triplet K)) (p : Props K) (e : Elem) (n1 n2 : Node K)
    (hrun : elemLoop sqrt job (GlobalStiffAssembler.init.resized job) [] (i + 1) = some (a, ts))
    (hp : job.props[i]? = some p) (he : job.elems[i]? = some e)
    (hn1 : nodeAt job e.1 = some n1) (hn2 : nodeAt job e.2 = some n2)
    (hL : norm sqrt n1 n2 ≠ 0) :
    a.Klocal = stdBeamStiffness p.EA p.EIy p.EIz p.GJ (norm sqrt n1 n2) := by
  obtain ⟨a0, t0, e', hprev, hc, he', -⟩ := elemLoop_succ_eq hrun
  have hinv := elemLoop_invariant sqrt job (fun _ => True)
    (GlobalStiffAssembler.init.resized job) [] klocalClean_zero blockClean_zero trivial
    (fun _ _ _ _ _ _ _ _ _ _ _ => trivial) i a0 t0 hprev
  obtain ⟨p', e2, m1, m2, hp', he2, hm1, hm2, -, hKl, -⟩ := calcKelem_eq_some hc
  rw [hp] at hp'
  rw [he] at he2
  simp only [Option.some.injEq] at hp' he2
  subst hp' he2
  rw [hn1] at hm1
  rw [hn2] at hm2
  simp only [Option.some.injEq] at hm1 hm2
  subst hm1 hm2
  rw [hKl, klocalOf_of_clean _ hinv.2.1, klocalOf_zero_eq]

theorem klocal_is_standard_witness :
    ∃ (a : GlobalStiffAssembler ℚ) (ts : List (Triplet ℚ)),
      elemLoop Rat.sqrt exampleJob (GlobalStiffAssembler.init.resized exampleJob) [] 1
        = some (a, ts) ∧
      a.Klocal = stdBeamStiffness 3 7 5 11 (norm Rat.sqrt ![0, 0, 0] ![2, 0, 0]) := by
  obtain ⟨a, ts, h, -⟩ := elemLoop_isSome Rat.sqrt exampleJob
    (GlobalStiffAssembler.init.resized exampleJob) [] validElems_exampleJob 1 (by decide)
    (by simp [GlobalStiffAssembler.resized, resizeMats_length])
  exact ⟨a, ts, h, klocal_is_standard Rat.sqrt exampleJob 0 a ts
    { EA := 3, EIz := 5, EIy := 7, GJ := 11, normal_vec := ![0, 1, 0] } (0, 1)
    ![0, 0, 0] ![2, 0, 0] h rfl rfl nodeAt_exampleJob_zero nodeAt_exampleJob_one
    (by rw [norm_exampleJob]; norm_num)⟩

/-- Claim C4, amended: for well-formed input, every solution `x` of the augmented system built
by assembly, `loadBCs`, `loadEquations` and `loadForces` takes, at the degree of freedom of
each boundary condition, the prescribed value when the magnitude of that value exceeds the
machine epsilon `2^-52`, and zero otherwise; and `loadBCs` leaves every stored coefficient of
the stiffness block, the diagonal included, as it was. -/
theorem bc_enforced_beyond_tolerance (sqrt : K → K) (job : Job K) (BCs : List (BC K))
    (forces : List (Force K)) (ties : List (Tie K)) (equations : List (Equation K))
    (a : GlobalStiffAssembler K) (Kg f : SparseMat K)
    (hw : WellFormed job BCs forces ties equations)
    (h : augmentedSystem sqrt job BCs forces ties equations = some (a, Kg, f)) :
    (∀ x : Nat → K, Solves Kg f x → ∀ bc ∈ BCs,
      x (6 * bc.node + bc.dof) = if |bc.value| > dbl_epsilon then bc.value else 0) ∧
    (∀ (Kg0 fv Kg2 f2 : SparseMat K) (n : Nat), NUM_DOFS * n < 2 ^ 32 →
      loadBCs Kg0 fv BCs (u32 n) = some (Kg2, f2) →
      ∀ r c, r < 6 * n → c < 6 * n → Kg2.stored r c = Kg0.stored r c) := by
  refine ⟨fun x hx bc hbc => ?_, fun Kg0 fv Kg2 f2 n hn hl r c hr hc =>
    loadBCs_block hn hl r c hr hc⟩
  obtain ⟨i, hi⟩ := List.mem_iff_getElem?.mp hbc
  exact solves_bc_value h hw hx i bc hi

theorem bc_enforced_beyond_tolerance_witness :
    ∃ (a : GlobalStiffAssembler ℚ) (Kg f : SparseMat ℚ),
      augmentedSystem Rat.sqrt exampleJob prescribedBCs [] [] coupledEquations
        = some (a, Kg, f) ∧
      Solves Kg f coupledSolution ∧
      coupledSolution (6 * 1 + 0) = (if |(6 : ℚ)| > dbl_epsilon then 6 else 0) := by
  obtain ⟨a, Kg, f, h, hx⟩ := coupled_solved
  exact ⟨a, Kg, f, h, hx,
    (bc_enforced_beyond_tolerance Rat.sqrt exampleJob prescribedBCs [] [] coupledEquations
      a Kg f coupled_wellFormed h).1 coupledSolution hx { node := 1, dof := 0, value := 6 }
      (by simp [prescribedBCs])⟩

/-- Claim C4 as stated fails: for the cantilever `exampleJob` whose axial support prescribes
the displacement `2^-53`, the zero vector solves the system that `solve` builds, so the
displacement at that degree of freedom is not the prescribed value. -/
theorem tiny_prescribed_value_not_enforced :
    ∃ (a : GlobalStiffAssembler ℚ) (Kg f : SparseMat ℚ) (x : Nat → ℚ),
      augmentedSystem Rat.sqrt exampleJob tinyBCs [] [] [] = some (a, Kg, f) ∧
      Solves Kg f x ∧
      ({ node := 0, dof := 0, value := 1 / 2 ^ 53 } : BC ℚ) ∈ tinyBCs ∧
      x (6 * 0 + 0) ≠ 1 / 2 ^ 53 := by
  obtain ⟨a, Kg, f, h, hx⟩ := tiny_solved
  exact ⟨a, Kg, f, fun _ => 0, h, hx, by simp [tinyBCs], by norm_num⟩

/-- Claim C6: for well-formed input and a row `r < 6 * |nodes|` that no boundary condition and
no equation term references, the unrounded nodal force at row `r` (the top left
`6N x 6N` block of `Kg` times the displacements) equals `force_vec[r]` for every solution
of the augmented system; the same holds with the pruned matrix that `solve` hands to the
solver; and `force_vec[r]` is zero where no force is given and the value of the force where
one is. -/
theorem free_row_balance (sqrt : K → K) (job : Job K) (BCs : List (BC K))
    (forces : List (Force K)) (ties : List (Tie K)) (equations : List (Equation K))
    (a : GlobalStiffAssembler K) (Kg f : SparseMat K) (r : Nat)
    (hw : WellFormed job BCs forces ties equations)
    (h : augmentedSystem sqrt job BCs forces ties equations = some (a, Kg, f))
    (hr : r < 6 * job.nodes.length)
    (hbc : ∀ bc ∈ BCs, 6 * bc.node + bc.dof ≠ r)
    (heq : ∀ eq ∈ equations, ∀ t ∈ eq.terms, 6 * t.node_number + t.dof ≠ r) :
    (∀ x : Nat → K, Solves Kg f x →
      mulVecAt (Kg.topLeftCorner (6 * job.nodes.length) (6 * job.nodes.length)) x r
        = f.coeff r 0) ∧
    (∀ x : Nat → K, Solves (prunedKg Kg) f x →
      mulVecAt (nodalForceMatrix Kg job) x r = f.coeff r 0) ∧
    ((∀ fo ∈ forces, 6 * fo.node + fo.dof ≠ r) → f.coeff r 0 = 0) ∧
    (∀ fo ∈ forces, 6 * fo.node + fo.dof = r → f.coeff r 0 = fo.value) := by
  obtain ⟨hnone, hrows, hcols⟩ := free_row_stored h hw r hr hbc heq
  have hle : 6 * job.nodes.length ≤ 6 * job.nodes.length + BCs.length + equations.length := by
    omega
  refine ⟨fun x hx => ?_, fun x hx => ?_, (force_vec_coeff h hw r hr).1,
    (force_vec_coeff h hw r hr).2⟩
  · rw [mulVecAt_topLeftCorner _ _ _ _ hr, ← hx r (by rw [hrows]; omega), hcols,
      sum_range_of_stored_none Kg x r _ _ hle hnone]
  · have hx' := hx r (by
      show r < Kg.rows
      rw [hrows]; omega)
    have hc' : (prunedKg Kg).cols = 6 * job.nodes.length + BCs.length + equations.length := hcols
    rw [hc', sum_range_of_stored_none (prunedKg Kg) x r _ _ hle
      (fun c hc => prune_stored_none _ _ _ _ _ (hnone c hc))] at hx'
    rw [← hx']
    unfold nodalForceMatrix
    have : NUM_DOFS * job.nodes.length = 6 * job.nodes.length := rfl
    simp only [this]
    exact mulVecAt_topLeftCorner _ _ _ _ hr

theorem free_row_balance_witness :
    ∃ (a : GlobalStiffAssembler ℚ) (Kg f : SparseMat ℚ),
      augmentedSystem Rat.sqrt (cantileverJob 2 3 7 5 11) fixedEnd
        [{ node := 1, dof := 0, value := 9 }] [] [] = some (a, Kg, f) ∧
      Solves Kg f cantileverSolution ∧
      mulVecAt (Kg.topLeftCorner (6 * 2) (6 * 2)) cantileverSolution 6 = f.coeff 6 0 ∧
      f.coeff 6 0 = 9 := by
  obtain ⟨a, Kg, f, h, hx⟩ := cantilever_solved
  obtain ⟨c1, -, -, c4⟩ := free_row_balance Rat.sqrt (cantileverJob 2 3 7 5 11) fixedEnd
    [{ node := 1, dof := 0, value := 9 }] [] [] a Kg f 6
    (cantilever_wellFormed 2 3 7 5 11 9 fixedEnd fixedEnd_fixed (by decide)) h (by decide)
    (fun bc hbc => by
      obtain ⟨h1, h2, -⟩ := fixedEnd_fixed bc hbc
      omega)
    (fun q hq => by simp at hq)
  exact ⟨a, Kg, f, h, hx, c1 cantileverSolution hx,
    c4 { node := 1, dof := 0, value := 9 } (by simp) rfl⟩

/-- Claim C9: for every tie `(a, b, lmult, rmult)` and every degree of freedom `j < 6`,
`loadTies` contributes `+k` at `(6a + j, 6a + j)` and `(6b + j, 6b + j)` and `-k` at
`(6a + j, 6b + j)` and `(6b + j, 6a + j)`, with `k = lmult` for `j < 3` and `k = rmult`
otherwise (this is `tieContribution`); and in the global matrix these contributions are summed
with the contributions of the elements at the same positions. -/
theorem ties_accumulate (sqrt : K → K) (job : Job K) (ties : List (Tie K))
    (Kg0 Kg : SparseMat K) (a : GlobalStiffAssembler K)
    (hties : ∀ tie ∈ ties, 6 * tie.node_number_1 + 5 < 2 ^ 31 ∧
      6 * tie.node_number_2 + 5 < 2 ^ 31)
    (h : GlobalStiffAssembler.init.assemble sqrt Kg0 job ties = some (a, Kg)) :
    (∀ (triplets : List (Triplet K)) (r c : Nat),
      tripletSum (loadTies triplets ties) r c =
        tripletSum triplets r c +
          (ties.map fun tie =>
            ((List.range 6).map fun j => tieContribution tie j r c).sum).sum) ∧
    ∃ elemTs : List (Triplet K),
      elemLoop sqrt job (GlobalStiffAssembler.init.resized job) [] job.elems.length
        = some (a, elemTs) ∧
      ∀ r c : Nat, Kg.coeff r c =
        tripletSum elemTs r c +
          (ties.map fun tie =>
            ((List.range 6).map fun j => tieContribution tie j r c).sum).sum := by
  obtain ⟨ts, hl, hs⟩ := assemble_eq_some h
  refine ⟨fun triplets r c => tripletSum_loadTies triplets ties hties r c, ts, hl, fun r c => ?_⟩
  rw [(setFromTriplets_coeff hs r c).1, tripletSum_loadTies ts ties hties]

theorem ties_accumulate_witness :
    ∃ (a : GlobalStiffAssembler ℚ) (Kg : SparseMat ℚ) (elemTs : List (Triplet ℚ)),
      GlobalStiffAssembler.init.assemble Rat.sqrt (SparseMat.empty 12 12) exampleJob exampleTies
        = some (a, Kg) ∧
      Kg.coeff 0 6 = tripletSum elemTs 0 6 +
        (exampleTies.map fun tie =>
          ((List.range 6).map fun j => tieContribution tie j 0 6).sum).sum := by
  obtain ⟨a, Kg, h⟩ := assemble_isSome Rat.sqrt GlobalStiffAssembler.init (SparseMat.empty 12 12)
    exampleJob exampleTies klocalClean_zero blockClean_zero validElems_exampleJob
    validTies_exampleTies (by decide) (by decide) (by decide)
  obtain ⟨-, elemTs, -, hsum⟩ := ties_accumulate Rat.sqrt exampleJob exampleTies _ Kg a
    (by simp [exampleTies]) h
  exact ⟨a, Kg, elemTs, h, hsum 0 6⟩

/-- Claim C10, amended: `loadBCs` and `loadEquations` leave the stored coefficients of the top
left `6 * |nodes|` block of `Kg` unchanged, and the matrix that `solve` multiplies with the
displacements to obtain the nodal forces is the assembled stiffness (elements plus ties)
after `Kg.prune(1.e-14)`: a coefficient of magnitude at most `1e-14 * 1e-12` is dropped, and
every other coefficient is the assembled one. -/
theorem nodal_force_matrix_is_pruned_stiffness (sqrt : K → K) (job : Job K)
    (BCs : List (BC K)) (forces : List (Force K)) (ties : List (Tie K))
    (equations : List (Equation K)) (a : GlobalStiffAssembler K) (Kg f : SparseMat K)
    (hsize : NUM_DOFS * job.nodes.length + BCs.length + equations.length < 2 ^ 31)
    (h : augmentedSystem sqrt job BCs forces ties equations = some (a, Kg, f)) :
    ∃ Kg1 : SparseMat K,
      GlobalStiffAssembler.init.assemble sqrt
        (SparseMat.empty (NUM_DOFS * job.nodes.length + BCs.length + equations.length)
          (NUM_DOFS * job.nodes.length + BCs.length + equations.length)) job ties
        = some (a, Kg1) ∧
      (∀ r c, r < 6 * job.nodes.length → c < 6 * job.nodes.length →
        Kg.stored r c = Kg1.stored r c) ∧
      nodalForceMatrix Kg job = nodalForceMatrix Kg1 job ∧
      (∀ r c, r < 6 * job.nodes.length → c < 6 * job.nodes.length →
        (nodalForceMatrix Kg job).coeff r c =
          if |Kg1.coeff r c| ≤ |(1 : K) / 10 ^ 14| * (1 / 10 ^ 12) then 0 else Kg1.coeff r c) := by
  obtain ⟨Kg1, ha, hst⟩ := augmentedSystem_block h hsize
  have heq : nodalForceMatrix Kg job = nodalForceMatrix Kg1 job := by
    unfold nodalForceMatrix prunedKg SparseMat.topLeftCorner SparseMat.prune
    simp only [SparseMat.mk.injEq, true_and]
    funext r c
    by_cases hrc : r < NUM_DOFS * job.nodes.length ∧ c < NUM_DOFS * job.nodes.length
    · rw [if_pos hrc, if_pos hrc, hst r c (by unfold NUM_DOFS at hrc; omega)
        (by unfold NUM_DOFS at hrc; omega)]
    · rw [if_neg hrc, if_neg hrc]
  refine ⟨Kg1, ha, hst, heq, fun r c hr hc => ?_⟩
  rw [heq]
  unfold nodalForceMatrix prunedKg
  rw [coeff_topLeftCorner _ _ _ _ _ (by unfold NUM_DOFS; omega) (by unfold NUM_DOFS; omega),
    coeff_prune]
  rfl

theorem nodal_force_matrix_is_pruned_stiffness_witness :
    ∃ (a : GlobalStiffAssembler ℚ) (Kg f Kg1 : SparseMat ℚ),
      augmentedSystem Rat.sqrt exampleJob prescribedBCs [] [] coupledEquations
        = some (a, Kg, f) ∧
      GlobalStiffAssembler.init.assemble Rat.sqrt (SparseMat.empty 20 20) exampleJob []
        = some (a, Kg1) ∧
      (nodalForceMatrix Kg exampleJob).coeff 0 6 =
        if |Kg1.coeff 0 6| ≤ |(1 : ℚ) / 10 ^ 14| * (1 / 10 ^ 12) then 0
        else Kg1.coeff 0 6 := by
  obtain ⟨a, Kg, f, h, -⟩ := coupled_solved
  obtain ⟨Kg1, ha, -, -, hco⟩ := nodal_force_matrix_is_pruned_stiffness Rat.sqrt exampleJob
    prescribedBCs [] [] coupledEquations a Kg f (by decide) h
  exact ⟨a, Kg, f, Kg1, h, ha, hco 0 6 (by decide) (by decide)⟩

/-- Claim C10 as stated fails: for `exampleJob` with a third node tied to node 1 by the linear
spring constant `1e-27`, the assembled stiffness holds `1e-27` at position `(12, 12)`, while
the matrix that `solve` multiplies with the displacements holds nothing there. -/
theorem nodal_force_matrix_drops_small_coefficient :
    ∃ (a : GlobalStiffAssembler ℚ) (Kg f Kg1 : SparseMat ℚ),
      augmentedSystem Rat.sqrt softTieJob [] [] softTies [] = some (a, Kg, f) ∧
      GlobalStiffAssembler.init.assemble Rat.sqrt (SparseMat.empty 18 18) softTieJob softTies
        = some (a, Kg1) ∧
      Kg1.coeff 12 12 = 1 / 10 ^ 27 ∧
      (nodalForceMatrix Kg softTieJob).coeff 12 12 = 0 ∧
      (nodalForceMatrix Kg softTieJob).coeff 12 12 ≠ Kg1.coeff 12 12 := by
  obtain ⟨a, Kg, f, Kg1, h, ha, h1, h2⟩ := softTie_system
  exact ⟨a, Kg, f, Kg1, h, ha, h1, h2, by rw [h1, h2]; norm_num⟩

/-! ## The result tables of solve -/

theorem allSome_eq_some {α : Type} {l : List (Option α)} {r : List α} :
    allSome l = some r ↔ l = r.map some := by
  induction l generalizing r with
  | nil =>
    simp only [allSome, Option.some.injEq]
    constructor
    · rintro rfl; rfl
    · intro h
      cases r with
      | nil => rfl
      | cons a t => simp at h
  | cons x rest ih =>
    cases x with
    | none =>
      simp only [allSome]
      constructor
      · intro h; simp at h
      · intro h
        cases r with
        | nil => simp at h
        | cons a t => simp at h
    | some a =>
      cases hr : allSome rest with
      | none =>
        simp only [allSome, hr]
        constructor
        · intro h; simp at h
        · intro h
          cases r with
          | nil => simp at h
          | cons b t =>
            simp only [List.map_cons, List.cons.injEq, Option.some.injEq] at h
            have := ih.mpr h.2
            rw [hr] at this
            simp at this
      | some l =>
        simp only [allSome, hr, Option.some.injEq]
        have hl := ih.mp hr
        constructor
        · rintro rfl
          simp [hl]
        · intro h
          cases r with
          | nil => simp at h
          | cons b t =>
            simp only [List.map_cons, List.cons.injEq, Option.some.injEq] at h
            obtain ⟨rfl, h2⟩ := h
            have := ih.mpr h2
            rw [hr] at this
            simp only [Option.some.injEq] at this
            rw [this]

theorem allSome_map {α β : Type} (l : List α) (f : α → Option β) (g : α → β)
    (h : ∀ x ∈ l, f x = some (g x)) : allSome (l.map f) = some (l.map g) := by
  rw [allSome_eq_some, List.map_map]
  exact List.map_congr_left h

theorem tableAt_eq_some {table : List (List K)} {i j : Nat} {row : List K} {v : K}
    (hi : table[i]? = some row) (hj : row[j]? = some v) : tableAt table i j = some v := by
  simp [tableAt, hi, hj]

theorem tableAt_isSome (table : List (List K)) (i j : Nat) (hi : i < table.length)
    (hrow : ∀ row ∈ table, row.length = 6) (hj : j < 6) :
    tableAt table i j = some (tableEntry table i j) := by
  have h1 : table[i]? = some table[i] := List.getElem?_eq_getElem hi
  have hlen : table[i].length = 6 := hrow _ (List.getElem_mem hi)
  have h2 : (table[i])[j]? = some (table[i])[j] := List.getElem?_eq_getElem (by omega)
  simp [tableEntry, tableAt, h1, h2]

/-- The table that `computeTieForces` returns, entry by entry. -/
theorem computeTieForces_eq (ties : List (Tie K)) (nodal_displacements : List (List K))
    (hties : ∀ tie ∈ ties, tie.node_number_1 < nodal_displacements.length ∧
      tie.node_number_2 < nodal_displacements.length)
    (hrow : ∀ row ∈ nodal_displacements, row.length = 6) :
    computeTieForces ties nodal_displacements =
      some (ties.map fun tie => (List.range 6).map fun j =>
        tieConstant tie j * (tableEntry nodal_displacements tie.node_number_2 j -
          tableEntry nodal_displacements tie.node_number_1 j)) := by
  unfold computeTieForces
  refine allSome_map _ _ _ fun tie htie => ?_
  refine allSome_map _ _ _ fun j hj => ?_
  have hj6 : j < 6 := List.mem_range.mp hj
  simp only [tableAt_isSome _ _ _ (hties tie htie).1 hrow hj6,
    tableAt_isSome _ _ _ (hties tie htie).2 hrow hj6, tieConstant]

theorem nodal_forces_vec_eq (epsilon : K) (v : Nat → K) (n : Nat) :
    nodal_forces_vec epsilon v n = disp_vec epsilon v n := rfl

theorem disp_vec_length (epsilon : K) (disp : Nat → K) (n : Nat) :
    (disp_vec epsilon disp n).length = n := by
  simp [disp_vec]

theorem disp_vec_rows (epsilon : K) (disp : Nat → K) (n : Nat) :
    ∀ row ∈ disp_vec epsilon disp n, row.length = 6 := by
  intro row hrow
  simp only [disp_vec, List.mem_map] at hrow
  obtain ⟨i, -, rfl⟩ := hrow
  simp [NUM_DOFS]

theorem tableAt_disp_vec (epsilon : K) (disp : Nat → K) (n i j : Nat) (hi : i < n)
    (hj : j < 6) :
    tableAt (disp_vec epsilon disp n) i j =
      some (if |disp (6 * i + j)| < epsilon then 0 else disp (6 * i + j)) := by
  have h1 : (disp_vec epsilon disp n)[i]? = some ((List.range NUM_DOFS).map fun j =>
      if |disp (NUM_DOFS * i + j)| < epsilon then 0 else disp (NUM_DOFS * i + j)) := by
    simp [disp_vec, List.getElem?_map, List.getElem?_range hi]
  have h2 : ((List.range NUM_DOFS).map fun j =>
      if |disp (NUM_DOFS * i + j)| < epsilon then 0 else disp (NUM_DOFS * i + j))[j]? =
      some (if |disp (6 * i + j)| < epsilon then 0 else disp (6 * i + j)) := by
    have hj' : j < NUM_DOFS := hj
    rw [List.getElem?_map, List.getElem?_range hj']
    rfl
  exact tableAt_eq_some h1 h2

theorem tableAt_lt {table : List (List K)} {i j : Nat} {v : K}
    (h : tableAt table i j = some v) : i < table.length := by
  unfold tableAt at h
  cases hi : table[i]? with
  | none => simp [hi] at h
  | some row => exact (List.getElem?_eq_some_iff.mp hi).1

theorem tableAt_disp_vec_eq (epsilon : K) (disp : Nat → K) (n i j : Nat) (v : K)
    (h : tableAt (disp_vec epsilon disp n) i j = some v) :
    i < n ∧ j < 6 ∧ v = if |disp (6 * i + j)| < epsilon then 0 else disp (6 * i + j) := by
  have hi : i < n := by
    have := tableAt_lt h
    rwa [disp_vec_length] at this
  have hj : j < 6 := by
    unfold tableAt at h
    have hlt : i < (disp_vec epsilon disp n).length := by rwa [disp_vec_length]
    rw [List.getElem?_eq_getElem hlt] at h
    simp only at h
    have h6 := disp_vec_rows epsilon disp n _ (List.getElem_mem hlt)
    have := (List.getElem?_eq_some_iff.mp h).1
    omega
  rw [tableAt_disp_vec epsilon disp n i j hi hj] at h
  exact ⟨hi, hj, (Option.some.inj h).symm⟩

/-- A reported value is zero or of magnitude at least `epsilon`. -/
theorem rounded_zero_or_large (epsilon c : K) :
    (if |c| < epsilon then (0 : K) else c) = 0 ∨
      epsilon ≤ |if |c| < epsilon then (0 : K) else c| := by
  by_cases h : |c| < epsilon
  · left; rw [if_pos h]
  · right; rw [if_neg h]; exact not_lt.mp h

/-- The parts of a run of `solve` that returns a summary. -/
theorem solve_eq_some {sqrt : K → K} {solver : SparseMat K → SparseMat K → Option (Nat → K)}
    {job : Job K} {BCs : List (BC K)} {forces : List (Force K)} {ties : List (Tie K)}
    {equations : List (Equation K)} {epsilon : K} {summary : Summary K}
    (h : solve sqrt solver job BCs forces ties equations epsilon = some summary) :
    ∃ (a : GlobalStiffAssembler K) (Kg f : SparseMat K) (disp : Nat → K),
      augmentedSystem sqrt job BCs forces ties equations = some (a, Kg, f) ∧
      solver (prunedKg Kg) f = some disp ∧
      summary.nodal_displacements = disp_vec epsilon disp job.nodes.length ∧
      summary.nodal_forces =
        nodal_forces_vec epsilon (mulVecAt (nodalForceMatrix Kg job) disp) job.nodes.length ∧
      (if ties.length > 0 then computeTieForces ties summary.nodal_displacements else some [])
        = some summary.tie_forces ∧
      elementForces job a.perElemKlocalAelem summary.nodal_displacements
        = some summary.element_forces := by
  unfold solve at h
  cases hs : augmentedSystem sqrt job BCs forces ties equations with
  | none => simp [hs] at h
  | some st =>
    obtain ⟨a, Kg, f⟩ := st
    simp only [hs] at h
    cases hd : solver (prunedKg Kg) f with
    | none => simp [hd] at h
    | some disp =>
      simp only [hd] at h
      cases ht : (if ties.length > 0 then
          computeTieForces ties (disp_vec epsilon disp job.nodes.length) else some []) with
      | none => simp [ht] at h
      | some tf =>
        simp only [ht] at h
        cases he : elementForces job a.perElemKlocalAelem
            (disp_vec epsilon disp job.nodes.length) with
        | none => simp [he] at h
        | some ef =>
          simp only [he, Option.some.injEq] at h
          subst h
          exact ⟨a, Kg, f, disp, rfl, hd, rfl, rfl, ht, he⟩

/-- The slots of `perElemKlocalAelem` after `k` passes of the element loop: slot `i < k`
holds the product of the local stiffness and the transform of element `i`. -/
theorem elemLoop_perElem (sqrt : K → K) (job : Job K) (self : GlobalStiffAssembler K)
    (hK : KlocalClean self.Klocal) (hA : BlockClean self.Aelem) :
    ∀ k a ts, elemLoop sqrt job (self.resized job) [] k = some (a, ts) →
      a.perElemKlocalAelem.length = job.elems.length ∧
      ∀ i, i < k → ∃ (p : Props K) (e : Elem) (n1 n2 : Node K),
        job.props[i]? = some p ∧ job.elems[i]? = some e ∧
        nodeAt job e.1 = some n1 ∧ nodeAt job e.2 = some n2 ∧
        a.perElemKlocalAelem[i]? =
          some (klocalOf 0 p (norm sqrt n1 n2) * blockDiagonal4 (rotationOf sqrt n1 n2 p)) := by
  intro k
  induction k with
  | zero =>
    intro a ts h
    simp only [elemLoop, Option.some.injEq, Prod.mk.injEq] at h
    obtain ⟨rfl, rfl⟩ := h
    exact ⟨by simp [GlobalStiffAssembler.resized, resizeMats_length],
      fun i hi => absurd hi (Nat.not_lt_zero i)⟩
  | succ k ih =>
    intro a ts h
    obtain ⟨a0, t0, e, hprev, hc, he, -⟩ := elemLoop_succ_eq h
    obtain ⟨hlen, hslots⟩ := ih a0 t0 hprev
    obtain ⟨-, hK0, hA0⟩ := elemLoop_invariant sqrt job (fun _ => True) (self.resized job) []
      hK hA trivial (fun _ _ _ _ _ _ _ _ _ _ _ => trivial) k a0 t0 hprev
    obtain ⟨p, e', n1, n2, hp, he', hn1, hn2, hk, hKl, hAe, -, -, hper⟩ := calcKelem_eq_some hc
    rw [hKl, hAe, klocalOf_of_clean _ hK0, calcAelem_of_clean _ hA0] at hper
    refine ⟨by rw [hper, List.length_set, hlen], fun i hi => ?_⟩
    by_cases hik : i = k
    · subst hik
      refine ⟨p, e', n1, n2, hp, he', hn1, hn2, ?_⟩
      rw [hper, List.getElem?_set_self hk]
    · obtain ⟨p', e2, m1, m2, hp', he2, hm1, hm2, hslot⟩ := hslots i (by omega)
      refine ⟨p', e2, m1, m2, hp', he2, hm1, hm2, ?_⟩
      rw [hper, List.getElem?_set_ne (fun h => hik h.symm)]
      exact hslot

theorem elemDisps_eq_some {table : List (List K)} {n0 n1 : Nat} {d : Fin 12 → K}
    (h : elemDisps table n0 n1 = some d) : d = elementDisplacements table n0 n1 := by
  unfold elemDisps at h
  split_ifs at h with hall
  simp only [Option.some.injEq] at h
  subst h
  funext i
  have hi := hall i
  unfold elementDisplacements
  unfold elemDispsAt at hi ⊢
  by_cases h6 : i.val < 6
  · simp only [h6, if_true] at hi ⊢
    obtain ⟨v, hv⟩ := Option.isSome_iff_exists.mp hi
    simp [hv]
  · simp only [h6, if_false] at hi ⊢
    obtain ⟨v, hv⟩ := Option.isSome_iff_exists.mp hi
    simp [hv]

theorem sizeIndex_eq_some {nn : Int} {n : Nat} (h : sizeIndex nn = some n) : nn = (n : Int) := by
  unfold sizeIndex at h
  split_ifs at h with h0
  simp only [Option.some.injEq] at h
  omega

/-- The rows of the table that the element force loop of `solve` returns. -/
theorem elementForces_eq_some {job : Job K} {perElem : List (LocalMatrix K)}
    {table ef : List (List K)} (h : elementForces job perElem table = some ef) :
    ef.length = job.elems.length ∧
    ∀ i, i < job.elems.length → ∃ (node0 node1 : Nat) (M : LocalMatrix K),
      job.elems[i]? = some ((node0 : Int), (node1 : Int)) ∧ perElem[i]? = some M ∧
      ef[i]? = some (elementForceRow M (elementDisplacements table node0 node1)) := by
  unfold elementForces at h
  rw [allSome_eq_some] at h
  have hlen : ef.length = job.elems.length := by
    have := congrArg List.length h
    simpa using this.symm
  refine ⟨hlen, fun i hi => ?_⟩
  have hi' := congrArg (fun l => l[i]?) h
  simp only [List.getElem?_map, List.getElem?_range hi, Option.map_some'] at hi'
  have hef : ef[i]? = some ef[i] := List.getElem?_eq_getElem (by omega)
  rw [hef] at hi'
  simp only [Option.map_some'] at hi'
  cases he : job.elems[i]? with
  | none => simp [he] at hi'
  | some e =>
    cases hM : perElem[i]? with
    | none => simp [he, hM] at hi'
    | some M =>
      simp only [he, hM] at hi'
      cases h0 : sizeIndex e.1 with
      | none => simp [h0] at hi'
      | some node0 =>
        cases h1 : sizeIndex e.2 with
        | none => simp [h0, h1] at hi'
        | some node1 =>
          simp only [h0, h1] at hi'
          cases hd : elemDisps table node0 node1 with
          | none => simp [hd] at hi'
          | some d =>
            simp only [hd, Option.some.injEq] at hi'
            refine ⟨node0, node1, M, ?_, rfl, ?_⟩
            · rw [← sizeIndex_eq_some h0, ← sizeIndex_eq_some h1]
            · rw [hef, ← hi', elemDisps_eq_some hd]

theorem elemDisps_isSome (table : List (List K)) (n0 n1 : Nat) (h0 : n0 < table.length)
    (h1 : n1 < table.length) (hrow : ∀ row ∈ table, row.length = 6) :
    ∃ d, elemDisps table n0 n1 = some d := by
  unfold elemDisps
  have hall : ∀ i : Fin 12, (elemDispsAt table n0 n1 i).isSome := by
    intro i
    have hi := i.isLt
    unfold elemDispsAt
    by_cases h6 : i.val < 6
    · rw [if_pos h6, tableAt_isSome table n0 i.val h0 hrow h6]; rfl
    · rw [if_neg h6, tableAt_isSome table n1 (i.val - 6) h1 hrow (by omega)]; rfl
  rw [dif_pos hall]
  exact ⟨_, rfl⟩

theorem elementForces_isSome (job : Job K) (perElem : List (LocalMatrix K))
    (table : List (List K)) (hv : ValidElems job) (hp : perElem.length = job.elems.length)
    (ht : table.length = job.nodes.length) (hrow : ∀ row ∈ table, row.length = 6) :
    ∃ ef, elementForces job perElem table = some ef := by
  unfold elementForces
  have key : ∀ i ∈ List.range job.elems.length, ∃ row,
      (match job.elems[i]?, perElem[i]? with
      | some e, some KlocalAelem =>
        match sizeIndex e.1, sizeIndex e.2 with
        | some nodeIndex0, some nodeIndex1 =>
          match elemDisps table nodeIndex0 nodeIndex1 with
          | some d => some (elementForceRow KlocalAelem d)
          | none => none
        | _, _ => none
      | _, _ => none) = some row := by
    intro i hi
    have hi' : i < job.elems.length := List.mem_range.mp hi
    have he : job.elems[i]? = some job.elems[i] := List.getElem?_eq_getElem hi'
    have hM : perElem[i]? = some perElem[i] := List.getElem?_eq_getElem (by omega)
    obtain ⟨b1, b2, b3, b4⟩ := hv.2 _ (List.getElem_mem hi')
    have s0 : sizeIndex (job.elems[i]).1 = some (job.elems[i]).1.toNat := by
      unfold sizeIndex; rw [if_pos b1]
    have s1 : sizeIndex (job.elems[i]).2 = some (job.elems[i]).2.toNat := by
      unfold sizeIndex; rw [if_pos b3]
    obtain ⟨d, hd⟩ := elemDisps_isSome table (job.elems[i]).1.toNat (job.elems[i]).2.toNat
      (by omega) (by omega) hrow
    exact ⟨elementForceRow perElem[i] d, by simp only [he, hM, s0, s1, hd]⟩
  choose! g hg using key
  exact ⟨_, allSome_map _ _ g hg⟩

/-- The run of `solve` returns a summary when the system is built from well-formed input
and the solver returns a vector. -/
theorem solve_isSome {sqrt : K → K} {solver : SparseMat K → SparseMat K → Option (Nat → K)}
    {job : Job K} {BCs : List (BC K)} {forces : List (Force K)} {ties : List (Tie K)}
    {equations : List (Equation K)} {a : GlobalStiffAssembler K} {Kg f : SparseMat K}
    {disp : Nat → K} (epsilon : K)
    (hw : WellFormed job BCs forces ties equations)
    (h : augmentedSystem sqrt job BCs forces ties equations = some (a, Kg, f))
    (hd : solver (prunedKg Kg) f = some disp) :
    ∃ summary, solve sqrt solver job BCs forces ties equations epsilon = some summary := by
  obtain ⟨hsize, hv, hties, -, -, -⟩ := hw
  obtain ⟨Kg1, ts, -, hl, -⟩ := augmentedSystem_spec h hsize hties
  have hper := (elemLoop_perElem sqrt job GlobalStiffAssembler.init klocalClean_zero
    blockClean_zero _ a ts hl).1
  obtain ⟨ef, hef⟩ := elementForces_isSome job a.perElemKlocalAelem
    (disp_vec epsilon disp job.nodes.length) hv hper (disp_vec_length _ _ _)
    (disp_vec_rows _ _ _)
  have htf : ∃ tf, (if ties.length > 0 then
      computeTieForces ties (disp_vec epsilon disp job.nodes.length) else some []) = some tf := by
    split_ifs
    · exact ⟨_, computeTieForces_eq ties _ (fun tie htie => by
        rw [disp_vec_length]; exact hties tie htie) (disp_vec_rows _ _ _)⟩
    · exact ⟨_, rfl⟩
  obtain ⟨tf, htf⟩ := htf
  unfold solve
  simp only [h, hd, htf, hef]
  exact ⟨_, rfl⟩

/-- The run of `solve` on the cantilever of `cantilever_solved` returns a summary. -/
theorem cantilever_run (epsilon : ℚ) :
    ∃ summary, solve Rat.sqrt cantileverSolver (cantileverJob 2 3 7 5 11) fixedEnd
      [{ node := 1, dof := 0, value := 9 }] [] [] epsilon = some summary := by
  obtain ⟨a, Kg, f, h, -⟩ := cantilever_solved
  exact solve_isSome epsilon
    (cantilever_wellFormed 2 3 7 5 11 9 fixedEnd fixedEnd_fixed (by decide)) h rfl

/-- Claim C11: in a run of `solve` that returns a summary, `element_forces` has one row per
element, and the row of element `e` with the nodes `(node0, node1)` holds the 12 values of
`v = (Klocal_e * Aelem_e) * d`, where `Klocal_e` and `Aelem_e` are the local stiffness and the
block-diagonal transform of element `e` and `d` is the vector of the six reported
displacements of `node0` followed by the six of `node1`: the entries 0..5 are `-v[j]`, the
entries 6..11 are `+v[j]`. -/
theorem element_forces_formula (sqrt : K → K)
    (solver : SparseMat K → SparseMat K → Option (Nat → K)) (job : Job K) (BCs : List (BC K))
    (forces : List (Force K)) (ties : List (Tie K)) (equations : List (Equation K))
    (epsilon : K) (summary : Summary K)
    (h : solve sqrt solver job BCs forces ties equations epsilon = some summary) :
    summary.element_forces.length = job.elems.length ∧
    ∀ e, e < job.elems.length →
      ∃ (node0 node1 : Nat) (p : Props K) (n0 n1 : Node K),
        job.elems[e]? = some ((node0 : Int), (node1 : Int)) ∧ job.props[e]? = some p ∧
        nodeAt job node0 = some n0 ∧ nodeAt job node1 = some n1 ∧
        summary.element_forces[e]? = some ((List.finRange 12).map fun j =>
          if j.val < 6 then
            -((klocalOf 0 p (norm sqrt n0 n1) * blockDiagonal4 (rotationOf sqrt n0 n1 p)).mulVec
              (elementDisplacements summary.nodal_displacements node0 node1)) j
          else
            ((klocalOf 0 p (norm sqrt n0 n1) * blockDiagonal4 (rotationOf sqrt n0 n1 p)).mulVec
              (elementDisplacements summary.nodal_displacements node0 node1)) j) := by
  obtain ⟨a, Kg, f, disp, hs, -, -, -, -, hef⟩ := solve_eq_some h
  obtain ⟨Kg1, ha, -, -⟩ := augmentedSystem_eq_some hs
  obtain ⟨ts, hl, -⟩ := assemble_eq_some ha
  obtain ⟨-, hslots⟩ := elemLoop_perElem sqrt job GlobalStiffAssembler.init klocalClean_zero
    blockClean_zero _ a ts hl
  obtain ⟨hlen, hrows⟩ := elementForces_eq_some hef
  refine ⟨hlen, fun e he => ?_⟩
  obtain ⟨node0, node1, M, hel, hM, hrow⟩ := hrows e he
  obtain ⟨p, e', n0, n1, hp, hel', hn0, hn1, hslot⟩ := hslots e he
  rw [hel] at hel'
  simp only [Option.some.injEq] at hel'
  subst hel'
  rw [hM] at hslot
  simp only [Option.some.injEq] at hslot
  subst hslot
  exact ⟨node0, node1, p, n0, n1, hel, hp, hn0, hn1, hrow⟩

theorem element_forces_formula_witness :
    ∃ summary : Summary ℚ,
      solve Rat.sqrt cantileverSolver (cantileverJob 2 3 7 5 11) fixedEnd
        [{ node := 1, dof := 0, value := 9 }] [] [] (1 / 10 ^ 9) = some summary ∧
      summary.element_forces.length = 1 ∧
      ∃ (node0 node1 : Nat) (p : Props ℚ) (n0 n1 : Node ℚ),
        (cantileverJob (2 : ℚ) 3 7 5 11).elems[0]? = some ((node0 : Int), (node1 : Int)) ∧
        (cantileverJob (2 : ℚ) 3 7 5 11).props[0]? = some p ∧
        nodeAt (cantileverJob 2 3 7 5 11) node0 = some n0 ∧
        nodeAt (cantileverJob 2 3 7 5 11) node1 = some n1 ∧
        summary.element_forces[0]? = some ((List.finRange 12).map fun j =>
          if j.val < 6 then
            -((klocalOf 0 p (norm Rat.sqrt n0 n1) *
                blockDiagonal4 (rotationOf Rat.sqrt n0 n1 p)).mulVec
              (elementDisplacements summary.nodal_displacements node0 node1)) j
          else
            ((klocalOf 0 p (norm Rat.sqrt n0 n1) *
                blockDiagonal4 (rotationOf Rat.sqrt n0 n1 p)).mulVec
              (elementDisplacements summary.nodal_displacements node0 node1)) j) := by
  obtain ⟨summary, h⟩ := cantilever_run (1 / 10 ^ 9)
  obtain ⟨hlen, hrows⟩ := element_forces_formula Rat.sqrt cantileverSolver _ _ _ _ _ _ summary h
  exact ⟨summary, h, hlen, hrows 0 (by decide)⟩

/-- Claim C12: for every list of ties and every table of nodal displacements (one 6-tuple
per node) that holds the nodes of the ties, `computeTieForces` returns one 6-tuple per tie,
with entry `[i][j] = k * (d[node_b][j] - d[node_a][j])`, where `k = lmult` for `j < 3` and
`k = rmult` for `j >= 3`. -/
theorem tie_forces_formula (ties : List (Tie K)) (nodal_displacements : List (List K))
    (hties : ∀ tie ∈ ties, tie.node_number_1 < nodal_displacements.length ∧
      tie.node_number_2 < nodal_displacements.length)
    (hrow : ∀ row ∈ nodal_displacements, row.length = 6) :
    ∃ tie_forces, computeTieForces ties nodal_displacements = some tie_forces ∧
      tie_forces.length = ties.length ∧
      (∀ row ∈ tie_forces, row.length = 6) ∧
      ∀ i tie, ties[i]? = some tie → ∀ j, j < 6 →
        tableAt tie_forces i j =
          some ((if j < 3 then tie.lmult else tie.rmult) *
            (tableEntry nodal_displacements tie.node_number_2 j -
              tableEntry nodal_displacements tie.node_number_1 j)) := by
  refine ⟨_, computeTieForces_eq ties nodal_displacements hties hrow, by simp, ?_, ?_⟩
  · intro row hrow'
    simp only [List.mem_map] at hrow'
    obtain ⟨tie, -, rfl⟩ := hrow'
    simp
  · intro i tie hi j hj
    have hi' : (ties.map fun tie => (List.range 6).map fun j =>
        tieConstant tie j * (tableEntry nodal_displacements tie.node_number_2 j -
          tableEntry nodal_displacements tie.node_number_1 j))[i]? =
        some ((List.range 6).map fun j =>
          tieConstant tie j * (tableEntry nodal_displacements tie.node_number_2 j -
            tableEntry nodal_displacements tie.node_number_1 j)) := by
      rw [List.getElem?_map, hi]; rfl
    refine tableAt_eq_some hi' ?_
    rw [List.getElem?_map, List.getElem?_range hj]; rfl

theorem tie_forces_formula_witness :
    (∀ tie ∈ exampleTies, tie.node_number_1 < exampleTable.length ∧
      tie.node_number_2 < exampleTable.length) ∧
    ∃ tie_forces, computeTieForces exampleTies exampleTable = some tie_forces ∧
      tableAt tie_forces 0 0 = some ((if 0 < 3 then (100 : ℚ) else 1000) *
        (tableEntry exampleTable 1 0 - tableEntry exampleTable 0 0)) := by
  have hties : ∀ tie ∈ exampleTies, tie.node_number_1 < exampleTable.length ∧
      tie.node_number_2 < exampleTable.length := by
    intro tie htie
    simp only [exampleTies, List.mem_singleton] at htie
    subst htie
    simp [exampleTable]
  obtain ⟨tf, h, -, -, hentry⟩ := tie_forces_formula exampleTies exampleTable hties
    (by intro row hrow; simp only [exampleTable, List.mem_cons, List.mem_singleton,
          List.not_mem_nil, or_false] at hrow; rcases hrow with rfl | rfl <;> rfl)
  exact ⟨hties, tf, h, hentry 0 _ rfl 0 (by decide)⟩

/-- Claim C13: in a run of `solve` that returns a summary, for every `epsilon`,
`nodal_displacements` and `nodal_forces` each hold one 6-tuple per node; entry `[i][j]` is 0
when the magnitude of the computed value at global index `6 * i + j` (the solver's result, and
the product of the stiffness block with it) is below `epsilon`, and the computed value
unchanged otherwise; so every reported entry is zero or of magnitude at least `epsilon`. -/
theorem nodal_tables_rounded (sqrt : K → K)
    (solver : SparseMat K → SparseMat K → Option (Nat → K)) (job : Job K) (BCs : List (BC K))
    (forces : List (Force K)) (ties : List (Tie K)) (equations : List (Equation K))
    (epsilon : K) (summary : Summary K)
    (h : solve sqrt solver job BCs forces ties equations epsilon = some summary) :
    ∃ (a : GlobalStiffAssembler K) (Kg f : SparseMat K) (disp : Nat → K),
      augmentedSystem sqrt job BCs forces ties equations = some (a, Kg, f) ∧
      solver (prunedKg Kg) f = some disp ∧
      summary.nodal_displacements.length = job.nodes.length ∧
      summary.nodal_forces.length = job.nodes.length ∧
      (∀ row ∈ summary.nodal_displacements, row.length = 6) ∧
      (∀ row ∈ summary.nodal_forces, row.length = 6) ∧
      (∀ i j, i < job.nodes.length → j < 6 →
        tableAt summary.nodal_displacements i j =
          some (if |disp (6 * i + j)| < epsilon then 0 else disp (6 * i + j))) ∧
      (∀ i j, i < job.nodes.length → j < 6 →
        tableAt summary.nodal_forces i j =
          some (if |mulVecAt (nodalForceMatrix Kg job) disp (6 * i + j)| < epsilon then 0
            else mulVecAt (nodalForceMatrix Kg job) disp (6 * i + j))) ∧
      (∀ i j v, tableAt summary.nodal_displacements i j = some v → v = 0 ∨ epsilon ≤ |v|) ∧
      (∀ i j v, tableAt summary.nodal_forces i j = some v → v = 0 ∨ epsilon ≤ |v|) := by
  obtain ⟨a, Kg, f, disp, hs, hd, hnd, hnf, -, -⟩ := solve_eq_some h
  rw [nodal_forces_vec_eq] at hnf
  refine ⟨a, Kg, f, disp, hs, hd, ?_, ?_, ?_, ?_, ?_, ?_, ?_, ?_⟩
  · rw [hnd, disp_vec_length]
  · rw [hnf, disp_vec_length]
  · rw [hnd]; exact disp_vec_rows _ _ _
  · rw [hnf]; exact disp_vec_rows _ _ _
  · intro i j hi hj
    rw [hnd]; exact tableAt_disp_vec _ _ _ i j hi hj
  · intro i j hi hj
    rw [hnf]; exact tableAt_disp_vec _ _ _ i j hi hj
  · intro i j v hv
    rw [hnd] at hv
    obtain ⟨-, -, rfl⟩ := tableAt_disp_vec_eq _ _ _ i j v hv
    exact rounded_zero_or_large _ _
  · intro i j v hv
    rw [hnf] at hv
    obtain ⟨-, -, rfl⟩ := tableAt_disp_vec_eq _ _ _ i j v hv
    exact rounded_zero_or_large _ _

theorem nodal_tables_rounded_witness :
    ∃ summary : Summary ℚ,
      solve Rat.sqrt cantileverSolver (cantileverJob 2 3 7 5 11) fixedEnd
        [{ node := 1, dof := 0, value := 9 }] [] [] (1 / 10 ^ 9) = some summary ∧
      summary.nodal_displacements.length = 2 ∧
      tableAt summary.nodal_displacements 1 0 = some 6 := by
  obtain ⟨summary, h⟩ := cantilever_run (1 / 10 ^ 9)
  obtain ⟨a, Kg, f, disp, -, hd, hlen, -, -, -, hentry, -⟩ :=
    nodal_tables_rounded Rat.sqrt cantileverSolver _ _ _ _ _ _ summary h
  simp only [cantileverSolver, Option.some.injEq] at hd
  subst hd
  refine ⟨summary, h, hlen, ?_⟩
  rw [hentry 1 0 (by decide) (by decide)]
  norm_num [cantileverSolution, abs_of_pos]

/-- Claim C20: after `operator()` has run on a job with `n` elements, from an assembler whose
buffers `Klocal` and `Aelem` hold zero outside the positions that `calcKelem` writes (as
they do after construction and after every run), `perElemKlocalAelem` has exactly `n`
entries, and entry `i` is `Klocal_i * Aelem_i`, with `Klocal_i` the local stiffness written
from the properties and the length of element `i` into a zero matrix and
`Aelem_i = blockdiag(R_i, R_i, R_i, R_i)`: nothing of an earlier element is left in it. -/
theorem per_element_products (sqrt : K → K) (self a : GlobalStiffAssembler K)
    (Kg0 Kg : SparseMat K) (job : Job K) (ties : List (Tie K))
    (hK : KlocalClean self.Klocal) (hA : BlockClean self.Aelem)
    (h : self.assemble sqrt Kg0 job ties = some (a, Kg)) :
    a.perElemKlocalAelem.length = job.elems.length ∧
    (∀ i, i < job.elems.length → ∃ (p : Props K) (e : Elem) (n1 n2 : Node K),
      job.props[i]? = some p ∧ job.elems[i]? = some e ∧
      nodeAt job e.1 = some n1 ∧ nodeAt job e.2 = some n2 ∧
      a.perElemKlocalAelem[i]? =
        some (klocalOf 0 p (norm sqrt n1 n2) * blockDiagonal4 (rotationOf sqrt n1 n2 p))) ∧
    KlocalClean a.Klocal ∧ BlockClean a.Aelem := by
  obtain ⟨ts, hl, -⟩ := assemble_eq_some h
  obtain ⟨hlen, hslots⟩ := elemLoop_perElem sqrt job self hK hA _ a ts hl
  obtain ⟨-, hK1, hA1⟩ := elemLoop_invariant sqrt job (fun _ => True) (self.resized job) []
    hK hA trivial (fun _ _ _ _ _ _ _ _ _ _ _ => trivial) _ a ts hl
  exact ⟨hlen, hslots, hK1, hA1⟩

theorem per_element_products_witness :
    ∃ (a : GlobalStiffAssembler ℚ) (Kg : SparseMat ℚ),
      GlobalStiffAssembler.init.assemble Rat.sqrt (SparseMat.empty 12 12) exampleJob exampleTies
        = some (a, Kg) ∧
      a.perElemKlocalAelem.length = 1 ∧
      ∃ (p : Props ℚ) (e : Elem) (n1 n2 : Node ℚ),
        exampleJob.props[0]? = some p ∧ exampleJob.elems[0]? = some e ∧
        nodeAt exampleJob e.1 = some n1 ∧ nodeAt exampleJob e.2 = some n2 ∧
        a.perElemKlocalAelem[0]? =
          some (klocalOf 0 p (norm Rat.sqrt n1 n2) *
            blockDiagonal4 (rotationOf Rat.sqrt n1 n2 p)) := by
  obtain ⟨a, Kg, h⟩ := assemble_isSome Rat.sqrt GlobalStiffAssembler.init (SparseMat.empty 12 12)
    exampleJob exampleTies klocalClean_zero blockClean_zero validElems_exampleJob
    validTies_exampleTies (by decide) (by decide) (by decide)
  obtain ⟨hlen, hslots, -⟩ := per_element_products Rat.sqrt GlobalStiffAssembler.init a _ Kg
    exampleJob exampleTies klocalClean_zero blockClean_zero h
  exact ⟨a, Kg, h, hlen, hslots 0 (by decide)⟩

theorem allSome_map_eq_some {α β : Type} {l : List α} {f : α → Option β} {g : α → β}
    {r : List β} (h : allSome (l.map f) = some r)
    (hg : ∀ x ∈ l, ∀ y, f x = some y → y = g x) : r = l.map g := by
  rw [allSome_eq_some] at h
  induction l generalizing r with
  | nil =>
    cases r with
    | nil => rfl
    | cons b t => simp at h
  | cons x rest ih =>
    cases r with
    | nil => simp at h
    | cons b t =>
      simp only [List.map_cons, List.cons.injEq] at h
      rw [List.map_cons, ih h.2 (fun x' hx' => hg x' (List.mem_cons_of_mem _ hx')),
        hg x (List.mem_cons_self _ _) b h.1]

/-- The table that `computeTieForces` returns, whenever it returns one. -/
theorem computeTieForces_eq_some {ties : List (Tie K)} {table tf : List (List K)}
    (h : computeTieForces ties table = some tf) :
    tf = ties.map fun tie => (List.range 6).map fun j =>
      tieConstant tie j * (tableEntry table tie.node_number_2 j -
        tableEntry table tie.node_number_1 j) := by
  unfold computeTieForces at h
  refine allSome_map_eq_some h fun tie _ row hrow => ?_
  refine allSome_map_eq_some hrow fun j _ y hy => ?_
  simp only at hy
  cases h1 : tableAt table tie.node_number_1 j with
  | none => simp [h1] at hy
  | some d1 =>
    cases h2 : tableAt table tie.node_number_2 j with
    | none => simp [h1, h2] at hy
    | some d2 =>
      simp only [h1, h2, Option.some.injEq] at hy
      simp [tableEntry, h1, h2, tieConstant, ← hy]

/-- A solution of a system whose coefficients at the columns it uses are zero or above the
threshold of `Kg.prune(1.e-14)` solves the pruned system too. -/
theorem solves_prunedKg {Kg f : SparseMat K} {x : Nat → K} (hx : Solves Kg f x)
    (hbig : ∀ r c, r < Kg.rows → c < Kg.cols → x c ≠ 0 →
      Kg.coeff r c = 0 ∨ |(1 : K) / 10 ^ 14| * dummy_precision < |Kg.coeff r c|) :
    Solves (prunedKg Kg) f x := by
  intro r hr
  have hr' : r < Kg.rows := hr
  rw [← hx r hr']
  refine Finset.sum_congr rfl fun c hc => ?_
  have hc' : c < Kg.cols := Finset.mem_range.mp hc
  by_cases hxc : x c = 0
  · rw [hxc, mul_zero, mul_zero]
  · unfold prunedKg
    rw [coeff_prune]
    rcases hbig r c hr' hc' hxc with h0 | hlarge
    · rw [h0]; simp
    · rw [if_neg (not_le.mpr hlarge)]

/-- The system of the cantilever under an axial load has the solution with the axial
displacement `F * L / EA` at node 1 and the multiplier `F` at the axial support. -/
theorem cantilever_axial_solves (sqrt : K → K) (hsqrt : ∀ x : K, 0 ≤ x → sqrt (x * x) = x)
    (L EA EIy EIz GJ F : K) (hL : 0 < L) (hEA : EA ≠ 0)
    (a : GlobalStiffAssembler K) (Kg f : SparseMat K)
    (h : augmentedSystem sqrt (cantileverJob L EA EIy EIz GJ) fixedEnd
      [{ node := 1, dof := 0, value := F }] [] [] = some (a, Kg, f)) :
    Solves Kg f fun i => if i = 6 then F * L / EA else if i = 12 then F else 0 := by
  have hcount : (fixedEnd : List (BC K)).length < 2 ^ 30 := by
    simp only [fixedEnd, List.length_cons, List.length_nil]; norm_num
  have hw := cantilever_wellFormed L EA EIy EIz GJ F fixedEnd fixedEnd_fixed hcount
  refine solves_of_rows h hw.1 hw.2.2.1 _ ?_
  intro ts hl r hr
  have hnodes : (cantileverJob L EA EIy EIz GJ).nodes.length = 2 := rfl
  have hlen : (cantileverJob L EA EIy EIz GJ).elems.length = 1 := rfl
  rw [hlen] at hl
  rw [hnodes] at hr ⊢
  rw [cantilever_block_row sqrt hsqrt L EA EIy EIz GJ hL a ts hl]
  have v0 : ((0 : Fin 12) : ℕ) = 0 := rfl
  have v1 : ((1 : Fin 12) : ℕ) = 1 := rfl
  have v2 : ((2 : Fin 12) : ℕ) = 2 := rfl
  have v3 : ((3 : Fin 12) : ℕ) = 3 := rfl
  have v4 : ((4 : Fin 12) : ℕ) = 4 := rfl
  have v5 : ((5 : Fin 12) : ℕ) = 5 := rfl
  have v6 : ((6 : Fin 12) : ℕ) = 6 := rfl
  have v7 : ((7 : Fin 12) : ℕ) = 7 := rfl
  have v8 : ((8 : Fin 12) : ℕ) = 8 := rfl
  have v9 : ((9 : Fin 12) : ℕ) = 9 := rfl
  have v10 : ((10 : Fin 12) : ℕ) = 10 := rfl
  have v11 : ((11 : Fin 12) : ℕ) = 11 := rfl
  have hLne : L ≠ 0 := hL.ne'
  obtain ⟨m0, m1, m2, m3, m4, m5, m6, m7, m8, m9, m10, m11⟩ :=
    stdBeamStiffness_mulVec EA EIy EIz GJ L fun j : Fin 12 =>
      if j.val = 6 then F * L / EA else if j.val = 12 then F else 0
  generalize (stdBeamStiffness EA EIy EIz GJ L).mulVec (fun j : Fin 12 =>
      if j.val = 6 then F * L / EA else if j.val = 12 then F else 0)
    = M at m0 m1 m2 m3 m4 m5 m6 m7 m8 m9 m10 m11 ⊢
  simp only [v0, v1, v2, v3, v4, v5, v6, v7, v8, v9, v10, v11]
    at m0 m1 m2 m3 m4 m5 m6 m7 m8 m9 m10 m11
  norm_num at m0 m1 m2 m3 m4 m5 m6 m7 m8 m9 m10 m11
  have m0' : M 0 = -F := by rw [m0]; field_simp; ring
  have m6' : M 6 = F := by rw [m6]; field_simp; ring
  have hrhs : bcRhs (6 * 2) (fixedEnd : List (BC K)) 0 = [] := by
    simp only [fixedEnd]
    rw [bcRhs_cons_zero _ _ _ _ rfl, bcRhs_cons_zero _ _ _ _ rfl, bcRhs_cons_zero _ _ _ _ rfl,
      bcRhs_cons_zero _ _ _ _ rfl, bcRhs_cons_zero _ _ _ _ rfl, bcRhs_cons_zero _ _ _ _ rfl]
    rfl
  rw [hrhs]
  simp only [sum_univ_twelve, m0', m1, m2, m3, m4, m5, m6', m7, m8, m9, m10, m11, v0, v1, v2, v3,
    v4, v5, v6, v7, v8, v9, v10, v11, fixedEnd, bcEntries, eqEntries, forceEntries,
    rowSum_cons, entrySum_cons, List.map_cons, List.map_nil, List.length_cons, List.length_nil,
    List.nil_append, List.append_nil, u32, NUM_DOFS]
  simp only [rowSum, entrySum, List.map_nil, List.sum_nil]
  replace hr : r < 18 := hr
  interval_cases r <;> norm_num

theorem elementForceRow_getElem (M : LocalMatrix K) (d : Fin 12 → K) (j : Fin 12) :
    (elementForceRow M d)[j.val]? =
      some (if j.val < 6 then -(M.mulVec d) j else (M.mulVec d) j) := by
  unfold elementForceRow
  have hj : j.val < (List.finRange 12).length := by simp
  rw [List.getElem?_map, List.getElem?_eq_getElem hj, List.getElem_finRange]
  rfl

/-- The system of the cantilever of length 2 with `EA = 1` under the axial load 1: the build
returns a system, and `softSolution` solves it, before and after `Kg.prune(1.e-14)`. -/
theorem soft_system :
    ∃ (a : GlobalStiffAssembler ℚ) (Kg f : SparseMat ℚ),
      augmentedSystem Rat.sqrt (cantileverJob 2 1 7 5 11) fixedEnd
        [{ node := 1, dof := 0, value := 1 }] [] [] = some (a, Kg, f) ∧
      Solves Kg f softSolution ∧ Solves (prunedKg Kg) f softSolution := by
  have hw := cantilever_wellFormed (2 : ℚ) 1 7 5 11 1 fixedEnd fixedEnd_fixed (by decide)
  obtain ⟨a, Kg, f, h⟩ := augmentedSystem_isSome Rat.sqrt (cantileverJob 2 1 7 5 11) fixedEnd
    [{ node := 1, dof := 0, value := 1 }] [] [] hw (by simp) (by simp)
  have hx : Solves Kg f softSolution := by
    have := cantilever_axial_solves Rat.sqrt rat_sqrt_sq 2 1 7 5 11 1 (by norm_num)
      (by norm_num) a Kg f h
    have he : (fun i : Nat => if i = 6 then (1 : ℚ) * 2 / 1 else if i = 12 then 1 else 0) =
        softSolution := by
      funext i
      simp only [softSolution]
      norm_num
    rwa [he] at this
  refine ⟨a, Kg, f, h, hx, solves_prunedKg hx ?_⟩
  obtain ⟨Kg1, ts, -, hl, hin, -, -, -, hrows, hcols, hco, -, -⟩ :=
    augmentedSystem_spec h hw.1 hw.2.2.1
  have hnodes : (cantileverJob (2 : ℚ) 1 7 5 11).nodes.length = 2 := rfl
  have hlen : (cantileverJob (2 : ℚ) 1 7 5 11).elems.length = 1 := rfl
  rw [hlen] at hl
  rw [hnodes] at hrows hcols hco hin
  intro r c hr hc hxc
  rw [hrows] at hr
  replace hr : r < 18 := hr
  have hc612 : c = 6 ∨ c = 12 := by
    by_contra hne
    push_neg at hne
    exact hxc (by simp [softSolution, hne.1, hne.2])
  have hent : ∀ c', entrySum (bcEntries (6 * 2) (fixedEnd : List (BC ℚ)) 0 ++
      eqEntries (6 * 2 + (fixedEnd : List (BC ℚ)).length) [] 0) r c' =
      if (r < 6 ∧ c' = 12 + r) ∨ (c' < 6 ∧ r = 12 + c') then 1 else 0 := by
    intro c'
    simp only [fixedEnd, bcEntries, eqEntries, entrySum_cons, List.append_nil, u32, NUM_DOFS]
    simp only [entrySum, List.map_nil, List.sum_nil]
    interval_cases r <;> norm_num <;> split_ifs <;> first | rfl | omega
  rw [hco, hent]
  rcases hc612 with rfl | rfl
  · -- column 6: the axial stiffness of node 1
    have hsum : tripletSum (loadTies ts []) r 6 =
        ∑ c' in Finset.range 12, tripletSum (loadTies ts []) r c' *
          (fun k : Nat => if k = 6 then (1 : ℚ) else 0) c' := by
      simp [Finset.sum_ite_eq]
    rw [hsum, cantilever_block_row Rat.sqrt rat_sqrt_sq 2 1 7 5 11 (by norm_num) a ts hl]
    have v0 : ((0 : Fin 12) : ℕ) = 0 := rfl
    have v1 : ((1 : Fin 12) : ℕ) = 1 := rfl
    have v2 : ((2 : Fin 12) : ℕ) = 2 := rfl
    have v3 : ((3 : Fin 12) : ℕ) = 3 := rfl
    have v4 : ((4 : Fin 12) : ℕ) = 4 := rfl
    have v5 : ((5 : Fin 12) : ℕ) = 5 := rfl
    have v6 : ((6 : Fin 12) : ℕ) = 6 := rfl
    have v7 : ((7 : Fin 12) : ℕ) = 7 := rfl
    have v8 : ((8 : Fin 12) : ℕ) = 8 := rfl
    have v9 : ((9 : Fin 12) : ℕ) = 9 := rfl
    have v10 : ((10 : Fin 12) : ℕ) = 10 := rfl
    have v11 : ((11 : Fin 12) : ℕ) = 11 := rfl
    obtain ⟨m0, m1, m2, m3, m4, m5, m6, m7, m8, m9, m10, m11⟩ :=
      stdBeamStiffness_mulVec (1 : ℚ) 7 5 11 2 fun j : Fin 12 =>
        (fun k : Nat => if k = 6 then (1 : ℚ) else 0) j.val
    generalize (stdBeamStiffness (1 : ℚ) 7 5 11 2).mulVec (fun j : Fin 12 =>
        (fun k : Nat => if k = 6 then (1 : ℚ) else 0) j.val)
      = M at m0 m1 m2 m3 m4 m5 m6 m7 m8 m9 m10 m11 ⊢
    simp only [v0, v1, v2, v3, v4, v5, v6, v7, v8, v9, v10, v11]
      at m0 m1 m2 m3 m4 m5 m6 m7 m8 m9 m10 m11
    norm_num at m0 m1 m2 m3 m4 m5 m6 m7 m8 m9 m10 m11
    simp only [sum_univ_twelve, m0, m1, m2, m3, m4, m5, m6, m7, m8, m9, m10, m11, v0, v1, v2,
      v3, v4, v5, v6, v7, v8, v9, v10, v11]
    interval_cases r <;> norm_num [dummy_precision, abs_of_pos]
  · -- column 12: the multiplier of the axial support
    rw [tripletSum_eq_zero_of_inBlock hin r 12 (Or.inr (by decide))]
    interval_cases r <;> norm_num [dummy_precision, abs_of_pos]

/-- The run of `solve` on the system of `soft_system` with `epsilon = 3/2`: the axial
displacement 2 of node 1 is reported, and the entry 6 of the element forces is 1. -/
theorem soft_run :
    ∃ summary : Summary ℚ,
      solve Rat.sqrt softSolver (cantileverJob 2 1 7 5 11) fixedEnd
        [{ node := 1, dof := 0, value := 1 }] [] [] (3 / 2) = some summary ∧
      tableAt summary.nodal_displacements 1 0 = some 2 ∧
      tableAt summary.element_forces 0 6 = some 1 := by
  obtain ⟨a, Kg, f, hsys, -, -⟩ := soft_system
  have hw := cantilever_wellFormed (2 : ℚ) 1 7 5 11 1 fixedEnd fixedEnd_fixed (by decide)
  obtain ⟨summary, h⟩ := solve_isSome (3 / 2 : ℚ) hw hsys
    (show softSolver (prunedKg Kg) f = some softSolution from rfl)
  obtain ⟨a', Kg', f', disp, hs', hd, hnd, -, -, hef⟩ := solve_eq_some h
  rw [hsys] at hs'
  simp only [Option.some.injEq, Prod.mk.injEq] at hs'
  obtain ⟨rfl, rfl, rfl⟩ := hs'
  simp only [softSolver, Option.some.injEq] at hd
  subst hd
  have hd10 : tableAt summary.nodal_displacements 1 0 = some 2 := by
    rw [hnd, tableAt_disp_vec _ _ _ 1 0 (by decide) (by decide)]
    norm_num [softSolution, abs_of_pos]
  have hd00 : tableAt summary.nodal_displacements 0 0 = some 0 := by
    rw [hnd, tableAt_disp_vec _ _ _ 0 0 (by decide) (by decide)]
    norm_num [softSolution]
  refine ⟨summary, h, hd10, ?_⟩
  -- the slot of the single element
  obtain ⟨Kg1, ha, -, -⟩ := augmentedSystem_eq_some hsys
  obtain ⟨ts, hl, -⟩ := assemble_eq_some ha
  obtain ⟨-, hslots⟩ := elemLoop_perElem Rat.sqrt (cantileverJob 2 1 7 5 11)
    GlobalStiffAssembler.init klocalClean_zero blockClean_zero _ a ts hl
  obtain ⟨p, e, n1, n2, hp, he, hn1, hn2, hslot⟩ := hslots 0 (by decide)
  have hp' : p = { EA := 1, EIz := 5, EIy := 7, GJ := 11, normal_vec := ![0, 1, 0] } := by
    simpa [cantileverJob] using hp.symm
  have he' : e = (0, 1) := by simpa [cantileverJob] using he.symm
  subst hp' he'
  have hn1' : n1 = ![0, 0, 0] := by simpa [cantileverJob, nodeAt] using hn1.symm
  have hn2' : n2 = ![2, 0, 0] := by simpa [cantileverJob, nodeAt] using hn2.symm
  subst hn1' hn2'
  rw [klocalOf_zero_eq, norm_axis Rat.sqrt rat_sqrt_sq 2 (by norm_num),
    rotationOf_axis Rat.sqrt rat_sqrt_sq 2 (by norm_num) _ rfl, blockDiagonal4_one,
    mul_one] at hslot
  obtain ⟨-, hrows⟩ := elementForces_eq_some hef
  obtain ⟨node0, node1, M, hel, hM, hrow⟩ := hrows 0 (by decide)
  have hnodes : node0 = 0 ∧ node1 = 1 := by
    have : ((node0 : Int), (node1 : Int)) = (0, 1) := by
      simpa [cantileverJob] using hel.symm
    simp only [Prod.mk.injEq] at this
    omega
  obtain ⟨rfl, rfl⟩ := hnodes
  rw [hslot] at hM
  simp only [Option.some.injEq] at hM
  subst hM
  refine tableAt_eq_some hrow ?_
  have := elementForceRow_getElem (stdBeamStiffness (1 : ℚ) 7 5 11 2)
    (elementDisplacements summary.nodal_displacements 0 1) 6
  have v6 : ((6 : Fin 12) : ℕ) = 6 := rfl
  rw [v6] at this
  rw [this]
  obtain ⟨-, -, -, -, -, -, m6, -⟩ := stdBeamStiffness_mulVec (1 : ℚ) 7 5 11 2
    (elementDisplacements summary.nodal_displacements 0 1)
  rw [m6]
  have e0 : elementDisplacements summary.nodal_displacements 0 1 0 = 0 := by
    simp [elementDisplacements, hd00]
  have e6 : elementDisplacements summary.nodal_displacements 0 1 6 = 2 := by
    have v6' : ((6 : Fin 12) : ℕ) = 6 := rfl
    simp [elementDisplacements, v6', hd10]
  rw [e0, e6]
  norm_num

/-- Claim C14, amended: in a run of `solve` that returns a summary, every reported nodal
force and nodal displacement is zero or of magnitude at least `epsilon`; the entries of
`tie_forces` and `element_forces` are reported as computed, without rounding:
`tie_forces[i][j] = k * (d[node_b][j] - d[node_a][j])` and `element_forces[e]` is the row of
`perElemKlocalAelem[e] * elemDisps` with its first six entries negated. -/
theorem only_nodal_tables_rounded (sqrt : K → K)
    (solver : SparseMat K → SparseMat K → Option (Nat → K)) (job : Job K) (BCs : List (BC K))
    (forces : List (Force K)) (ties : List (Tie K)) (equations : List (Equation K))
    (epsilon : K) (summary : Summary K)
    (h : solve sqrt solver job BCs forces ties equations epsilon = some summary) :
    (∀ i j v, tableAt summary.nodal_forces i j = some v → v = 0 ∨ epsilon ≤ |v|) ∧
    (∀ i j v, tableAt summary.nodal_displacements i j = some v → v = 0 ∨ epsilon ≤ |v|) ∧
    summary.tie_forces = (ties.map fun tie => (List.range 6).map fun j =>
      (if j < 3 then tie.lmult else tie.rmult) *
        (tableEntry summary.nodal_displacements tie.node_number_2 j -
          tableEntry summary.nodal_displacements tie.node_number_1 j)) ∧
    ∃ (a : GlobalStiffAssembler K) (Kg f : SparseMat K),
      augmentedSystem sqrt job BCs forces ties equations = some (a, Kg, f) ∧
      ∀ e, e < job.elems.length → ∃ (node0 node1 : Nat) (M : LocalMatrix K),
        job.elems[e]? = some ((node0 : Int), (node1 : Int)) ∧
        a.perElemKlocalAelem[e]? = some M ∧
        summary.element_forces[e]? = some ((List.finRange 12).map fun j =>
          if j.val < 6 then
            -(M.mulVec (elementDisplacements summary.nodal_displacements node0 node1)) j
          else (M.mulVec (elementDisplacements summary.nodal_displacements node0 node1)) j) := by
  obtain ⟨a, Kg, f, disp, hs, -, hnd, hnf, htf, hef⟩ := solve_eq_some h
  rw [nodal_forces_vec_eq] at hnf
  refine ⟨?_, ?_, ?_, a, Kg, f, hs, (elementForces_eq_some hef).2⟩
  · intro i j v hv
    rw [hnf] at hv
    obtain ⟨-, -, rfl⟩ := tableAt_disp_vec_eq _ _ _ i j v hv
    exact rounded_zero_or_large _ _
  · intro i j v hv
    rw [hnd] at hv
    obtain ⟨-, -, rfl⟩ := tableAt_disp_vec_eq _ _ _ i j v hv
    exact rounded_zero_or_large _ _
  · by_cases hpos : ties.length > 0
    · rw [if_pos hpos] at htf
      exact computeTieForces_eq_some htf
    · rw [if_neg hpos] at htf
      have : ties = [] := List.length_eq_zero.mp (by omega)
      subst this
      simp only [Option.some.injEq] at htf
      rw [← htf]
      rfl

theorem only_nodal_tables_rounded_witness :
    ∃ summary : Summary ℚ,
      solve Rat.sqrt cantileverSolver (cantileverJob 2 3 7 5 11) fixedEnd
        [{ node := 1, dof := 0, value := 9 }] [] [] (1 / 10 ^ 9) = some summary ∧
      summary.tie_forces = [] := by
  obtain ⟨summary, h⟩ := cantilever_run (1 / 10 ^ 9)
  exact ⟨summary, h,
    (only_nodal_tables_rounded Rat.sqrt cantileverSolver _ _ _ _ _ _ summary h).2.2.1⟩

/-- Claim C14 as stated fails: for the cantilever of length 2 with `EA = 1` under the axial
load 1 and `epsilon = 3/2`, the solver's result `softSolution` solves the pruned system, the
run returns a summary, and the entry 6 of the element forces is reported as 1, which is not
zero and is below `epsilon`. -/
theorem element_force_below_epsilon_reported :
    ∃ (a : GlobalStiffAssembler ℚ) (Kg f : SparseMat ℚ) (summary : Summary ℚ),
      augmentedSystem Rat.sqrt (cantileverJob 2 1 7 5 11) fixedEnd
        [{ node := 1, dof := 0, value := 1 }] [] [] = some (a, Kg, f) ∧
      Solves (prunedKg Kg) f softSolution ∧
      solve Rat.sqrt softSolver (cantileverJob 2 1 7 5 11) fixedEnd
        [{ node := 1, dof := 0, value := 1 }] [] [] (3 / 2) = some summary ∧
      tableAt summary.element_forces 0 6 = some 1 ∧
      |(1 : ℚ)| < 3 / 2 ∧ (1 : ℚ) ≠ 0 := by
  obtain ⟨a, Kg, f, hsys, -, hx⟩ := soft_system
  obtain ⟨summary, h, -, hef⟩ := soft_run
  exact ⟨a, Kg, f, summary, hsys, hx, h, hef, by norm_num [abs_of_pos], by norm_num⟩

theorem insertAll_nodup {l : List (Nat × Nat × K)} {m m1 : SparseMat K}
    (h : insertAll m l = some m1) :
    (l.map fun e => (e.1, e.2.1)).Nodup ∧ ∀ e ∈ l, m.stored e.1 e.2.1 = none := by
  induction l generalizing m with
  | nil => simp
  | cons e rest ih =>
    simp only [insertAll] at h
    cases hi : m.insert e.1 e.2.1 e.2.2 with
    | none => simp [hi] at h
    | some m2 =>
      simp only [hi] at h
      obtain ⟨-, -, hnone, -, -, hst⟩ := insert_eq_some hi
      obtain ⟨hnd, hfree⟩ := ih h
      have hne : ∀ e' ∈ rest, ¬(e'.1 = e.1 ∧ e'.2.1 = e.2.1) := by
        intro e' he' hpos
        have := hfree e' he'
        rw [hst, if_pos hpos] at this
        simp at this
      refine ⟨?_, ?_⟩
      · simp only [List.map_cons, List.nodup_cons, List.mem_map, not_exists, not_and]
        refine ⟨fun e' he' heq => hne e' he' ?_, hnd⟩
        simp only [Prod.mk.injEq] at heq
        exact heq
      · intro e' he'
        rcases List.mem_cons.mp he' with rfl | he'
        · exact hnone
        · have := hfree e' he'
          rw [hst, if_neg (hne e' he')] at this
          exact this

theorem entrySum_forceEntries (forces : List (Force K)) (n r : Nat)
    (hn : NUM_DOFS * n < 2 ^ 31) (hfo : ∀ fo ∈ forces, fo.node < n ∧ fo.dof < 6) :
    entrySum (forceEntries forces) r 0 =
      (forces.map fun fo => if 6 * fo.node + fo.dof = r then fo.value else 0).sum := by
  unfold entrySum forceEntries
  rw [List.map_map]
  refine congrArg List.sum (List.map_congr_left fun fo hfo' => ?_)
  have := (u32_dof n fo.node fo.dof hn (hfo fo hfo').1 (hfo fo hfo').2).1
  simp only [Function.comp, this, and_true]

/-- Claim C19, amended: `loadForces` inserts each force once.  For forces with in-range nodes
and degrees of freedom, run on a force vector that holds nothing in the rows below
`6 * |nodes|`: when the forces lie on pairwise distinct degrees of freedom, `loadForces`
returns a force vector whose entry at `r < 6 * |nodes|` is the sum of the values of the
records with `6 * node + dof = r` (one record at most), zero where no force is given; when two
records lie on the same degree of freedom, `loadForces` does not return one: the second
`insert` meets the entry of the first. -/
theorem forces_inserted_once (forces : List (Force K)) (force_vec : SparseMat K) (n : Nat)
    (hn : NUM_DOFS * n < 2 ^ 31) (hrows : 6 * n ≤ force_vec.rows) (hcols : force_vec.cols = 1)
    (hfree : ∀ r, r < 6 * n → force_vec.stored r 0 = none)
    (hfo : ∀ fo ∈ forces, fo.node < n ∧ fo.dof < 6) :
    ((forces.map fun fo => 6 * fo.node + fo.dof).Nodup →
      ∃ fv, loadForces force_vec forces = some fv ∧
        ∀ r, r < 6 * n → fv.coeff r 0 =
          (forces.map fun fo => if 6 * fo.node + fo.dof = r then fo.value else 0).sum) ∧
    (¬(forces.map fun fo => 6 * fo.node + fo.dof).Nodup →
      loadForces force_vec forces = none) := by
  have hidx : ∀ fo ∈ forces, u32 (u32 (NUM_DOFS * fo.node) + fo.dof) = 6 * fo.node + fo.dof ∧
      6 * fo.node + fo.dof < 6 * n :=
    fun fo hfo' => u32_dof n fo.node fo.dof hn (hfo fo hfo').1 (hfo fo hfo').2
  have hpos : (forceEntries forces).map (fun e => (e.1, e.2.1)) =
      (forces.map fun fo => 6 * fo.node + fo.dof).map fun i => (i, 0) := by
    unfold forceEntries
    rw [List.map_map, List.map_map]
    refine List.map_congr_left fun fo hfo' => ?_
    simp only [Function.comp, (hidx fo hfo').1]
  constructor
  · intro hnd
    obtain ⟨fv, hfv⟩ := insertAll_isSome (forceEntries forces) force_vec
      (by
        intro e he
        unfold forceEntries at he
        obtain ⟨fo, hfo', rfl⟩ := List.mem_map.mp he
        have := hidx fo hfo'
        simp only
        omega)
      (by
        intro e he
        unfold forceEntries at he
        obtain ⟨fo, hfo', rfl⟩ := List.mem_map.mp he
        have := hidx fo hfo'
        simp only
        rw [this.1]
        exact hfree _ this.2)
      (by
        rw [hpos]
        exact hnd.map (fun i j hij => by simpa using hij))
    refine ⟨fv, by rw [loadForces_eq]; exact hfv, fun r hr => ?_⟩
    rw [(insertAll_eq_some hfv).2.2.1 r 0, entrySum_forceEntries forces n r hn hfo]
    simp [SparseMat.coeff, hfree r hr]
  · intro hdup
    rw [loadForces_eq]
    cases hres : insertAll force_vec (forceEntries forces) with
    | none => rfl
    | some fv =>
      exfalso
      apply hdup
      have := (insertAll_nodup hres).1
      rw [hpos] at this
      exact List.Nodup.of_map _ this

theorem forces_inserted_once_witness :
    ∃ fv : SparseMat ℚ,
      loadForces (SparseMat.empty 12 1) ([{ node := 1, dof := 0, value := 9 }] : List (Force ℚ))
        = some fv ∧
      fv.coeff 6 0 = 9 ∧ fv.coeff 7 0 = 0 := by
  obtain ⟨fv, h, hco⟩ := (forces_inserted_once
    ([{ node := 1, dof := 0, value := 9 }] : List (Force ℚ)) (SparseMat.empty 12 1) 2
    (by decide) (by decide) rfl (fun _ _ => rfl)
    (by intro fo hfo; simp only [List.mem_singleton] at hfo; subst hfo; decide)).1 (by simp)
  refine ⟨fv, h, ?_, ?_⟩
  · rw [hco 6 (by decide)]; simp
  · rw [hco 7 (by decide)]; simp

/-- Claim C19 as stated fails: with two forces on the axial degree of freedom of node 1,
`loadForces` does not return a force vector holding their sum. -/
theorem forces_on_one_dof_not_added :
    loadForces (SparseMat.empty 12 1) doubleForces = none := by
  simp [loadForces, doubleForces, SparseMat.insert, SparseMat.empty, u32, NUM_DOFS]

/-! ## The rotation and the missing checks -/

theorem squaredNorm_pos (v : Node K) (hv : v ≠ 0) : 0 < squaredNorm v := by
  obtain ⟨i, hi⟩ := Function.ne_iff.mp hv
  have h0 := mul_self_nonneg (v 0)
  have h1 := mul_self_nonneg (v 1)
  have h2 := mul_self_nonneg (v 2)
  unfold squaredNorm
  fin_cases i
  · have := mul_self_pos.mpr hi
    simp only [Fin.zero_eta] at this
    linarith
  · have := mul_self_pos.mpr hi
    simp only [Fin.mk_one] at this
    linarith
  · have := mul_self_pos.mpr hi
    have e : (⟨2, by decide⟩ : Fin 3) = 2 := rfl
    simp only [e] at this
    linarith

theorem sqrt_ne_zero {sqrt : K → K} (hsqrt : ∀ z : K, 0 < z → sqrt z * sqrt z = z) {z : K}
    (hz : 0 < z) : sqrt z ≠ 0 := by
  intro h0
  have := hsqrt z hz
  rw [h0, mul_zero] at this
  exact hz.ne this

theorem normalized_of_ne_zero (sqrt : K → K) (v : Node K) (hv : v ≠ 0) :
    normalized sqrt v = fun i => v i / sqrt (squaredNorm v) := by
  unfold normalized
  simp only [if_pos (squaredNorm_pos v hv)]

theorem dot_normalized_self (sqrt : K → K) (hsqrt : ∀ z : K, 0 < z → sqrt z * sqrt z = z)
    (v : Node K) (hv : v ≠ 0) : dot (normalized sqrt v) (normalized sqrt v) = 1 := by
  have hz := squaredNorm_pos v hv
  have hs := hsqrt _ hz
  have hne := sqrt_ne_zero hsqrt hz
  rw [normalized_of_ne_zero sqrt v hv]
  unfold dot
  simp only
  field_simp
  unfold squaredNorm at hs ⊢
  linear_combination -hs

theorem cross_div (a b : Node K) (s t : K) :
    cross (fun i => a i / s) (fun i => b i / t) = fun i => cross a b i / (s * t) := by
  funext i
  fin_cases i <;> simp [cross] <;> ring

theorem dot_cross_left (a b : Node K) : dot a (cross a b) = 0 := by
  simp [dot, cross]
  ring

theorem dot_cross_right (a b : Node K) : dot b (cross a b) = 0 := by
  simp [dot, cross]
  ring

theorem dot_div_right (a c : Node K) (s : K) : dot a (fun i => c i / s) = dot a c / s := by
  simp only [dot]
  ring

theorem rotationOf_mul_transpose (sqrt : K → K) (n1 n2 : Node K) (p : Props K) (i j : Fin 3) :
    (rotationOf sqrt n1 n2 p * (rotationOf sqrt n1 n2 p).transpose) i j =
      dot (rotationOf sqrt n1 n2 p i) (rotationOf sqrt n1 n2 p j) := by
  simp only [Matrix.mul_apply, Matrix.transpose_apply, Fin.sum_univ_three, dot]

theorem dot_comm (a b : Node K) : dot a b = dot b a := by
  simp only [dot]
  ring

/-- The rows of the rotation of `calcKelem` for an element of nonzero length with a nonzero
orientation vector that is not collinear with the axis. -/
theorem rotationOf_rows (sqrt : K → K) (hsqrt : ∀ z : K, 0 < z → sqrt z * sqrt z = z)
    (n1 n2 : Node K) (p : Props K) (hlen : n2 - n1 ≠ 0) (hnv : p.normal_vec ≠ 0)
    (hcol : cross (n2 - n1) p.normal_vec ≠ 0) :
    dot (rotationOf sqrt n1 n2 p 0) (rotationOf sqrt n1 n2 p 0) = 1 ∧
    dot (rotationOf sqrt n1 n2 p 1) (rotationOf sqrt n1 n2 p 1) = 1 ∧
    dot (rotationOf sqrt n1 n2 p 2) (rotationOf sqrt n1 n2 p 2) = 1 ∧
    dot (rotationOf sqrt n1 n2 p 0) (rotationOf sqrt n1 n2 p 2) = 0 ∧
    dot (rotationOf sqrt n1 n2 p 1) (rotationOf sqrt n1 n2 p 2) = 0 ∧
    dot (rotationOf sqrt n1 n2 p 0) (rotationOf sqrt n1 n2 p 1) =
      dot (n2 - n1) p.normal_vec /
        (sqrt (squaredNorm (n2 - n1)) * sqrt (squaredNorm p.normal_vec)) := by
  have r0 : rotationOf sqrt n1 n2 p 0 = normalized sqrt (n2 - n1) := rfl
  have r1 : rotationOf sqrt n1 n2 p 1 = normalized sqrt p.normal_vec := rfl
  have r2 : rotationOf sqrt n1 n2 p 2 =
      normalized sqrt (cross (normalized sqrt (n2 - n1)) (normalized sqrt p.normal_vec)) := rfl
  have hs1 := sqrt_ne_zero hsqrt (squaredNorm_pos _ hlen)
  have hs2 := sqrt_ne_zero hsqrt (squaredNorm_pos _ hnv)
  have hc : cross (normalized sqrt (n2 - n1)) (normalized sqrt p.normal_vec) ≠ 0 := by
    rw [normalized_of_ne_zero sqrt _ hlen, normalized_of_ne_zero sqrt _ hnv, cross_div]
    intro h0
    apply hcol
    funext i
    have := congrFun h0 i
    simp only [Pi.zero_apply, div_eq_zero_iff, mul_eq_zero] at this
    rcases this with h | h | h
    · exact h
    · exact absurd h hs1
    · exact absurd h hs2
  refine ⟨?_, ?_, ?_, ?_, ?_, ?_⟩
  · rw [r0]; exact dot_normalized_self sqrt hsqrt _ hlen
  · rw [r1]; exact dot_normalized_self sqrt hsqrt _ hnv
  · rw [r2]; exact dot_normalized_self sqrt hsqrt _ hc
  · rw [r0, r2, normalized_of_ne_zero sqrt _ hc, dot_div_right, dot_cross_left, zero_div]
  · rw [r1, r2, normalized_of_ne_zero sqrt _ hc, dot_div_right, dot_cross_right, zero_div]
  · rw [r0, r1, normalized_of_ne_zero sqrt _ hlen, normalized_of_ne_zero sqrt _ hnv]
    simp only [dot]
    field_simp

/-- Claim C15, amended: for every element of nonzero length whose orientation vector is
nonzero and not collinear with the element axis, the rows `nx`, `ny`, `nz` of the matrix `R`
built in `calcKelem` are unit vectors and `nz` is orthogonal to `nx` and to `ny`; `R` is
orthonormal, `R * R^T = I`, exactly when the orientation vector is perpendicular to the
element axis. -/
theorem rotation_orthonormal_iff_perpendicular (sqrt : K → K)
    (hsqrt : ∀ z : K, 0 < z → sqrt z * sqrt z = z)
    (n1 n2 : Node K) (p : Props K) (hlen : n2 - n1 ≠ 0) (hnv : p.normal_vec ≠ 0)
    (hcol : cross (n2 - n1) p.normal_vec ≠ 0) :
    (∀ i, dot (rotationOf sqrt n1 n2 p i) (rotationOf sqrt n1 n2 p i) = 1) ∧
    dot (rotationOf sqrt n1 n2 p 0) (rotationOf sqrt n1 n2 p 2) = 0 ∧
    dot (rotationOf sqrt n1 n2 p 1) (rotationOf sqrt n1 n2 p 2) = 0 ∧
    (rotationOf sqrt n1 n2 p * (rotationOf sqrt n1 n2 p).transpose = 1 ↔
      dot (n2 - n1) p.normal_vec = 0) := by
  obtain ⟨h00, h11, h22, h02, h12, h01⟩ := rotationOf_rows sqrt hsqrt n1 n2 p hlen hnv hcol
  have hs1 := sqrt_ne_zero hsqrt (squaredNorm_pos _ hlen)
  have hs2 := sqrt_ne_zero hsqrt (squaredNorm_pos _ hnv)
  have hiff : dot (rotationOf sqrt n1 n2 p 0) (rotationOf sqrt n1 n2 p 1) = 0 ↔
      dot (n2 - n1) p.normal_vec = 0 := by
    rw [h01, div_eq_zero_iff]
    constructor
    · rintro (h | h)
      · exact h
      · exact absurd h (mul_ne_zero hs1 hs2)
    · exact Or.inl
  refine ⟨?_, h02, h12, ?_⟩
  · intro i
    fin_cases i
    · exact h00
    · exact h11
    · exact h22
  · rw [← hiff]
    constructor
    · intro h
      have := congrFun (congrFun h 0) 1
      rw [rotationOf_mul_transpose] at this
      simpa using this
    · intro h
      ext i j
      rw [rotationOf_mul_transpose]
      have h10 := (dot_comm _ _).trans h
      have h20 := (dot_comm _ _).trans h02
      have h21 := (dot_comm _ _).trans h12
      fin_cases i <;> fin_cases j <;> simp [Matrix.one_apply] <;> assumption

theorem rotation_orthonormal_iff_perpendicular_witness :
    rotationOf Real.sqrt ![0, 0, 0] ![2, 0, 0]
        { EA := 3, EIz := 5, EIy := 7, GJ := 11, normal_vec := ![0, 1, 0] } *
      (rotationOf Real.sqrt ![0, 0, 0] ![2, 0, 0]
        { EA := 3, EIz := 5, EIy := 7, GJ := 11, normal_vec := ![0, 1, 0] }).transpose = 1 := by
  refine (rotation_orthonormal_iff_perpendicular Real.sqrt
    (fun z hz => Real.mul_self_sqrt hz.le) ![0, 0, 0] ![2, 0, 0]
    { EA := 3, EIz := 5, EIy := 7, GJ := 11, normal_vec := ![0, 1, 0] } ?_ ?_ ?_).2.2.2.mpr ?_
  · intro h
    have := congrFun h 0
    simp at this
  · intro h
    have := congrFun h 1
    simp at this
  · intro h
    have := congrFun h 2
    simp [cross] at this
  · simp [dot]

/-- Claim C15 as stated fails: for the element from the origin to `(1, 0, 0)` with the
orientation vector `(3, 4, 0)`, which is not zero and not collinear with the axis, the rows
`nx` and `ny` of `R` have the scalar product `3/5`, so `R * R^T` is not the identity. -/
theorem oblique_orientation_not_orthonormal :
    (![1, 0, 0] - ![0, 0, 0] : Node ℚ) ≠ 0 ∧ obliqueProps.normal_vec ≠ 0 ∧
    cross (![1, 0, 0] - ![0, 0, 0]) obliqueProps.normal_vec ≠ 0 ∧
    (rotationOf Rat.sqrt ![0, 0, 0] ![1, 0, 0] obliqueProps *
      (rotationOf Rat.sqrt ![0, 0, 0] ![1, 0, 0] obliqueProps).transpose) 0 1 = 3 / 5 ∧
    rotationOf Rat.sqrt ![0, 0, 0] ![1, 0, 0] obliqueProps *
      (rotationOf Rat.sqrt ![0, 0, 0] ![1, 0, 0] obliqueProps).transpose ≠ 1 := by
  have h1 : Rat.sqrt 1 = 1 := by
    have := rat_sqrt_sq 1 (by norm_num)
    rwa [mul_one] at this
  have h25 : Rat.sqrt 25 = 5 := by
    rw [show (25 : ℚ) = 5 * 5 by norm_num]
    exact rat_sqrt_sq 5 (by norm_num)
  have hentry : (rotationOf Rat.sqrt ![0, 0, 0] ![1, 0, 0] obliqueProps *
      (rotationOf Rat.sqrt ![0, 0, 0] ![1, 0, 0] obliqueProps).transpose) 0 1 = 3 / 5 := by
    rw [rotationOf_mul_transpose]
    have r0 : rotationOf Rat.sqrt ![0, 0, 0] ![1, 0, 0] obliqueProps 0 =
        normalized Rat.sqrt (![1, 0, 0] - ![0, 0, 0]) := rfl
    have r1 : rotationOf Rat.sqrt ![0, 0, 0] ![1, 0, 0] obliqueProps 1 =
        normalized Rat.sqrt obliqueProps.normal_vec := rfl
    have z0 : squaredNorm (![1, 0, 0] - ![0, 0, 0] : Node ℚ) = 1 := by
      simp [squaredNorm]
    have z1 : squaredNorm obliqueProps.normal_vec = 25 := by
      simp [squaredNorm, obliqueProps]
      norm_num
    rw [r0, r1]
    unfold normalized
    simp only [z0, z1, h1, h25]
    norm_num [dot, obliqueProps]
  refine ⟨?_, ?_, ?_, hentry, ?_⟩
  · intro h
    have := congrFun h 0
    simp at this
  · intro h
    have := congrFun h 0
    simp [obliqueProps] at this
  · intro h
    have := congrFun h 2
    simp [cross, obliqueProps] at this
  · intro h
    rw [h] at hentry
    norm_num at hentry

/-- Claim C16, amended: `calcKelem` does not check the length of an element.  For a job whose
elements reference nodes and properties of the job, with an element whose two nodes coincide
(its length is `sqrt(0)`), every call of `calcKelem` for that element returns, and
`operator()` assembles the global matrix; nothing aborts before the assembly. -/
theorem zero_length_element_assembled (sqrt : K → K) (job : Job K) (ties : List (Tie K))
    (Kg0 : SparseMat K) (i : Nat) (e : Elem) (n : Node K)
    (hv : ValidElems job) (ht : ValidTies job.nodes.length ties)
    (hn : NUM_DOFS * job.nodes.length < 2 ^ 31)
    (hr : NUM_DOFS * job.nodes.length ≤ Kg0.rows) (hc : NUM_DOFS * job.nodes.length ≤ Kg0.cols)
    (he : job.elems[i]? = some e) (h1 : nodeAt job e.1 = some n)
    (h2 : nodeAt job e.2 = some n) :
    norm sqrt n n = sqrt 0 ∧
    (∀ self : GlobalStiffAssembler K, i < self.perElemKlocalAelem.length →
      ∃ a, self.calcKelem sqrt i job = some a) ∧
    ∃ a Kg, GlobalStiffAssembler.init.assemble sqrt Kg0 job ties = some (a, Kg) := by
  refine ⟨by simp [norm, squaredNorm], fun self hs => ?_,
    assemble_isSome sqrt _ Kg0 job ties klocalClean_zero blockClean_zero hv ht hn hr hc⟩
  obtain ⟨a, ha, -⟩ := calcKelem_isSome sqrt self i job hv
    (List.getElem?_eq_some_iff.mp he).1 hs
  exact ⟨a, ha⟩

theorem degenerate_wellFormed : WellFormed degenerateJob fixedEnd [] [] [] := by
  refine ⟨by decide, ⟨by decide, ?_⟩, fun t ht => by simp at ht, ?_,
    fun t ht => by simp at ht, fun q hq => by simp at hq⟩
  · intro e he
    simp only [degenerateJob, List.mem_singleton] at he
    subst he
    simp [degenerateJob]
  · intro bc hbc
    obtain ⟨h1, h2, -⟩ := fixedEnd_fixed bc hbc
    simp [degenerateJob, h1, h2]

theorem zero_length_element_assembled_witness :
    norm Rat.sqrt ![0, 0, 0] ![0, 0, 0] = Rat.sqrt 0 ∧
    ∃ (a : GlobalStiffAssembler ℚ) (Kg : SparseMat ℚ),
      GlobalStiffAssembler.init.assemble Rat.sqrt (SparseMat.empty 12 12) degenerateJob []
        = some (a, Kg) := by
  obtain ⟨h1, -, h3⟩ := zero_length_element_assembled Rat.sqrt degenerateJob []
    (SparseMat.empty 12 12) 0 (0, 1) ![0, 0, 0] degenerate_wellFormed.2.1
    (fun t ht => by simp at ht) (by decide) (by decide) (by decide) rfl
    (by simp [nodeAt, degenerateJob]) (by simp [nodeAt, degenerateJob])
  exact ⟨h1, h3⟩

/-- Claim C16 as stated fails: for `degenerateJob`, whose element joins two nodes at the
same place, with the six supports of `fixedEnd`, the assembly and the loading of the
boundary conditions complete and return the system. -/
theorem zero_length_element_does_not_abort :
    nodeAt degenerateJob 0 = nodeAt degenerateJob 1 ∧
    ∃ (a : GlobalStiffAssembler ℚ) (Kg f : SparseMat ℚ),
      augmentedSystem Rat.sqrt degenerateJob fixedEnd [] [] [] = some (a, Kg, f) := by
  refine ⟨by simp [nodeAt, degenerateJob], ?_⟩
  exact augmentedSystem_isSome Rat.sqrt degenerateJob fixedEnd [] [] [] degenerate_wellFormed
    (by simp) (by simp)

/-- Claim C17, amended: `calcKelem` does not check the orientation vector against the
element axis.  For a job whose elements reference nodes and properties of the job, with an
element whose orientation vector is parallel to its axis, every call of `calcKelem` for that
element returns, and `operator()` assembles the global matrix; nothing aborts before or
during the assembly. -/
theorem parallel_orientation_assembled (sqrt : K → K) (job : Job K) (ties : List (Tie K))
    (Kg0 : SparseMat K) (i : Nat) (e : Elem) (p : Props K) (n1 n2 : Node K)
    (hv : ValidElems job) (ht : ValidTies job.nodes.length ties)
    (hn : NUM_DOFS * job.nodes.length < 2 ^ 31)
    (hr : NUM_DOFS * job.nodes.length ≤ Kg0.rows) (hc : NUM_DOFS * job.nodes.length ≤ Kg0.cols)
    (he : job.elems[i]? = some e) (hp : job.props[i]? = some p)
    (h1 : nodeAt job e.1 = some n1) (h2 : nodeAt job e.2 = some n2)
    (hpar : cross (n2 - n1) p.normal_vec = 0) :
    (∀ self : GlobalStiffAssembler K, i < self.perElemKlocalAelem.length →
      ∃ a, self.calcKelem sqrt i job = some a) ∧
    ∃ a Kg, GlobalStiffAssembler.init.assemble sqrt Kg0 job ties = some (a, Kg) := by
  refine ⟨fun self hs => ?_,
    assemble_isSome sqrt _ Kg0 job ties klocalClean_zero blockClean_zero hv ht hn hr hc⟩
  obtain ⟨a, ha, -⟩ := calcKelem_isSome sqrt self i job hv
    (List.getElem?_eq_some_iff.mp he).1 hs
  exact ⟨a, ha⟩

theorem parallel_wellFormed : WellFormed parallelJob fixedEnd [] [] [] := by
  refine ⟨by decide, ⟨by decide, ?_⟩, fun t ht => by simp at ht, ?_,
    fun t ht => by simp at ht, fun q hq => by simp at hq⟩
  · intro e he
    simp only [parallelJob, List.mem_singleton] at he
    subst he
    simp [parallelJob]
  · intro bc hbc
    obtain ⟨h1, h2, -⟩ := fixedEnd_fixed bc hbc
    simp [parallelJob, h1, h2]

theorem parallel_cross : cross (![2, 0, 0] - ![0, 0, 0] : Node ℚ) ![1, 0, 0] = 0 := by
  funext i
  fin_cases i <;> simp [cross]

theorem parallel_orientation_assembled_witness :
    cross (![2, 0, 0] - ![0, 0, 0] : Node ℚ) ![1, 0, 0] = 0 ∧
    ∃ (a : GlobalStiffAssembler ℚ) (Kg : SparseMat ℚ),
      GlobalStiffAssembler.init.assemble Rat.sqrt (SparseMat.empty 12 12) parallelJob []
        = some (a, Kg) :=
  ⟨parallel_cross, (parallel_orientation_assembled Rat.sqrt parallelJob []
    (SparseMat.empty 12 12) 0 (0, 1)
    { EA := 3, EIz := 5, EIy := 7, GJ := 11, normal_vec := ![1, 0, 0] }
    ![0, 0, 0] ![2, 0, 0] parallel_wellFormed.2.1
    (fun t ht => by simp at ht) (by decide) (by decide) (by decide) rfl rfl
    (by simp [nodeAt, parallelJob]) (by simp [nodeAt, parallelJob]) parallel_cross).2⟩

/-- Claim C17 as stated fails: for `parallelJob`, whose orientation vector `(1, 0, 0)` lies
along the axis of its element, with the six supports of `fixedEnd`, the assembly and the
loading of the boundary conditions complete and return the system. -/
theorem parallel_orientation_does_not_abort :
    cross (![2, 0, 0] - ![0, 0, 0] : Node ℚ) ![1, 0, 0] = 0 ∧
    ∃ (a : GlobalStiffAssembler ℚ) (Kg f : SparseMat ℚ),
      augmentedSystem Rat.sqrt parallelJob fixedEnd [] [] [] = some (a, Kg, f) :=
  ⟨parallel_cross, augmentedSystem_isSome Rat.sqrt parallelJob fixedEnd [] [] []
    parallel_wellFormed (by simp) (by simp)⟩

theorem u32_alias (node dof : Nat) :
    u32 (u32 (NUM_DOFS * ((6 * node + dof) / 6)) + (6 * node + dof) % 6) =
      u32 (u32 (NUM_DOFS * node) + dof) := by
  unfold u32 NUM_DOFS
  omega

theorem bcEntries_alias (G : Nat) (bcs : List (BC K)) (i : Nat) :
    bcEntries G (bcs.map aliasBC) i = bcEntries G bcs i := by
  induction bcs generalizing i with
  | nil => rfl
  | cons bc rest ih =>
    simp only [List.map_cons, bcEntries, ih]
    simp only [aliasBC, u32_alias]

theorem bcRhs_alias (G : Nat) (bcs : List (BC K)) (i : Nat) :
    bcRhs G (bcs.map aliasBC) i = bcRhs G bcs i := by
  induction bcs generalizing i with
  | nil => rfl
  | cons bc rest ih =>
    simp only [List.map_cons, bcRhs, ih]
    rfl

theorem termEntries_alias (row : Nat) (eq : Equation K) :
    termEntries row (aliasEquation eq).terms = termEntries row eq.terms := by
  unfold aliasEquation
  simp only
  induction eq.terms with
  | nil => rfl
  | cons t rest ih =>
    simp only [List.map_cons, termEntries, ih, u32_alias]

theorem eqEntries_alias (G : Nat) (eqs : List (Equation K)) (i : Nat) :
    eqEntries G (eqs.map aliasEquation) i = eqEntries G eqs i := by
  induction eqs generalizing i with
  | nil => rfl
  | cons eq rest ih =>
    simp only [List.map_cons, eqEntries, ih, termEntries_alias]

theorem forceEntries_alias (forces : List (Force K)) :
    forceEntries (forces.map aliasForce) = forceEntries forces := by
  unfold forceEntries
  rw [List.map_map]
  refine List.map_congr_left fun fo _ => ?_
  simp only [Function.comp, aliasForce, u32_alias]

theorem loadBCs_alias (Kg f : SparseMat K) (bcs : List (BC K)) (n : Nat) :
    loadBCs Kg f (bcs.map aliasBC) n = loadBCs Kg f bcs n := by
  unfold loadBCs
  apply Option.ext
  intro st
  obtain ⟨Kg1, f1⟩ := st
  simp only [Option.mem_def]
  rw [loadBCsLoop_eq_some_iff, loadBCsLoop_eq_some_iff, bcEntries_alias, bcRhs_alias]

theorem loadEquations_alias (Kg : SparseMat K) (eqs : List (Equation K)) (n b : Nat) :
    loadEquations Kg (eqs.map aliasEquation) n b = loadEquations Kg eqs n b := by
  unfold loadEquations
  simp only [loadEquationsLoop_eq, eqEntries_alias]

theorem loadForces_alias (fv : SparseMat K) (forces : List (Force K)) :
    loadForces fv (forces.map aliasForce) = loadForces fv forces := by
  rw [loadForces_eq, loadForces_eq, forceEntries_alias]

/-- The system that `solve` builds depends on a boundary condition, a force or an equation
term only through its global index `6 * node + dof`. -/
theorem augmentedSystem_alias (sqrt : K → K) (job : Job K) (BCs : List (BC K))
    (forces : List (Force K)) (ties : List (Tie K)) (equations : List (Equation K)) :
    augmentedSystem sqrt job (BCs.map aliasBC) (forces.map aliasForce) ties
        (equations.map aliasEquation) =
      augmentedSystem sqrt job BCs forces ties equations := by
  unfold augmentedSystem
  simp only [List.length_map, loadBCs_alias, loadEquations_alias, loadForces_alias]

/-- Claim C18, amended: `solve` does not validate the references of boundary conditions,
forces and equation terms.  The global matrix is assembled first in every case: whenever the
system is built, the assembler has returned.  A reference enters only through its global
index `6 * node + dof`: the system built is the one for the references moved to the node
`(6 * node + dof) / 6` and the degree of freedom `(6 * node + dof) % 6`, so a degree of
freedom outside `[0, 6)` whose global index is inside the matrix is accepted and acts on the
degree of freedom that owns that index. -/
theorem references_enter_by_global_index (sqrt : K → K) (job : Job K) (BCs : List (BC K))
    (forces : List (Force K)) (ties : List (Tie K)) (equations : List (Equation K)) :
    augmentedSystem sqrt job (BCs.map aliasBC) (forces.map aliasForce) ties
        (equations.map aliasEquation) =
      augmentedSystem sqrt job BCs forces ties equations ∧
    ∀ (a : GlobalStiffAssembler K) (Kg f : SparseMat K),
      augmentedSystem sqrt job BCs forces ties equations = some (a, Kg, f) →
      ∃ Kg1, GlobalStiffAssembler.init.assemble sqrt
        (SparseMat.empty (NUM_DOFS * job.nodes.length + BCs.length + equations.length)
          (NUM_DOFS * job.nodes.length + BCs.length + equations.length)) job ties
        = some (a, Kg1) := by
  refine ⟨augmentedSystem_alias sqrt job BCs forces ties equations, fun a Kg f h => ?_⟩
  obtain ⟨Kg1, ha, -⟩ := augmentedSystem_eq_some h
  exact ⟨Kg1, ha⟩

theorem stray_wellFormed :
    WellFormed exampleJob (strayBCs.map aliasBC) [] [] [] := by
  refine ⟨by decide, validElems_exampleJob, fun t ht => by simp at ht, ?_,
    fun t ht => by simp at ht, fun q hq => by simp at hq⟩
  intro bc hbc
  simp only [strayBCs, List.map_cons, List.map_nil, List.mem_singleton] at hbc
  subst hbc
  simp [aliasBC, exampleJob]

/-- The system of `exampleJob` with the boundary condition of `strayBCs`. -/
theorem stray_system :
    ∃ (a : GlobalStiffAssembler ℚ) (Kg f : SparseMat ℚ),
      augmentedSystem Rat.sqrt exampleJob strayBCs [] [] [] = some (a, Kg, f) ∧
      Kg.coeff 7 12 = 1 ∧ Kg.coeff 12 7 = 1 ∧ f.coeff 12 0 = 5 := by
  have hw := stray_wellFormed
  obtain ⟨a, Kg, f, h⟩ := augmentedSystem_isSome Rat.sqrt exampleJob (strayBCs.map aliasBC)
    [] [] [] hw (by simp) (by simp)
  obtain ⟨Kg1, ts, -, -, hin, -, -, -, -, -, hco, hfco, -⟩ :=
    augmentedSystem_spec h hw.1 hw.2.2.1
  have halias := augmentedSystem_alias Rat.sqrt exampleJob strayBCs [] [] []
  simp only [List.map_nil] at halias
  rw [halias] at h
  have hnodes : exampleJob.nodes.length = 2 := rfl
  rw [hnodes] at hco hfco hin
  have hbc : strayBCs.map aliasBC = [({ node := 1, dof := 1, value := 5 } : BC ℚ)] := by
    simp [strayBCs, aliasBC]
  rw [hbc] at hco hfco
  refine ⟨a, Kg, f, h, ?_, ?_, ?_⟩
  · rw [hco, tripletSum_eq_zero_of_inBlock hin 7 12 (Or.inr (by decide))]
    simp [bcEntries, eqEntries, entrySum, u32, NUM_DOFS]
  · rw [hco, tripletSum_eq_zero_of_inBlock hin 12 7 (Or.inl (by decide))]
    simp [bcEntries, eqEntries, entrySum, u32, NUM_DOFS]
  · rw [hfco, bcRhs_cons_of_gt _ _ _ _ (by norm_num [dbl_epsilon, abs_of_pos])]
    simp [bcRhs, forceEntries, entrySum]

theorem references_enter_by_global_index_witness :
    ∃ (a : GlobalStiffAssembler ℚ) (Kg f Kg1 : SparseMat ℚ),
      augmentedSystem Rat.sqrt exampleJob strayBCs [] [] [] = some (a, Kg, f) ∧
      GlobalStiffAssembler.init.assemble Rat.sqrt (SparseMat.empty 13 13) exampleJob []
        = some (a, Kg1) := by
  obtain ⟨a, Kg, f, h, -⟩ := stray_system
  obtain ⟨Kg1, ha⟩ := (references_enter_by_global_index Rat.sqrt exampleJob strayBCs
    [] [] []).2 a Kg f h
  exact ⟨a, Kg, f, Kg1, h, ha⟩

/-- Claim C18 as stated fails: for `exampleJob` with a boundary condition at node 0 and the
degree of freedom 7, the system is built, and the matrix and the force vector hold the
entries of the constraint at the global index 7. -/
theorem stray_dof_is_loaded :
    ∃ (a : GlobalStiffAssembler ℚ) (Kg f : SparseMat ℚ),
      augmentedSystem Rat.sqrt exampleJob strayBCs [] [] [] = some (a, Kg, f) ∧
      Kg.coeff 7 12 = 1 ∧ Kg.coeff 12 7 = 1 ∧ f.coeff 12 0 = 5 :=
  stray_system

/-! ## Rigid motions, end forces and the offset of the second node -/

theorem vec_eq_zero_of_entries (w : Fin 12 → K) (h0 : w 0 = 0) (h1 : w 1 = 0) (h2 : w 2 = 0)
    (h3 : w 3 = 0) (h4 : w 4 = 0) (h5 : w 5 = 0) (h6 : w 6 = 0) (h7 : w 7 = 0) (h8 : w 8 = 0)
    (h9 : w 9 = 0) (h10 : w 10 = 0) (h11 : w 11 = 0) : w = 0 := by
  funext r
  fin_cases r
  · exact h0
  · exact h1
  · exact h2
  · exact h3
  · exact h4
  · exact h5
  · exact h6
  · exact h7
  · exact h8
  · exact h9
  · exact h10
  · exact h11

theorem stdBeamStiffness_rigid (EA EIy EIz GJ L : K) (hL : L ≠ 0) :
    ∀ u ∈ rigidMotions L, (stdBeamStiffness EA EIy EIz GJ L).mulVec u = 0 := by
  intro u hu
  obtain ⟨m0, m1, m2, m3, m4, m5, m6, m7, m8, m9, m10, m11⟩ :=
    stdBeamStiffness_mulVec EA EIy EIz GJ L u
  simp only [rigidMotions, List.mem_cons, List.mem_singleton, List.not_mem_nil, or_false] at hu
  refine vec_eq_zero_of_entries _ ?_ ?_ ?_ ?_ ?_ ?_ ?_ ?_ ?_ ?_ ?_ ?_ <;>
    simp only [m0, m1, m2, m3, m4, m5, m6, m7, m8, m9, m10, m11] <;>
    rcases hu with rfl | rfl | rfl | rfl | rfl | rfl <;>
    simp [unitDof] <;>
    field_simp <;>
    ring

/-- Claim C21: for every `L != 0` and every `EA`, `EIy`, `EIz`, `GJ`, the local stiffness
that `calcKelem` writes into `Klocal`, a buffer that holds zero outside the written positions
(as it does after construction and after every run), annihilates the six rigid-body motions of
the element: `Klocal * u = 0` for the three uniform translations `e0 + e6`, `e1 + e7`,
`e2 + e8`, for the uniform twist about the axis `e3 + e9`, for the rigid rotation about
local z, `u = e5 + e11 + L * e7`, and for the rigid rotation about local y,
`u = e4 + e10 - L * e8`. -/
theorem klocal_annihilates_rigid_motions (Klocal : LocalMatrix K) (p : Props K) (L : K)
    (hclean : KlocalClean Klocal) (hL : L ≠ 0) :
    (klocalOf Klocal p L).mulVec (unitDof 0 + unitDof 6) = 0 ∧
    (klocalOf Klocal p L).mulVec (unitDof 1 + unitDof 7) = 0 ∧
    (klocalOf Klocal p L).mulVec (unitDof 2 + unitDof 8) = 0 ∧
    (klocalOf Klocal p L).mulVec (unitDof 3 + unitDof 9) = 0 ∧
    (klocalOf Klocal p L).mulVec (unitDof 5 + unitDof 11 + L • unitDof 7) = 0 ∧
    (klocalOf Klocal p L).mulVec (unitDof 4 + unitDof 10 - L • unitDof 8) = 0 := by
  rw [klocalOf_of_clean Klocal hclean, klocalOf_zero_eq]
  have h := stdBeamStiffness_rigid p.EA p.EIy p.EIz p.GJ L hL
  simp only [rigidMotions, List.mem_cons, List.mem_singleton, List.not_mem_nil, or_false,
    forall_eq_or_imp, forall_eq] at h
  exact h

theorem klocal_annihilates_rigid_motions_witness :
    (klocalOf (0 : LocalMatrix ℚ)
      { EA := 3, EIz := 5, EIy := 7, GJ := 11, normal_vec := ![0, 1, 0] } 2).mulVec
        (unitDof 5 + unitDof 11 + (2 : ℚ) • unitDof 7) = 0 :=
  (klocal_annihilates_rigid_motions (0 : LocalMatrix ℚ)
    { EA := 3, EIz := 5, EIy := 7, GJ := 11, normal_vec := ![0, 1, 0] } 2 klocalClean_zero
    (by norm_num)).2.2.2.2.1

/-- The entries `j` and `j + 6` of a row of element forces are equal for `j < 4`, whatever
the transform and the displacements. -/
theorem elementForceRow_ends (p : Props K) (L : K) (A : LocalMatrix K) (d : Fin 12 → K)
    (j : Nat) (hj : j < 4) :
    ∃ v, (elementForceRow (klocalOf 0 p L * A) d)[j]? = some v ∧
      (elementForceRow (klocalOf 0 p L * A) d)[j + 6]? = some v := by
  have hmul : (klocalOf 0 p L * A).mulVec d =
      (stdBeamStiffness p.EA p.EIy p.EIz p.GJ L).mulVec (A.mulVec d) := by
    rw [klocalOf_zero_eq, Matrix.mulVec_mulVec]
  obtain ⟨m0, m1, m2, m3, -, -, m6, m7, m8, m9, -, -⟩ :=
    stdBeamStiffness_mulVec p.EA p.EIy p.EIz p.GJ L (A.mulVec d)
  have g0 := elementForceRow_getElem (klocalOf 0 p L * A) d
  rw [hmul] at g0
  generalize (stdBeamStiffness p.EA p.EIy p.EIz p.GJ L).mulVec (A.mulVec d) = w at *
  have e0 : (elementForceRow (klocalOf 0 p L * A) d)[0]? = some (-(w 0)) := g0 0
  have e1 : (elementForceRow (klocalOf 0 p L * A) d)[1]? = some (-(w 1)) := g0 1
  have e2 : (elementForceRow (klocalOf 0 p L * A) d)[2]? = some (-(w 2)) := g0 2
  have e3 : (elementForceRow (klocalOf 0 p L * A) d)[3]? = some (-(w 3)) := g0 3
  have e6 : (elementForceRow (klocalOf 0 p L * A) d)[6]? = some (w 6) := g0 6
  have e7 : (elementForceRow (klocalOf 0 p L * A) d)[7]? = some (w 7) := g0 7
  have e8 : (elementForceRow (klocalOf 0 p L * A) d)[8]? = some (w 8) := g0 8
  have e9 : (elementForceRow (klocalOf 0 p L * A) d)[9]? = some (w 9) := g0 9
  rw [m6, ← m0] at e6
  rw [m7, ← m1] at e7
  rw [m8, ← m2] at e8
  rw [m9, ← m3] at e9
  interval_cases j
  · exact ⟨_, e0, e6⟩
  · exact ⟨_, e1, e7⟩
  · exact ⟨_, e2, e8⟩
  · exact ⟨_, e3, e9⟩

/-- Claim C22: in a run of `solve` that returns a summary, every row of `element_forces`
has `element_forces[e][j] = element_forces[e][j + 6]` for `j` in 0..3: the axial force, both
shear forces and the torque reported at the node0 end equal those reported at the node1 end.
The same holds for the row that the loop computes from the local stiffness, any rotation
matrix and any vector of element displacements. -/
theorem element_end_forces_equal (sqrt : K → K)
    (solver : SparseMat K → SparseMat K → Option (Nat → K)) (job : Job K) (BCs : List (BC K))
    (forces : List (Force K)) (ties : List (Tie K)) (equations : List (Equation K))
    (epsilon : K) (summary : Summary K)
    (h : solve sqrt solver job BCs forces ties equations epsilon = some summary) :
    (∀ e, e < job.elems.length → ∀ j, j < 4 →
      ∃ v, tableAt summary.element_forces e j = some v ∧
        tableAt summary.element_forces e (j + 6) = some v) ∧
    (∀ (p : Props K) (L : K) (R : RotationMatrix K) (d : Fin 12 → K), ∀ j, j < 4 →
      ∃ v, (elementForceRow (klocalOf 0 p L * blockDiagonal4 R) d)[j]? = some v ∧
        (elementForceRow (klocalOf 0 p L * blockDiagonal4 R) d)[j + 6]? = some v) := by
  obtain ⟨a, Kg, f, disp, hs, -, -, -, -, hef⟩ := solve_eq_some h
  obtain ⟨Kg1, ha, -, -⟩ := augmentedSystem_eq_some hs
  obtain ⟨ts, hl, -⟩ := assemble_eq_some ha
  obtain ⟨-, hslots⟩ := elemLoop_perElem sqrt job GlobalStiffAssembler.init klocalClean_zero
    blockClean_zero _ a ts hl
  obtain ⟨hlen, hrows⟩ := elementForces_eq_some hef
  refine ⟨fun e he j hj => ?_, fun p L R d j hj => elementForceRow_ends p L _ d j hj⟩
  obtain ⟨node0, node1, M, hel, hM, hrow⟩ := hrows e he
  obtain ⟨p, e', n0, n1, hp, hel', hn0, hn1, hslot⟩ := hslots e he
  rw [hM] at hslot
  simp only [Option.some.injEq] at hslot
  subst hslot
  obtain ⟨v, hv, hv'⟩ := elementForceRow_ends p (norm sqrt n0 n1)
    (blockDiagonal4 (rotationOf sqrt n0 n1 p))
    (elementDisplacements summary.nodal_displacements node0 node1) j hj
  exact ⟨v, tableAt_eq_some hrow hv, tableAt_eq_some hrow hv'⟩

theorem element_end_forces_equal_witness :
    ∃ (summary : Summary ℚ) (v : ℚ),
      solve Rat.sqrt cantileverSolver (cantileverJob 2 3 7 5 11) fixedEnd
        [{ node := 1, dof := 0, value := 9 }] [] [] (1 / 10 ^ 9) = some summary ∧
      tableAt summary.element_forces 0 0 = some v ∧
      tableAt summary.element_forces 0 (0 + 6) = some v := by
  obtain ⟨summary, h⟩ := cantilever_run (1 / 10 ^ 9)
  obtain ⟨v, hv, hv'⟩ := (element_end_forces_equal Rat.sqrt cantileverSolver _ _ _ _ _ _
    summary h).1 0 (by decide) 0 (by decide)
  exact ⟨summary, v, h, hv, hv'⟩

/-- Claim C23: in `operator()`, the expression `dofs_per_elem * (nn2 - 1) + row`, evaluated
in 32-bit unsigned arithmetic with `row` in 6..11, equals `6 * nn2 + (row - 6)` for every
node index `nn2` with `0 <= nn2` and `6 * nn2 + 5 < 2^31`, also as the `int` index of the
triplet; for `nn2 = 0` the intermediate `nn2 - 1` wraps to `2^32 - 1`, and the rows and the
columns that `scatter` gives to the second node are those of `6 * nn2 + (row - 6)`, so for
node 0 they lie in 0..5. -/
theorem second_node_offset_wraps (nn2 : Int) (row : Nat) (h0 : 0 ≤ nn2)
    (hb : 6 * nn2 + 5 < 2 ^ 31) (h6 : 6 ≤ row) (h12 : row < 12) :
    ((u32 (u32 (NUM_DOFS * toU32 (nn2 - 1)) + row) : Nat) : Int) = 6 * nn2 + ((row : Int) - 6) ∧
    toI32 (u32 (u32 (NUM_DOFS * toU32 (nn2 - 1)) + row)) = 6 * nn2 + ((row : Int) - 6) ∧
    (∀ (nn1 : Int) (col : Nat) (v : K),
      (scatter nn1 nn2 row col v).row = 6 * nn2 + ((row : Int) - 6) ∧
      (scatter nn1 nn2 col row v).col = 6 * nn2 + ((row : Int) - 6)) ∧
    (nn2 = 0 → toU32 (nn2 - 1) = 2 ^ 32 - 1 ∧
      u32 (u32 (NUM_DOFS * toU32 (nn2 - 1)) + row) = row - 6 ∧
      u32 (u32 (NUM_DOFS * toU32 (nn2 - 1)) + row) < 6) := by
  have hu : ((u32 (u32 (NUM_DOFS * toU32 (nn2 - 1)) + row) : Nat) : Int)
      = 6 * nn2 + ((row : Int) - 6) := by
    unfold u32 toU32 NUM_DOFS
    omega
  have hi : toI32 (u32 (u32 (NUM_DOFS * toU32 (nn2 - 1)) + row))
      = 6 * nn2 + ((row : Int) - 6) := by
    unfold toI32
    split_ifs <;> omega
  refine ⟨hu, hi, fun nn1 col v => ⟨?_, ?_⟩, fun hz => ?_⟩
  · unfold scatter
    have hr : ¬ row < 6 := by omega
    simp only [hr, if_false]
    split_ifs <;> exact hi
  · unfold scatter
    have hr : ¬ row < 6 := by omega
    simp only [hr, if_false]
    split_ifs <;> exact hi
  · subst hz
    refine ⟨by unfold toU32; omega, ?_, ?_⟩ <;> omega

theorem second_node_offset_wraps_witness :
    ((u32 (u32 (NUM_DOFS * toU32 ((0 : Int) - 1)) + 6) : Nat) : Int)
      = 6 * 0 + (((6 : Nat) : Int) - 6) ∧
    (scatter 1 0 6 0 (1 : ℚ)).row = 6 * 0 + (((6 : Nat) : Int) - 6) :=
  ⟨(second_node_offset_wraps (K := ℚ) 0 6 (by norm_num) (by norm_num) (by norm_num)
      (by norm_num)).1,
    ((second_node_offset_wraps (K := ℚ) 0 6 (by norm_num) (by norm_num) (by norm_num)
      (by norm_num)).2.2.1 1 0 1).1⟩

/-! ## The system after the prune -/

theorem pruneValue_zero : pruneValue (0 : K) = 0 := by
  unfold pruneValue
  split_ifs <;> rfl

theorem pruneValue_of_large (v : K) (h : |(1 : K) / 10 ^ 14| * dummy_precision < |v|) :
    pruneValue v = v := by
  unfold pruneValue
  rw [if_neg (not_le.mpr h)]

theorem prune_threshold_lt_one : |(1 : K) / 10 ^ 14| * dummy_precision < 1 := by
  unfold dummy_precision
  rw [abs_of_pos (by positivity)]
  rw [div_mul_div_comm, one_mul, div_lt_one (by positivity)]
  norm_num

theorem pruneValue_one : pruneValue (1 : K) = 1 :=
  pruneValue_of_large 1 (by rw [abs_one]; exact prune_threshold_lt_one)

theorem pruneValue_neg_one : pruneValue (-1 : K) = -1 :=
  pruneValue_of_large (-1) (by rw [abs_neg, abs_one]; exact prune_threshold_lt_one)

theorem prunedKg_coeff (Kg : SparseMat K) (r c : Nat) :
    (prunedKg Kg).coeff r c = pruneValue (Kg.coeff r c) := by
  unfold prunedKg pruneValue
  rw [coeff_prune]

theorem prunedEntries_append (l1 l2 : List (Nat × Nat × K)) :
    prunedEntries (l1 ++ l2) = prunedEntries l1 ++ prunedEntries l2 := by
  simp [prunedEntries]

theorem mem_prunedEntries {l : List (Nat × Nat × K)} {e : Nat × Nat × K}
    (h : e ∈ prunedEntries l) : ∃ e' ∈ l, e'.1 = e.1 ∧ e'.2.1 = e.2.1 := by
  unfold prunedEntries at h
  obtain ⟨e', he', rfl⟩ := List.mem_map.mp h
  exact ⟨e', he', rfl, rfl⟩

/-- On a run of inserts at pairwise distinct positions, pruning the sum at a position is
pruning the entries. -/
theorem entrySum_prunedEntries (l : List (Nat × Nat × K))
    (hnd : (l.map fun e => (e.1, e.2.1)).Nodup) (r c : Nat) :
    pruneValue (entrySum l r c) = entrySum (prunedEntries l) r c := by
  induction l with
  | nil => simp [entrySum, prunedEntries, pruneValue_zero]
  | cons e l ih =>
    rw [List.map_cons, List.nodup_cons] at hnd
    have hcons : prunedEntries (e :: l) = (e.1, e.2.1, pruneValue e.2.2) :: prunedEntries l := rfl
    rw [entrySum_cons, hcons, entrySum_cons]
    by_cases h : e.1 = r ∧ e.2.1 = c
    · have hnone : ∀ e' ∈ l, ¬(e'.1 = r ∧ e'.2.1 = c) := by
        intro e' he' hrc
        apply hnd.1
        rw [List.mem_map]
        exact ⟨e', he', by rw [Prod.mk.injEq, hrc.1, hrc.2, h.1, h.2]; exact ⟨rfl, rfl⟩⟩
      have hnone' : ∀ e' ∈ prunedEntries l, ¬(e'.1 = r ∧ e'.2.1 = c) := by
        intro e' he' hrc
        obtain ⟨e2, he2, h1, h2⟩ := mem_prunedEntries he'
        exact hnone e2 he2 ⟨h1.trans hrc.1, h2.trans hrc.2⟩
      rw [entrySum_eq_zero l r c hnone, entrySum_eq_zero _ r c hnone', if_pos h, if_pos h,
        add_zero, add_zero]
    · rw [if_neg h, if_neg h, zero_add, zero_add, ih hnd.2]

theorem eqEntries_prunedEquation (G : Nat) (eqs : List (Equation K)) (i : Nat) :
    eqEntries G (eqs.map prunedEquation) i = prunedEntries (eqEntries G eqs i) := by
  induction eqs generalizing i with
  | nil => rfl
  | cons eq rest ih =>
    simp only [List.map_cons, eqEntries, ih, prunedEntries_append]
    congr 1
    unfold prunedEquation
    simp only
    induction eq.terms with
    | nil => rfl
    | cons t ts iht =>
      simp only [List.map_cons, termEntries, iht]
      rfl

theorem prunedEntries_bcEntries (G : Nat) (bcs : List (BC K)) (i : Nat) :
    prunedEntries (bcEntries G bcs i) = bcEntries G bcs i := by
  induction bcs generalizing i with
  | nil => rfl
  | cons bc rest ih =>
    simp only [bcEntries]
    show (_, _, pruneValue (1 : K)) :: (_, _, pruneValue (1 : K)) ::
      prunedEntries (bcEntries G rest (i + 1)) = _
    rw [pruneValue_one, ih]

/-- The product of row `r` of the pruned augmented matrix with `x`. -/
theorem pruned_row_formula {job : Job K} {BCs : List (BC K)} {ties : List (Tie K)}
    {equations : List (Equation K)} {Kg : SparseMat K} {ts : List (Triplet K)} (x : Nat → K)
    (hin : InBlock (NUM_DOFS * job.nodes.length) (loadTies ts ties))
    (hco : ∀ r c, Kg.coeff r c = tripletSum (loadTies ts ties) r c +
        entrySum (bcEntries (6 * job.nodes.length) BCs 0 ++
          eqEntries (6 * job.nodes.length + BCs.length) equations 0) r c)
    (hnd : ((bcEntries (6 * job.nodes.length) BCs 0 ++
          eqEntries (6 * job.nodes.length + BCs.length) equations 0).map
        fun e => (e.1, e.2.1)).Nodup)
    (r : Nat) :
    ∑ c in Finset.range (6 * job.nodes.length + BCs.length + equations.length),
        (prunedKg Kg).coeff r c * x c =
    (∑ c in Finset.range (6 * job.nodes.length),
        pruneValue (tripletSum (loadTies ts ties) r c) * x c) +
      rowSum (bcEntries (6 * job.nodes.length) BCs 0) r
        (6 * job.nodes.length + BCs.length + equations.length) x +
      rowSum (eqEntries (6 * job.nodes.length + BCs.length) (equations.map prunedEquation) 0) r
        (6 * job.nodes.length + BCs.length + equations.length) x := by
  have hle : 6 * job.nodes.length ≤ 6 * job.nodes.length + BCs.length + equations.length := by
    omega
  have hsplit : ∀ c, (prunedKg Kg).coeff r c =
      pruneValue (tripletSum (loadTies ts ties) r c) +
        entrySum (prunedEntries (bcEntries (6 * job.nodes.length) BCs 0 ++
          eqEntries (6 * job.nodes.length + BCs.length) equations 0)) r c := by
    intro c
    rw [prunedKg_coeff, hco, ← entrySum_prunedEntries _ hnd]
    by_cases hrc : r < 6 * job.nodes.length ∧ c < 6 * job.nodes.length
    · rw [entrySum_eq_zero _ r c
        (entrySum_block_eq_zero _ _ r c BCs equations (by omega) hrc.1 hrc.2), add_zero,
        pruneValue_zero, add_zero]
    · rw [tripletSum_eq_zero_of_inBlock hin r c (by unfold NUM_DOFS; omega), zero_add,
        pruneValue_zero, zero_add]
  have hzero : ∑ c in Finset.Ico (6 * job.nodes.length)
      (6 * job.nodes.length + BCs.length + equations.length),
      pruneValue (tripletSum (loadTies ts ties) r c) * x c = 0 := by
    apply Finset.sum_eq_zero
    intro c hc
    rw [Finset.mem_Ico] at hc
    rw [tripletSum_eq_zero_of_inBlock hin r c (Or.inr (by unfold NUM_DOFS; omega)),
      pruneValue_zero, zero_mul]
  have key : ∑ c in Finset.range (6 * job.nodes.length + BCs.length + equations.length),
      pruneValue (tripletSum (loadTies ts ties) r c) * x c =
      ∑ c in Finset.range (6 * job.nodes.length),
        pruneValue (tripletSum (loadTies ts ties) r c) * x c := by
    rw [← Finset.sum_range_add_sum_Ico _ hle, hzero, add_zero]
  simp only [hsplit, add_mul, Finset.sum_add_distrib, sum_entrySum_mul, prunedEntries_append,
    rowSum_append, key, prunedEntries_bcEntries, eqEntries_prunedEquation]
  ring

/-- The facts about the pruned augmented system: its size, and the product of each of its
rows with a vector. -/
theorem prunedSystem_spec {sqrt : K → K} {job : Job K} {BCs : List (BC K)}
    {forces : List (Force K)} {ties : List (Tie K)} {equations : List (Equation K)}
    {a : GlobalStiffAssembler K} {Kg f : SparseMat K}
    (h : augmentedSystem sqrt job BCs forces ties equations = some (a, Kg, f))
    (hsize : NUM_DOFS * job.nodes.length + BCs.length + equations.length < 2 ^ 31)
    (hties : ValidTies job.nodes.length ties) :
    ∃ ts : List (Triplet K),
      elemLoop sqrt job (GlobalStiffAssembler.init.resized job) [] job.elems.length
        = some (a, ts) ∧
      InBlock (NUM_DOFS * job.nodes.length) (loadTies ts ties) ∧
      (prunedKg Kg).rows = 6 * job.nodes.length + BCs.length + equations.length ∧
      (prunedKg Kg).cols = 6 * job.nodes.length + BCs.length + equations.length ∧
      (∀ r c, Kg.coeff r c = tripletSum (loadTies ts ties) r c +
        entrySum (bcEntries (6 * job.nodes.length) BCs 0 ++
          eqEntries (6 * job.nodes.length + BCs.length) equations 0) r c) ∧
      (∀ r, f.coeff r 0 =
        entrySum (bcRhs (6 * job.nodes.length) BCs 0 ++ forceEntries forces) r 0) ∧
      ∀ (x : Nat → K) (r : Nat),
        ∑ c in Finset.range (6 * job.nodes.length + BCs.length + equations.length),
            (prunedKg Kg).coeff r c * x c =
        (∑ c in Finset.range (6 * job.nodes.length),
            pruneValue (tripletSum (loadTies ts ties) r c) * x c) +
          rowSum (bcEntries (6 * job.nodes.length) BCs 0) r
            (6 * job.nodes.length + BCs.length + equations.length) x +
          rowSum (eqEntries (6 * job.nodes.length + BCs.length)
              (equations.map prunedEquation) 0) r
            (6 * job.nodes.length + BCs.length + equations.length) x := by
  obtain ⟨Kg1, ts, -, hl, hin, -, -, hins, hrows, hcols, hco, hfco, -⟩ :=
    augmentedSystem_spec h hsize hties
  exact ⟨ts, hl, hin, hrows, hcols, hco, hfco,
    fun x r => pruned_row_formula x hin hco (insertAll_nodup hins).1 r⟩

/-- The equation that a solution of the pruned system satisfies for the `i`-th multi-point
equation: the weighted sum over the coefficients that `Kg.prune(1.e-14)` leaves. -/
theorem solves_pruned_equation {sqrt : K → K} {job : Job K} {BCs : List (BC K)}
    {forces : List (Force K)} {ties : List (Tie K)} {equations : List (Equation K)}
    {a : GlobalStiffAssembler K} {Kg f : SparseMat K} {x : Nat → K}
    (h : augmentedSystem sqrt job BCs forces ties equations = some (a, Kg, f))
    (hw : WellFormed job BCs forces ties equations) (hx : Solves (prunedKg Kg) f x)
    (i : Nat) (eq : Equation K) (hi : equations[i]? = some eq) :
    (eq.terms.map fun t => pruneValue t.coefficient * x (6 * t.node_number + t.dof)).sum
      = 0 := by
  obtain ⟨hsize, -, hties, hbc, hfo, heq⟩ := hw
  obtain ⟨ts, -, hin, hrows, hcols, -, hfco, hform⟩ := prunedSystem_spec h hsize hties
  have hn : NUM_DOFS * job.nodes.length < 2 ^ 31 := by omega
  have hlt : i < equations.length := (List.getElem?_eq_some_iff.mp hi).1
  have hrow := hx (6 * job.nodes.length + BCs.length + i) (by rw [hrows]; omega)
  rw [hcols, hform] at hrow
  have h1 : ∑ c in Finset.range (6 * job.nodes.length),
      pruneValue (tripletSum (loadTies ts ties) (6 * job.nodes.length + BCs.length + i) c)
        * x c = 0 := by
    apply Finset.sum_eq_zero
    intro c _
    rw [tripletSum_eq_zero_of_inBlock hin _ c (Or.inl (by unfold NUM_DOFS; omega)),
      pruneValue_zero, zero_mul]
  have h2 : rowSum (bcEntries (6 * job.nodes.length) BCs 0)
      (6 * job.nodes.length + BCs.length + i)
      (6 * job.nodes.length + BCs.length + equations.length) x = 0 :=
    rowSum_bcEntries_eq_zero _ _ _ x BCs (Or.inr (by omega)) (fun b hb => by
      have := u32_dof _ b.node b.dof hn (hbc b hb).1 (hbc b hb).2
      omega)
  have hi' : (equations.map prunedEquation)[i]? = some (prunedEquation eq) := by
    rw [List.getElem?_map, hi]; rfl
  have h3 := rowSum_eqEntries (6 * job.nodes.length + BCs.length)
    (6 * job.nodes.length + BCs.length + equations.length) x (equations.map prunedEquation)
    0 i (prunedEquation eq)
    (fun q hq t ht => by
      obtain ⟨q0, hq0, rfl⟩ := List.mem_map.mp hq
      unfold prunedEquation at ht
      obtain ⟨t0, ht0, rfl⟩ := List.mem_map.mp ht
      have := u32_dof _ t0.node_number t0.dof hn (heq q0 hq0 t0 ht0).1 (heq q0 hq0 t0 ht0).2
      show u32 (u32 (NUM_DOFS * t0.node_number) + t0.dof) < _
      omega) (by omega) hi'
  have h4 : entrySum (bcRhs (6 * job.nodes.length) BCs 0)
      (6 * job.nodes.length + BCs.length + i) 0 = 0 :=
    entrySum_bcRhs_eq_zero _ _ BCs (Or.inr (by omega))
  have h5 : entrySum (forceEntries forces) (6 * job.nodes.length + BCs.length + i) 0 = 0 :=
    entrySum_forceEntries_eq_zero forces _ (fun fo hfo' => by
      have := u32_dof _ fo.node fo.dof hn (hfo fo hfo').1 (hfo fo hfo').2
      omega)
  simp only [add_zero] at h3
  rw [h1, h2, h3, hfco, entrySum_append, h4, h5] at hrow
  simp only [zero_add, add_zero] at hrow
  rw [← hrow]
  unfold prunedEquation
  rw [List.map_map]
  refine congrArg List.sum (List.map_congr_left fun t ht => ?_)
  have hmem : eq ∈ equations := List.mem_iff_getElem?.mpr ⟨i, hi⟩
  simp only [Function.comp]
  rw [(u32_dof _ t.node_number t.dof hn (heq eq hmem t ht).1 (heq eq hmem t ht).2).1]

/-- A vector that satisfies every row of the pruned augmented system solves it. -/
theorem solves_pruned_of_rows {sqrt : K → K} {job : Job K} {BCs : List (BC K)}
    {forces : List (Force K)} {ties : List (Tie K)} {equations : List (Equation K)}
    {a : GlobalStiffAssembler K} {Kg f : SparseMat K}
    (h : augmentedSystem sqrt job BCs forces ties equations = some (a, Kg, f))
    (hsize : NUM_DOFS * job.nodes.length + BCs.length + equations.length < 2 ^ 31)
    (hties : ValidTies job.nodes.length ties) (x : Nat → K)
    (hrows : ∀ ts, elemLoop sqrt job (GlobalStiffAssembler.init.resized job) []
        job.elems.length = some (a, ts) →
      ∀ r, r < 6 * job.nodes.length + BCs.length + equations.length →
        (∑ c in Finset.range (6 * job.nodes.length),
            pruneValue (tripletSum (loadTies ts ties) r c) * x c) +
          rowSum (bcEntries (6 * job.nodes.length) BCs 0) r
            (6 * job.nodes.length + BCs.length + equations.length) x +
          rowSum (eqEntries (6 * job.nodes.length + BCs.length)
              (equations.map prunedEquation) 0) r
            (6 * job.nodes.length + BCs.length + equations.length) x =
        entrySum (bcRhs (6 * job.nodes.length) BCs 0 ++ forceEntries forces) r 0) :
    Solves (prunedKg Kg) f x := by
  obtain ⟨ts, hl, -, hr, hc, -, hfco, hform⟩ := prunedSystem_spec h hsize hties
  intro r hlt
  rw [hr] at hlt
  rw [hc, hform, hfco]
  exact hrows ts hl r hlt

/-- The product of the standard stiffness with a vector that has axial entries only. -/
theorem stdBeamStiffness_mulVec_axial (EA EIy EIz GJ L : K) (v : Fin 12 → K)
    (hv : ∀ i : Fin 12, i ≠ 0 → i ≠ 6 → v i = 0) :
    (stdBeamStiffness EA EIy EIz GJ L).mulVec v = fun i =>
      if i = 0 then EA / L * (v 0 - v 6) else if i = 6 then -(EA / L * (v 0 - v 6)) else 0 := by
  obtain ⟨m0, m1, m2, m3, m4, m5, m6, m7, m8, m9, m10, m11⟩ :=
    stdBeamStiffness_mulVec EA EIy EIz GJ L v
  have v1 := hv 1 (by decide) (by decide)
  have v2 := hv 2 (by decide) (by decide)
  have v3 := hv 3 (by decide) (by decide)
  have v4 := hv 4 (by decide) (by decide)
  have v5 := hv 5 (by decide) (by decide)
  have v7 := hv 7 (by decide) (by decide)
  have v8 := hv 8 (by decide) (by decide)
  have v9 := hv 9 (by decide) (by decide)
  have v10 := hv 10 (by decide) (by decide)
  have v11 := hv 11 (by decide) (by decide)
  simp only [v1, v2, v3, v4, v5, v7, v8, v9, v10, v11] at m0 m1 m2 m3 m4 m5 m6 m7 m8 m9 m10 m11
  funext i
  fin_cases i
  · simpa using m0
  · simpa using m1
  · simpa using m2
  · simpa using m3
  · simpa using m4
  · simpa using m5
  · simpa using m6
  · simpa using m7
  · simpa using m8
  · simpa using m9
  · simpa using m10
  · simpa using m11

theorem sum_ite_val (g : Fin 12 → K) (r : Nat) :
    (∑ i : Fin 12, if i.val = r then g i else 0) = if h : r < 12 then g ⟨r, h⟩ else 0 := by
  split_ifs with h
  · exact sum_ite_val_eq g ⟨r, h⟩
  · apply Finset.sum_eq_zero
    intro i _
    have := i.isLt
    rw [if_neg (by omega)]

/-- The entries of the columns 0 and 6 of the standard stiffness, read off a product. -/
theorem axial_col_entry (A : K) (r : Nat) :
    (if h : r < 12 then
      (fun i : Fin 12 => if i = 0 then A else if i = 6 then -A else 0) ⟨r, h⟩ else 0) =
      if r = 0 then A else if r = 6 then -A else 0 := by
  by_cases h0 : r = 0
  · subst h0
    simp
  · by_cases h6 : r = 6
    · subst h6
      simp
    · rw [if_neg h0, if_neg h6]
      split_ifs with h
      · have e0 : (⟨r, h⟩ : Fin 12) ≠ 0 := fun he => h0 (congrArg Fin.val he)
        have e6 : (⟨r, h⟩ : Fin 12) ≠ 6 := fun he => h6 (congrArg Fin.val he)
        simp only [e0, e6, if_false]
      · rfl

/-- The columns 0 and 6 of the stiffness block of the cantilever. -/
theorem cantilever_axial_cols (sqrt : K → K) (hsqrt : ∀ x : K, 0 ≤ x → sqrt (x * x) = x)
    (L EA EIy EIz GJ : K) (hL : 0 < L) (a : GlobalStiffAssembler K) (ts : List (Triplet K))
    (hl : elemLoop sqrt (cantileverJob L EA EIy EIz GJ)
      (GlobalStiffAssembler.init.resized (cantileverJob L EA EIy EIz GJ)) [] 1 = some (a, ts))
    (r : Nat) :
    tripletSum (loadTies ts []) r 0 =
      (if r = 0 then EA / L else if r = 6 then -(EA / L) else 0) ∧
    tripletSum (loadTies ts []) r 6 =
      (if r = 0 then -(EA / L) else if r = 6 then EA / L else 0) := by
  have hcol : ∀ c : Nat, c < 12 → tripletSum (loadTies ts []) r c =
      ∑ i : Fin 12, if i.val = r then
        (stdBeamStiffness EA EIy EIz GJ L).mulVec
          (fun j : Fin 12 => if j.val = c then (1 : K) else 0) i else 0 := by
    intro c hc
    rw [← cantilever_block_row sqrt hsqrt L EA EIy EIz GJ hL a ts hl
      (fun k => if k = c then 1 else 0) r]
    simp [Finset.sum_ite_eq, hc]
  have v0 : ((0 : Fin 12) : ℕ) = 0 := rfl
  have v6 : ((6 : Fin 12) : ℕ) = 6 := rfl
  constructor
  · rw [hcol 0 (by decide), stdBeamStiffness_mulVec_axial, sum_ite_val]
    · simp only [v0, v6, if_true, show ¬((6 : ℕ) = 0) by decide, if_false, sub_zero, mul_one]
      exact axial_col_entry (EA / L) r
    · intro i hi0 hi6
      have : i.val ≠ 0 := fun h => hi0 (Fin.ext h)
      simp [this]
  · rw [hcol 6 (by decide), stdBeamStiffness_mulVec_axial, sum_ite_val]
    · simp only [v0, v6, if_true, show ¬((0 : ℕ) = 6) by decide, if_false, zero_sub, mul_neg,
        mul_one, neg_neg]
      have := axial_col_entry (-(EA / L)) r
      rwa [neg_neg] at this
    · intro i hi0 hi6
      have : i.val ≠ 6 := fun h => hi6 (Fin.ext h)
      simp [this]

/-- The product of a row of the pruned stiffness block of the cantilever with a vector that
has axial entries only, when the axial stiffness is above the threshold of the prune. -/
theorem cantilever_pruned_axial (sqrt : K → K) (hsqrt : ∀ x : K, 0 ≤ x → sqrt (x * x) = x)
    (L EA EIy EIz GJ : K) (hL : 0 < L) (a : GlobalStiffAssembler K) (ts : List (Triplet K))
    (hl : elemLoop sqrt (cantileverJob L EA EIy EIz GJ)
      (GlobalStiffAssembler.init.resized (cantileverJob L EA EIy EIz GJ)) [] 1 = some (a, ts))
    (hbig : |(1 : K) / 10 ^ 14| * dummy_precision < |EA / L|)
    (x : Nat → K) (hx : ∀ c, c < 12 → c ≠ 0 → c ≠ 6 → x c = 0) (r : Nat) :
    ∑ c in Finset.range 12, pruneValue (tripletSum (loadTies ts []) r c) * x c =
      if r = 0 then EA / L * (x 0 - x 6) else if r = 6 then -(EA / L * (x 0 - x 6)) else 0 := by
  rw [Finset.sum_eq_add 0 6 (by decide)
    (fun c hc hne => by rw [hx c (Finset.mem_range.mp hc) hne.1 hne.2, mul_zero])
    (fun h => absurd (Finset.mem_range.mpr (by decide)) h)
    (fun h => absurd (Finset.mem_range.mpr (by decide)) h)]
  obtain ⟨c0, c6⟩ := cantilever_axial_cols sqrt hsqrt L EA EIy EIz GJ hL a ts hl r
  rw [c0, c6]
  have hneg : pruneValue (-(EA / L)) = -(EA / L) :=
    pruneValue_of_large _ (by rw [abs_neg]; exact hbig)
  by_cases h0 : r = 0
  · subst h0
    simp only [if_true, pruneValue_of_large _ hbig, hneg]
    ring
  · by_cases h6 : r = 6
    · subst h6
      simp only [if_true, show ¬((6 : ℕ) = 0) by decide, if_false, pruneValue_of_large _ hbig,
        hneg]
      ring
    · simp only [h0, h6, if_false, pruneValue_zero]
      ring

theorem prune_threshold_lt (v : ℚ) (h : 1 / 10 ^ 26 < |v|) :
    |(1 : ℚ) / 10 ^ 14| * dummy_precision < |v| := by
  have : |(1 : ℚ) / 10 ^ 14| * dummy_precision = 1 / 10 ^ 26 := by
    norm_num [dummy_precision, abs_of_pos]
  rw [this]
  exact h

theorem pruneValue_tiny : pruneValue ((1 : ℚ) / 10 ^ 27) = 0 := by
  unfold pruneValue
  rw [if_pos]
  norm_num [dummy_precision, abs_of_pos]

theorem bcRhs_shiftBCs : bcRhs 12 shiftBCs 0 = [(12, 0, 6)] := by
  simp only [shiftBCs]
  rw [bcRhs_cons_of_gt _ _ _ _ (by norm_num [dbl_epsilon, abs_of_pos]),
    bcRhs_cons_zero _ _ _ _ rfl, bcRhs_cons_zero _ _ _ _ rfl, bcRhs_cons_zero _ _ _ _ rfl,
    bcRhs_cons_zero _ _ _ _ rfl, bcRhs_cons_zero _ _ _ _ rfl]
  rfl

theorem bcRhs_fixedEnd : bcRhs 12 (fixedEnd : List (BC ℚ)) 0 = [] := by
  simp only [fixedEnd]
  rw [bcRhs_cons_zero _ _ _ _ rfl, bcRhs_cons_zero _ _ _ _ rfl, bcRhs_cons_zero _ _ _ _ rfl,
    bcRhs_cons_zero _ _ _ _ rfl, bcRhs_cons_zero _ _ _ _ rfl, bcRhs_cons_zero _ _ _ _ rfl]
  rfl

theorem shift_wellFormed : WellFormed exampleJob shiftBCs [] [] shiftEquations := by
  refine ⟨by decide, validElems_exampleJob, fun t ht => by simp at ht, ?_,
    fun t ht => by simp at ht, ?_⟩
  · intro bc hbc
    simp only [shiftBCs, List.mem_cons, List.mem_singleton, List.not_mem_nil, or_false] at hbc
    rcases hbc with rfl | rfl | rfl | rfl | rfl | rfl <;> simp [exampleJob]
  · intro q hq t ht
    simp only [shiftEquations, List.mem_singleton] at hq
    subst hq
    simp only [List.mem_cons, List.mem_singleton, List.not_mem_nil, or_false] at ht
    rcases ht with rfl | rfl <;> simp [exampleJob]

/-- The system of `exampleJob` with `shiftBCs` and `shiftEquations`: the build returns a
system, and `shiftSolution` solves the pruned system that `solve` hands to the solver. -/
theorem shift_system :
    ∃ (a : GlobalStiffAssembler ℚ) (Kg f : SparseMat ℚ),
      augmentedSystem Rat.sqrt exampleJob shiftBCs [] [] shiftEquations = some (a, Kg, f) ∧
      Solves (prunedKg Kg) f shiftSolution := by
  have hw := shift_wellFormed
  obtain ⟨a, Kg, f, h⟩ := augmentedSystem_isSome Rat.sqrt exampleJob shiftBCs
    [] [] shiftEquations hw (by simp) (by simp [shiftEquations])
  refine ⟨a, Kg, f, h, solves_pruned_of_rows h hw.1 hw.2.2.1 _ ?_⟩
  intro ts hl r hr
  have hnodes : exampleJob.nodes.length = 2 := rfl
  have hlen : exampleJob.elems.length = 1 := rfl
  rw [hlen] at hl
  rw [hnodes] at hr ⊢
  have h12 : 6 * 2 = 12 := rfl
  rw [h12]
  rw [cantilever_pruned_axial Rat.sqrt rat_sqrt_sq 2 3 7 5 11 (by norm_num) a ts hl
    (prune_threshold_lt _ (by norm_num [abs_of_pos])) shiftSolution
    (fun c _ h0 h6 => by simp [shiftSolution, h0, h6]) r, bcRhs_shiftBCs]
  simp only [shiftBCs, shiftEquations, prunedEquation, bcEntries, eqEntries, termEntries,
    forceEntries, rowSum_cons, entrySum_cons, List.map_cons, List.map_nil, List.length_cons,
    List.length_nil, List.append_nil, List.nil_append, List.cons_append, u32, NUM_DOFS,
    pruneValue_one, pruneValue_neg_one]
  simp only [rowSum, entrySum, List.map_nil, List.sum_nil, shiftSolution]
  replace hr : r < 19 := hr
  interval_cases r <;> norm_num

theorem tinyEquation_wellFormed :
    WellFormed exampleJob fixedEnd [{ node := 1, dof := 0, value := 9 }] [] tinyEquations := by
  refine ⟨by decide, validElems_exampleJob, fun t ht => by simp at ht, ?_, ?_, ?_⟩
  · intro bc hbc
    obtain ⟨h1, h2, -⟩ := fixedEnd_fixed bc hbc
    simp [exampleJob, h1, h2]
  · intro fo hfo
    simp only [List.mem_singleton] at hfo
    subst hfo
    simp [exampleJob]
  · intro q hq t ht
    simp only [tinyEquations, List.mem_singleton] at hq
    subst hq
    simp only [List.mem_cons, List.mem_singleton, List.not_mem_nil, or_false] at ht
    rcases ht with rfl | rfl <;> simp [exampleJob]

/-- The system of the loaded cantilever with `tinyEquations`: the build returns a system, and
`cantileverSolution` solves the pruned system that `solve` hands to the solver. -/
theorem tinyEquation_system :
    ∃ (a : GlobalStiffAssembler ℚ) (Kg f : SparseMat ℚ),
      augmentedSystem Rat.sqrt exampleJob fixedEnd [{ node := 1, dof := 0, value := 9 }] []
        tinyEquations = some (a, Kg, f) ∧
      Solves (prunedKg Kg) f cantileverSolution := by
  have hw := tinyEquation_wellFormed
  obtain ⟨a, Kg, f, h⟩ := augmentedSystem_isSome Rat.sqrt exampleJob fixedEnd
    [{ node := 1, dof := 0, value := 9 }] [] tinyEquations hw (by simp)
    (by simp [tinyEquations])
  refine ⟨a, Kg, f, h, solves_pruned_of_rows h hw.1 hw.2.2.1 _ ?_⟩
  intro ts hl r hr
  have hnodes : exampleJob.nodes.length = 2 := rfl
  have hlen : exampleJob.elems.length = 1 := rfl
  rw [hlen] at hl
  rw [hnodes] at hr ⊢
  have h12 : 6 * 2 = 12 := rfl
  rw [h12]
  rw [cantilever_pruned_axial Rat.sqrt rat_sqrt_sq 2 3 7 5 11 (by norm_num) a ts hl
    (prune_threshold_lt _ (by norm_num [abs_of_pos])) cantileverSolution
    (fun c hc h0 h6 => by
      have : c ≠ 12 := by omega
      simp [cantileverSolution, h6, this]) r, bcRhs_fixedEnd]
  simp only [fixedEnd, tinyEquations, prunedEquation, bcEntries, eqEntries, termEntries,
    forceEntries, rowSum_cons, entrySum_cons, List.map_cons, List.map_nil, List.length_cons,
    List.length_nil, List.append_nil, List.nil_append, List.cons_append, u32, NUM_DOFS,
    pruneValue_one, pruneValue_tiny]
  simp only [rowSum, entrySum, List.map_nil, List.sum_nil, cantileverSolution]
  replace hr : r < 19 := hr
  interval_cases r <;> norm_num

/-- Claim C5, amended: `solve` hands the augmented system to the solver after
`Kg.prune(1.e-14)`.  For well-formed input and every vector `x` that solves that system, the
weighted sum of `coefficient * x[6 * node + dof]` over the terms of each equation whose
coefficient exceeds `1e-14 * 1e-12` in magnitude is zero (for a solution of the system as it
stands before the prune, the sum over all terms is zero); in particular, for an equation with
the terms `+1` at `p` and `-1` at `q`, the nodal displacements that `solve` reports at `p`
and at `q` are identical, whatever `epsilon`. -/
theorem equation_enforced_above_prune_threshold (sqrt : K → K) (job : Job K)
    (BCs : List (BC K)) (forces : List (Force K)) (ties : List (Tie K))
    (equations : List (Equation K)) (a : GlobalStiffAssembler K) (Kg f : SparseMat K)
    (hw : WellFormed job BCs forces ties equations)
    (h : augmentedSystem sqrt job BCs forces ties equations = some (a, Kg, f)) :
    (∀ x : Nat → K, Solves (prunedKg Kg) f x → ∀ eq ∈ equations,
      (eq.terms.map fun t =>
        (if |t.coefficient| ≤ |(1 : K) / 10 ^ 14| * (1 / 10 ^ 12) then 0 else t.coefficient) *
          x (6 * t.node_number + t.dof)).sum = 0) ∧
    (∀ x : Nat → K, Solves Kg f x → ∀ eq ∈ equations,
      (eq.terms.map fun t => t.coefficient * x (6 * t.node_number + t.dof)).sum = 0) ∧
    (∀ (solver : SparseMat K → SparseMat K → Option (Nat → K)) (epsilon : K)
        (summary : Summary K),
      solve sqrt solver job BCs forces ties equations epsilon = some summary →
      (∀ disp, solver (prunedKg Kg) f = some disp → Solves (prunedKg Kg) f disp) →
      ∀ eq ∈ equations, ∀ p q : Term K, eq.terms = [p, q] → p.coefficient = 1 →
        q.coefficient = -1 →
        ∃ v, tableAt summary.nodal_displacements p.node_number p.dof = some v ∧
          tableAt summary.nodal_displacements q.node_number q.dof = some v) := by
  have hpruned : ∀ x : Nat → K, Solves (prunedKg Kg) f x → ∀ eq ∈ equations,
      (eq.terms.map fun t => pruneValue t.coefficient * x (6 * t.node_number + t.dof)).sum
        = 0 := by
    intro x hx eq heq
    obtain ⟨i, hi⟩ := List.mem_iff_getElem?.mp heq
    exact solves_pruned_equation h hw hx i eq hi
  refine ⟨hpruned, fun x hx eq heq => ?_, fun solver epsilon summary hrun hsol eq heq p q hpq
    hp hq => ?_⟩
  · obtain ⟨i, hi⟩ := List.mem_iff_getElem?.mp heq
    exact solves_equation h hw hx i eq hi
  · obtain ⟨a', Kg', f', disp, hs', hd, hnd, -, -, -⟩ := solve_eq_some hrun
    rw [h] at hs'
    simp only [Option.some.injEq, Prod.mk.injEq] at hs'
    obtain ⟨rfl, rfl, rfl⟩ := hs'
    have hsum := hpruned disp (hsol disp hd) eq heq
    rw [hpq] at hsum
    simp only [List.map_cons, List.map_nil, List.sum_cons, List.sum_nil, add_zero, hp, hq,
      pruneValue_one, pruneValue_neg_one, one_mul, neg_mul] at hsum
    have hxeq : disp (6 * p.node_number + p.dof) = disp (6 * q.node_number + q.dof) := by
      linarith
    have hpm : p ∈ eq.terms := by rw [hpq]; simp
    have hqm : q ∈ eq.terms := by rw [hpq]; simp
    obtain ⟨hp1, hp2⟩ := hw.2.2.2.2.2 eq heq p hpm
    obtain ⟨hq1, hq2⟩ := hw.2.2.2.2.2 eq heq q hqm
    refine ⟨if |disp (6 * p.node_number + p.dof)| < epsilon then 0
      else disp (6 * p.node_number + p.dof), ?_, ?_⟩
    · rw [hnd]; exact tableAt_disp_vec _ _ _ _ _ hp1 hp2
    · rw [hnd, hxeq]; exact tableAt_disp_vec _ _ _ _ _ hq1 hq2

theorem equation_enforced_above_prune_threshold_witness :
    ∃ (a : GlobalStiffAssembler ℚ) (Kg f : SparseMat ℚ) (summary : Summary ℚ),
      augmentedSystem Rat.sqrt exampleJob shiftBCs [] [] shiftEquations = some (a, Kg, f) ∧
      Solves (prunedKg Kg) f shiftSolution ∧
      solve Rat.sqrt shiftSolver exampleJob shiftBCs [] [] shiftEquations (1 / 10 ^ 9)
        = some summary ∧
      tableAt summary.nodal_displacements 0 0 = some 6 ∧
      tableAt summary.nodal_displacements 1 0 = some 6 := by
  obtain ⟨a, Kg, f, h, hx⟩ := shift_system
  obtain ⟨summary, hrun⟩ := solve_isSome (1 / 10 ^ 9 : ℚ) shift_wellFormed h
    (show shiftSolver (prunedKg Kg) f = some shiftSolution from rfl)
  obtain ⟨v, hv0, hv1⟩ := (equation_enforced_above_prune_threshold Rat.sqrt exampleJob shiftBCs
    [] [] shiftEquations a Kg f shift_wellFormed h).2.2 shiftSolver (1 / 10 ^ 9) summary hrun
    (fun disp hd => by
      simp only [shiftSolver, Option.some.injEq] at hd
      subst hd
      exact hx)
    { terms := [{ node_number := 0, dof := 0, coefficient := 1 },
                { node_number := 1, dof := 0, coefficient := -1 }] }
    (by simp [shiftEquations])
    { node_number := 0, dof := 0, coefficient := 1 }
    { node_number := 1, dof := 0, coefficient := -1 } rfl rfl rfl
  obtain ⟨a', Kg', f', disp, -, hd, hnd, -, -, -⟩ := solve_eq_some hrun
  simp only [shiftSolver, Option.some.injEq] at hd
  subst hd
  have h00 : tableAt summary.nodal_displacements 0 0 = some 6 := by
    rw [hnd, tableAt_disp_vec _ _ _ 0 0 (by decide) (by decide)]
    norm_num [shiftSolution, abs_of_pos]
  have hv : v = 6 := by
    rw [hv0] at h00
    exact Option.some.inj h00
  subst hv
  exact ⟨a, Kg, f, summary, h, hx, hrun, hv0, hv1⟩

/-- Claim C5 as stated fails: for the loaded cantilever with the equation
`1e-27 * ux + 1 * uy = 0` at node 1, `Kg.prune(1.e-14)` drops the coefficient `1e-27`; the
solver's result `cantileverSolution` solves the system that `solve` hands to the solver, the
run reports the displacements 6 and 0 at the two terms, and the weighted sum of the equation
is `6e-27`, not zero. -/
theorem tiny_equation_coefficient_not_enforced :
    ∃ (a : GlobalStiffAssembler ℚ) (Kg f : SparseMat ℚ) (summary : Summary ℚ),
      augmentedSystem Rat.sqrt exampleJob fixedEnd [{ node := 1, dof := 0, value := 9 }] []
        tinyEquations = some (a, Kg, f) ∧
      Solves (prunedKg Kg) f cantileverSolution ∧
      solve Rat.sqrt cantileverSolver exampleJob fixedEnd
        [{ node := 1, dof := 0, value := 9 }] [] tinyEquations (1 / 10 ^ 9) = some summary ∧
      tableAt summary.nodal_displacements 1 0 = some 6 ∧
      tableAt summary.nodal_displacements 1 1 = some 0 ∧
      (tinyEquations.map fun eq => (eq.terms.map fun t =>
        t.coefficient * cantileverSolution (6 * t.node_number + t.dof)).sum)
        = [6 / 10 ^ 27] ∧
      (6 : ℚ) / 10 ^ 27 ≠ 0 := by
  obtain ⟨a, Kg, f, h, hx⟩ := tinyEquation_system
  obtain ⟨summary, hrun⟩ := solve_isSome (1 / 10 ^ 9 : ℚ) tinyEquation_wellFormed h
    (show cantileverSolver (prunedKg Kg) f = some cantileverSolution from rfl)
  obtain ⟨a', Kg', f', disp, -, hd, hnd, -, -, -⟩ := solve_eq_some hrun
  simp only [cantileverSolver, Option.some.injEq] at hd
  subst hd
  refine ⟨a, Kg, f, summary, h, hx, hrun, ?_, ?_, ?_, by norm_num⟩
  · rw [hnd, tableAt_disp_vec _ _ _ 1 0 (by decide) (by decide)]
    norm_num [cantileverSolution, abs_of_pos]
  · rw [hnd, tableAt_disp_vec _ _ _ 1 1 (by decide) (by decide)]
    norm_num [cantileverSolution]
  · simp only [tinyEquations, List.map_cons, List.map_nil, List.sum_cons, List.sum_nil,
      cantileverSolution]
    norm_num

end fea
